import Mathlib

/-!
# Verification of the PROVED uncertain-trace realization pipeline

This file gives a shallow embedding, in Lean 4, of the core pipeline of the
`proved` library:

* `src/proved/artifacts/behavior_graph/behavior_graph.py`
  (`BehaviorGraph.__init__`, `create_nodes_tuples`, `process_event`,
  `add_node_tuples`, `add_nodes_from_graph`, `add_edges_from_nodes`),
* `src/proved/artifacts/behavior_net/behavior_net.py` (`BehaviorNet.__init__`),
* `src/proved/artifacts/behavior_net/utils.py` (`acyclic_net_variants`,
  `explore_marking`),
* `src/proved/artifacts/uncertain_log/trace_probability_calculator.py`
  (`bound_func`, `bounds_proper`, `probability`, `calculate_integral`,
  `calculate_realizations_probabilities` with its inner `calculate_PO`,
  `calculate_PA`, `calculate_P_missing`),
* `src/proved/artifacts/uncertain_log/realization_set_aggregator.py`
  (`get_unique_realizations`),
* `src/proved/artifacts/uncertain_log/utils.py` (`realization_set`),

and proves properties of that embedding.

Modelling conventions:

* Python numbers (timestamps after `.timestamp()`, probabilities) are modelled
  as rationals `ℚ`; float rounding is not modelled.
* A pm4py `Event` is modelled as a record of optional fields, one per XES key
  the code reads (`None` field = key absent).  The configurable key names are
  fixed to their defaults; the code only tests key presence, so this loses no
  behaviour.
* Python exceptions are modelled with `Except`: a `KeyError` raised by
  `event[key]` becomes `Except.error (.keyError key)`.
* pm4py `Marking` objects are `Counter`s, i.e. multisets of places.  We model a
  marking as a `List Place` and make every observation on markings
  (enabledness, equality, the visited-set membership test) count-based, hence
  invariant under permutation of the list, exactly matching multiset
  semantics.
* The recursive `explore_marking` has no termination guarantee in Python (it
  can blow the stack on nets with always-enabled transitions); we model it
  with explicit fuel, `none` meaning the recursion did not terminate within
  the given fuel.
* The external `scipy.integrate.nquad` routine is not code of this repository;
  it is modelled as an opaque parameter (an "integrator" function) that
  receives exactly the data the code hands to `nquad`: the integrand, the
  bounds functions, and the options dictionary, and returns a
  `(value, error-estimate)` pair as `nquad` does.
* Python's stable `list.sort` is modelled by a stable insertion sort.
-/

namespace Proved

/-- Activity labels: `none` models Python `None` (the "absent" alternative of
an indeterminate event, and the label of silent transitions). -/
abbrev Lbl := Option String

/-- Python exceptions raised by the pipeline.  The code under scrutiny can
only ever raise `KeyError` (from `event[key]` on a missing key); the
`validationError` constructor exists so that the spec's claimed
`ValidationError` behaviour can be stated and compared. -/
inductive PyErr where
  | keyError (key : String)
  | validationError (msg : String)
deriving DecidableEq, Repr

/-- Bind on `Except.ok` steps into the continuation. -/
@[simp] theorem except_bind_ok (a : α) (f : α → Except ε β) :
    (Except.ok a >>= f) = f a := rfl

/-- Bind on `Except.error` short-circuits. -/
@[simp] theorem except_bind_error (e : ε) (f : α → Except ε β) :
    ((Except.error e : Except ε α) >>= f) = Except.error e := rfl

/-- Pure on `Except` is `Except.ok`. -/
@[simp] theorem except_pure_eq (a : α) : (pure a : Except ε α) = Except.ok a := rfl

/-- Map over `Except.ok`. -/
@[simp] theorem except_map_ok (f : α → β) (a : α) :
    (f <$> (Except.ok a : Except ε α)) = Except.ok (f a) := rfl

/-- Map over `Except.error`. -/
@[simp] theorem except_map_error (f : α → β) (e : ε) :
    (f <$> (Except.error e : Except ε α)) = Except.error e := rfl

/-- An input uncertain event: the pm4py `Event` dict, with one optional field
per XES key read by `BehaviorGraph` (default key names).  `uActivity` models
`event[u_activity_key]['children']` as an association list label ↦
probability (a Python dict, so its keys are distinct). -/
structure UEvent where
  timestamp : Option ℚ := none
  label : Option String := none
  uMissing : Option ℚ := none
  uTimestampMin : Option ℚ := none
  uTimestampMax : Option ℚ := none
  uActivity : Option (List (String × ℚ)) := none
deriving DecidableEq, Repr

/-- The per-label uncertainty dictionary built by
`BehaviorGraph.process_event` (`common_uncertainty_info` plus the label's own
entries).  Fields mirror the keys the code stores: the certain timestamp, the
missing probability, the interval bounds, and (for label-uncertain events)
the chosen label's probability. -/
structure UInfo where
  timestamp : ℚ := 0
  uMissing : Option ℚ := none
  uTimestampMin : Option ℚ := none
  uTimestampMax : Option ℚ := none
  uActivity : Option ℚ := none
deriving DecidableEq, Repr

/-- The empty uncertainty dictionary (`{}` in Python), used as the default of
`dict.get`. -/
def emptyUInfo : UInfo := {}

/-- A graph node's payload: `(event_index, ((label, uncertainty_info), ...))`
as returned by `process_event`. -/
abbrev GNode := ℕ × List (Lbl × UInfo)

/-! ## Stable insertion sort (model of Python's stable `list.sort`) -/

/-- Insert `a` after every element `b` with `le b a`; with a total preorder
`le` this is the stable insertion position. -/
def sinsert (le : α → α → Bool) (a : α) : List α → List α
  | [] => [a]
  | b :: bs => if le b a then b :: sinsert le a bs else a :: b :: bs

/-- Stable insertion sort: processes elements left to right, so elements with
equal keys keep their original relative order, like Python's `list.sort`. -/
def ssort (le : α → α → Bool) (l : List α) : List α :=
  l.foldl (fun acc a => sinsert le a acc) []

/-! ## `BehaviorGraph`: node construction -/

/-- Model of `BehaviorGraph.process_event` (behavior_graph.py lines 71-111).
Returns the node tuple `(event_index, event_options)`; a missing required key
raises `KeyError`.  Key accesses happen in source order: `timestamp` first
(line 86), then the label handling (lines 96-103), then the missing-event
option (lines 106-109). -/
def process_event (e : UEvent) (i : ℕ) : Except PyErr GNode := do
  let ts ← match e.timestamp with
    | some t => Except.ok t
    | none => Except.error (.keyError "time:timestamp")
  let common : UInfo :=
    { timestamp := ts
      uMissing := e.uMissing
      uTimestampMin := if e.uTimestampMin.isSome && e.uTimestampMax.isSome then e.uTimestampMin else none
      uTimestampMax := if e.uTimestampMin.isSome && e.uTimestampMax.isSome then e.uTimestampMax else none }
  let base ← match e.uActivity with
    | some children =>
        Except.ok (children.map (fun lp => ((some lp.1 : Lbl), { common with uActivity := some lp.2 })))
    | none => match e.label with
      | some l => Except.ok [((some l : Lbl), common)]
      | none => Except.error (.keyError "concept:name")
  let missingOpt : List (Lbl × UInfo) := match e.uMissing with
    | some p => if p ≤ 1 then [((none : Lbl), { common with uMissing := some (1 - p) })] else []
    | none => []
  return (i, base ++ missingOpt)

/-- Model of `BehaviorGraph.add_node_tuples` (lines 114-134): the two sort
markers `(time, node, timestamp_type)` contributed by one event; `false` is
the interval's lower end ("open"), `true` the upper end ("close"). -/
def add_node_tuples (e : UEvent) (node : GNode) : Except PyErr (List (ℚ × GNode × Bool)) := do
  match e.uTimestampMin with
  | none =>
      let ts ← match e.timestamp with
        | some t => Except.ok t
        | none => Except.error (.keyError "time:timestamp")
      return [(ts, node, false), (ts, node, true)]
  | some tmin =>
      let tmax ← match e.uTimestampMax with
        | some t => Except.ok t
        | none => Except.error (.keyError "uncertainty:timestamp_max")
      return [(tmin, node, false), (tmax, node, true)]

/-- Lexicographic Boolean comparison on sort keys `(time, timestamp_type)`
with `false < true`, i.e. Python's `operator.itemgetter(0, 2)` key order. -/
def keyLe (a b : ℚ × GNode × Bool) : Bool :=
  if a.1 = b.1 then !a.2.2 || b.2.2 else decide (a.1 ≤ b.1)

/-- The marker-collection loop of `create_nodes_tuples` (lines 61-64): for
the `i`-th and later events, process each event and append its two markers,
stopping at the first `KeyError`. -/
def collect_markers : List UEvent → ℕ → Except PyErr (List (ℚ × GNode × Bool))
  | [], _ => Except.ok []
  | e :: rest, i => do
    let node ← process_event e i
    let pair ← add_node_tuples e node
    let tail ← collect_markers rest (i + 1)
    return pair ++ tail

/-- The sorted marker list of `create_nodes_tuples` (lines 53-66), before the
time component is dropped. -/
def sorted_triples (trace : List UEvent) : Except PyErr (List (ℚ × GNode × Bool)) := do
  let acc ← collect_markers trace 0
  return ssort keyLe acc

/-- Model of `BehaviorGraph.create_nodes_tuples` (lines 53-68): the sorted
marker list with the time component dropped. -/
def create_nodes_tuples (trace : List UEvent) : Except PyErr (List (GNode × Bool)) := do
  let triples ← sorted_triples trace
  return triples.map (fun t => (t.2.1, t.2.2))

/-! ## `BehaviorGraph`: edge construction -/

/-- One forward scan of `add_edges_from_nodes` (lines 171-178), from the close
marker of `node1` through the subsequent markers.  `edge` is the Python local
variable holding the most recently emitted edge of this scan (`none` before
the first open marker is seen); the scan `break`s at a close marker whenever
`edge in edges_list`. -/
def edge_scan (node1 : GNode) : List (GNode × Bool) → List (ℕ × ℕ) → Option (ℕ × ℕ) → List (ℕ × ℕ)
  | [], edges, _ => edges
  | p :: rest, edges, none =>
    if p.2 = false then
      edge_scan node1 rest (edges ++ [(node1.1, p.1.1)]) (some (node1.1, p.1.1))
    else edge_scan node1 rest edges none
  | p :: rest, edges, some e0 =>
    if p.2 = false then
      edge_scan node1 rest (edges ++ [(node1.1, p.1.1)]) (some (node1.1, p.1.1))
    else if e0 ∈ edges then edges
    else edge_scan node1 rest edges (some e0)

/-- The outer loop of `add_edges_from_nodes` (lines 166-178): for every close
marker, run the forward scan, threading the shared `edges_list`. -/
def edges_pass : List (GNode × Bool) → List (ℕ × ℕ) → List (ℕ × ℕ)
  | [], edges => edges
  | p :: rest, edges =>
    if p.2 then edges_pass rest (edge_scan p.1 rest edges none)
    else edges_pass rest edges

/-- Model of `BehaviorGraph.add_edges_from_nodes` (lines 160-179).  Edges are
identified by the event indices of their endpoints (the Python edge tuples
also carry the frozenset of labels, but that is a function of the index, so
tuple equality coincides with index-pair equality). -/
def add_edges_from_nodes (nodeTuples : List (GNode × Bool)) : List (ℕ × ℕ) :=
  edges_pass nodeTuples []

/-- Auxiliary recursion for `dedupFirst`, carrying the set of elements seen
so far. -/
def dedupFirstAux [DecidableEq α] (seen : List α) : List α → List α
  | [] => []
  | a :: l => if a ∈ seen then dedupFirstAux seen l else a :: dedupFirstAux (seen ++ [a]) l

/-- Keep the first occurrence of each element, dropping later duplicates --
the deduplication `networkx.DiGraph` performs on repeated `add_node` /
`add_edge`, which keeps first-insertion order. -/
def dedupFirst [DecidableEq α] (l : List α) : List α :=
  dedupFirstAux [] l

/-- The behavior graph: `nodes` in networkx insertion order (first marker
occurrence), each carrying its label alternatives with their uncertainty
dictionaries (`add_nodes_from_graph`, lines 137-157), and the directed
`edges` (deduplicated by networkx). -/
structure BGraph where
  nodes : List GNode
  edges : List (ℕ × ℕ)
deriving DecidableEq, Repr

/-- Model of `BehaviorGraph.__init__` (lines 27-49): build the node tuples,
add nodes, add edges. -/
def behavior_graph (trace : List UEvent) : Except PyErr BGraph := do
  let nodeTuples ← create_nodes_tuples trace
  let nodes := dedupFirst (nodeTuples.map Prod.fst)
  let edges := dedupFirst (add_edges_from_nodes nodeTuples)
  return ⟨nodes, edges⟩

/-- The lower end of an event's occurrence interval, exactly as
`add_node_tuples` places its open marker: the uncertain minimum when
present, else the certain timestamp. -/
def openTime (e : UEvent) : ℚ :=
  match e.uTimestampMin with
  | some tmin => tmin
  | none => e.timestamp.getD 0

/-- The upper end of an event's occurrence interval, exactly as
`add_node_tuples` places its close marker. -/
def closeTime (e : UEvent) : ℚ :=
  match e.uTimestampMin with
  | some _ => e.uTimestampMax.getD 0
  | none => e.timestamp.getD 0

/-! ## Properties of the stable sort -/

/-- Inserting permutes to consing. -/
theorem sinsert_perm (le : α → α → Bool) (a : α) (l : List α) :
    (sinsert le a l).Perm (a :: l) := by
  induction l with
  | nil => exact List.Perm.refl _
  | cons b bs ih =>
      rw [sinsert]
      by_cases h : le b a = true
      · rw [if_pos h]
        exact (ih.cons b).trans (List.Perm.swap a b bs)
      · rw [if_neg h]

/-- The stable sort is a permutation. -/
theorem ssort_perm_aux (le : α → α → Bool) (l : List α) :
    ∀ acc, (l.foldl (fun acc a => sinsert le a acc) acc).Perm (acc ++ l) := by
  induction l with
  | nil => intro acc; simp
  | cons a l ih =>
      intro acc
      rw [List.foldl_cons]
      refine (ih (sinsert le a acc)).trans ?_
      refine (((sinsert_perm le a acc).append_right l).trans ?_)
      exact (List.perm_middle).symm

/-- `ssort` permutes its input. -/
theorem ssort_perm (le : α → α → Bool) (l : List α) : (ssort le l).Perm l := by
  simpa using ssort_perm_aux le l []

/-- Inserting into a `le`-pairwise list keeps it pairwise, for a total and
transitive `le`. -/
theorem sinsert_pairwise (le : α → α → Bool)
    (htot : ∀ a b, le a b || le b a)
    (htrans : ∀ a b c, le a b = true → le b c = true → le a c = true)
    (a : α) (l : List α) (h : l.Pairwise (fun x y => le x y = true)) :
    (sinsert le a l).Pairwise (fun x y => le x y = true) := by
  induction l with
  | nil => simp [sinsert]
  | cons b bs ih =>
      rw [List.pairwise_cons] at h
      rw [sinsert]
      by_cases hba : le b a = true
      · rw [if_pos hba]
        rw [List.pairwise_cons]
        refine ⟨?_, ih h.2⟩
        intro c hc
        rcases List.mem_cons.1 ((sinsert_perm le a bs).mem_iff.1 hc) with rfl | hc2
        · exact hba
        · exact h.1 c hc2
      · rw [if_neg hba]
        have hab : le a b = true := by
          have := htot a b
          rcases Bool.or_eq_true_iff.1 this with h2 | h2
          · exact h2
          · exact absurd h2 hba
        rw [List.pairwise_cons]
        refine ⟨?_, List.pairwise_cons.2 h⟩
        intro c hc
        rcases List.mem_cons.1 hc with rfl | hc2
        · exact hab
        · exact htrans a b c hab (h.1 c hc2)

/-- The stable sort produces a `le`-pairwise list for total transitive
`le`. -/
theorem ssort_pairwise (le : α → α → Bool)
    (htot : ∀ a b, le a b || le b a)
    (htrans : ∀ a b c, le a b = true → le b c = true → le a c = true)
    (l : List α) : (ssort le l).Pairwise (fun x y => le x y = true) := by
  suffices h : ∀ acc, acc.Pairwise (fun x y => le x y = true) →
      (l.foldl (fun acc a => sinsert le a acc) acc).Pairwise (fun x y => le x y = true) by
    exact h [] (by simp)
  induction l with
  | nil => intro acc hacc; simpa using hacc
  | cons a l ih =>
      intro acc hacc
      rw [List.foldl_cons]
      exact ih _ (sinsert_pairwise le htot htrans a acc hacc)

/-- `keyLe` is total. -/
theorem keyLe_total (a b : ℚ × GNode × Bool) : keyLe a b || keyLe b a := by
  rw [keyLe, keyLe]
  by_cases h : a.1 = b.1
  · rw [if_pos h, if_pos h.symm]
    cases a.2.2 <;> cases b.2.2 <;> decide
  · rw [if_neg h, if_neg (Ne.symm h)]
    rcases le_total a.1 b.1 with h2 | h2 <;> simp [h2]

/-- `keyLe` is transitive. -/
theorem keyLe_trans (a b c : ℚ × GNode × Bool) (hab : keyLe a b = true)
    (hbc : keyLe b c = true) : keyLe a c = true := by
  rw [keyLe] at hab hbc ⊢
  by_cases h1 : a.1 = b.1 <;> by_cases h2 : b.1 = c.1
  · rw [if_pos h1] at hab
    rw [if_pos h2] at hbc
    rw [if_pos (h1.trans h2)]
    cases ha : a.2.2 <;> cases hb : b.2.2 <;> cases hc : c.2.2 <;>
      simp_all
  · rw [if_neg (show a.1 ≠ c.1 from h1 ▸ h2)]
    rw [if_neg h2] at hbc
    simp only [decide_eq_true_eq] at hbc ⊢
    exact h1 ▸ hbc
  · rw [if_neg h1] at hab
    rw [if_neg (fun hac => h1 (hac.trans h2.symm))]
    simp only [decide_eq_true_eq] at hab ⊢
    exact h2 ▸ hab
  · rw [if_neg h1] at hab
    rw [if_neg h2] at hbc
    simp only [decide_eq_true_eq] at hab hbc
    by_cases hac : a.1 = c.1
    · exfalso
      exact h1 (le_antisymm hab (hac ▸ hbc))
    · rw [if_neg hac]
      simp only [decide_eq_true_eq]
      exact le_trans hab hbc

/-- The sorted triple list is pairwise `keyLe`-ordered. -/
theorem sorted_triples_pairwise {trace : List UEvent} {l : List (ℚ × GNode × Bool)}
    (h : sorted_triples trace = Except.ok l) :
    l.Pairwise (fun x y => keyLe x y = true) := by
  rw [sorted_triples] at h
  cases hacc : collect_markers trace 0 with
  | error err => rw [hacc] at h; simp at h
  | ok acc =>
      rw [hacc] at h
      simp at h
      exact h ▸ ssort_pairwise keyLe keyLe_total keyLe_trans acc

/-- The sorted triple list is a permutation of the collected markers. -/
theorem sorted_triples_perm {trace : List UEvent} {acc l : List (ℚ × GNode × Bool)}
    (hacc : collect_markers trace 0 = Except.ok acc)
    (h : sorted_triples trace = Except.ok l) : l.Perm acc := by
  rw [sorted_triples, hacc] at h
  simp at h
  exact h ▸ ssort_perm keyLe acc

/-! ## Origin of markers, nodes and edges -/

/-- A successful `process_event` returns the given event index as first
component. -/
theorem process_event_fst {e : UEvent} {i : ℕ} {node : GNode}
    (h : process_event e i = Except.ok node) : node.1 = i := by
  rw [process_event] at h
  cases hts : e.timestamp with
  | none => rw [hts] at h; simp at h
  | some t =>
      rw [hts] at h
      simp only [except_bind_ok] at h
      cases ha : e.uActivity with
      | some children =>
          rw [ha] at h
          simp only [except_bind_ok, except_pure_eq, Except.ok.injEq] at h
          rw [← h]
      | none =>
          rw [ha] at h
          cases hl : e.label with
          | none => rw [hl] at h; simp at h
          | some l =>
              rw [hl] at h
              simp only [except_bind_ok, except_pure_eq, Except.ok.injEq] at h
              rw [← h]

/-- Shape of `add_node_tuples` output: one open and one close marker at the
event's interval ends. -/
theorem add_node_tuples_shape {e : UEvent} {node : GNode} {pair : List (ℚ × GNode × Bool)}
    (h : add_node_tuples e node = Except.ok pair) :
    pair = [(openTime e, node, false), (closeTime e, node, true)] := by
  rw [add_node_tuples] at h
  cases hmin : e.uTimestampMin with
  | none =>
      rw [hmin] at h
      cases hts : e.timestamp with
      | none => rw [hts] at h; simp at h
      | some t =>
          rw [hts] at h
          simp only [except_bind_ok, except_pure_eq, Except.ok.injEq] at h
          rw [← h, openTime, closeTime, hmin, hts]
          rfl
  | some tmin =>
      rw [hmin] at h
      cases hmax : e.uTimestampMax with
      | none => rw [hmax] at h; simp at h
      | some tmax =>
          rw [hmax] at h
          simp only [except_bind_ok, except_pure_eq, Except.ok.injEq] at h
          rw [← h, openTime, closeTime, hmin, hmax]
          rfl

/-- Every collected marker comes from a trace position: its node is the
`process_event` output of that position and its time is the corresponding
interval end. -/
theorem collect_markers_mem {tr : List UEvent} {i0 : ℕ} {acc : List (ℚ × GNode × Bool)}
    (hacc : collect_markers tr i0 = Except.ok acc) :
    ∀ m ∈ acc, ∃ j, ∃ hj : j < tr.length,
      m.2.1.1 = i0 + j ∧ process_event tr[j] (i0 + j) = Except.ok m.2.1 ∧
      m.1 = (if m.2.2 then closeTime tr[j] else openTime tr[j]) := by
  induction tr generalizing i0 acc with
  | nil =>
      rw [collect_markers] at hacc
      simp only [Except.ok.injEq] at hacc
      subst hacc
      intro m hm
      cases hm
  | cons e rest ih =>
      rw [collect_markers] at hacc
      cases hnode : process_event e i0 with
      | error err => rw [hnode] at hacc; simp at hacc
      | ok node =>
          rw [hnode] at hacc
          simp only [except_bind_ok] at hacc
          cases hpair : add_node_tuples e node with
          | error err => rw [hpair] at hacc; simp at hacc
          | ok pair =>
              rw [hpair] at hacc
              simp only [except_bind_ok] at hacc
              cases htail : collect_markers rest (i0 + 1) with
              | error err => rw [htail] at hacc; simp at hacc
              | ok tail =>
                  rw [htail] at hacc
                  simp only [except_bind_ok, except_pure_eq, Except.ok.injEq] at hacc
                  subst hacc
                  intro m hm
                  rcases List.mem_append.1 hm with hm | hm
                  · rw [add_node_tuples_shape hpair] at hm
                    have hfst := process_event_fst hnode
                    rcases List.mem_cons.1 hm with rfl | hm2
                    · exact ⟨0, by simp, by simpa using hfst, by simpa using hnode, by simp⟩
                    · rcases List.mem_cons.1 hm2 with rfl | hm3
                      · exact ⟨0, by simp, by simpa using hfst, by simpa using hnode, by simp⟩
                      · cases hm3
                  · obtain ⟨j, hj, h1, h2, h3⟩ := ih htail m hm
                    refine ⟨j + 1, by simpa using Nat.succ_lt_succ hj, ?_, ?_, ?_⟩
                    · omega
                    · simp only [List.getElem_cons_succ]
                      rw [show i0 + (j + 1) = i0 + 1 + j by omega]
                      exact h2
                    · simp only [List.getElem_cons_succ]
                      exact h3


/-! ## Membership facts for `dedupFirst` -/

/-- Membership in the deduplication recursion. -/
theorem dedupFirstAux_mem [DecidableEq α] (l : List α) :
    ∀ (seen : List α) (x : α), x ∈ dedupFirstAux seen l ↔ x ∈ l ∧ x ∉ seen := by
  induction l with
  | nil => intro seen x; simp [dedupFirstAux]
  | cons a l ih =>
      intro seen x
      rw [dedupFirstAux]
      by_cases ha : a ∈ seen
      · rw [if_pos ha, ih]
        constructor
        · rintro ⟨h1, h2⟩; exact ⟨List.mem_cons_of_mem a h1, h2⟩
        · rintro ⟨h1, h2⟩
          rcases List.mem_cons.1 h1 with rfl | h3
          · exact absurd ha h2
          · exact ⟨h3, h2⟩
      · rw [if_neg ha]
        constructor
        · intro h
          rcases List.mem_cons.1 h with rfl | h2
          · exact ⟨List.mem_cons_self x l, ha⟩
          · obtain ⟨h3, h4⟩ := (ih _ x).1 h2
            exact ⟨List.mem_cons_of_mem a h3, fun hx => h4 (List.mem_append_left _ hx)⟩
        · rintro ⟨h1, h2⟩
          rcases List.mem_cons.1 h1 with rfl | h3
          · exact List.mem_cons_self x _
          · by_cases hxa : x = a
            · exact hxa ▸ List.mem_cons_self a _
            · refine List.mem_cons_of_mem a ((ih _ x).2 ⟨h3, ?_⟩)
              intro hx
              rcases List.mem_append.1 hx with h4 | h4
              · exact h2 h4
              · exact hxa (List.mem_singleton.1 h4)

/-- `dedupFirst` preserves membership. -/
theorem dedupFirst_mem [DecidableEq α] (l : List α) (x : α) :
    x ∈ dedupFirst l ↔ x ∈ l := by
  rw [dedupFirst, dedupFirstAux_mem]
  simp

/-- The deduplication recursion produces a duplicate-free list. -/
theorem dedupFirstAux_nodup [DecidableEq α] (l : List α) :
    ∀ seen : List α, (dedupFirstAux seen l).Nodup := by
  induction l with
  | nil => intro seen; simp [dedupFirstAux]
  | cons a l ih =>
      intro seen
      rw [dedupFirstAux]
      by_cases ha : a ∈ seen
      · rw [if_pos ha]; exact ih seen
      · rw [if_neg ha]
        rw [List.nodup_cons]
        refine ⟨?_, ih _⟩
        intro hmem
        exact ((dedupFirstAux_mem l _ a).1 hmem).2 (List.mem_append_right _ (List.mem_singleton.2 rfl))

/-- `dedupFirst` produces a duplicate-free list. -/
theorem dedupFirst_nodup [DecidableEq α] (l : List α) : (dedupFirst l).Nodup :=
  dedupFirstAux_nodup l []

/-! ## Origin of edges emitted by the sweep -/

/-- Every edge emitted by one forward scan either was already recorded or
connects `node1` to a node whose open marker lies in the scanned suffix. -/
theorem edge_scan_mem (node1 : GNode) (rest : List (GNode × Bool)) :
    ∀ (E : List (ℕ × ℕ)) (ed : Option (ℕ × ℕ)) (e : ℕ × ℕ), e ∈ edge_scan node1 rest E ed →
      e ∈ E ∨ ∃ nv : GNode, (nv, false) ∈ rest ∧ e = (node1.1, nv.1) := by
  induction rest with
  | nil =>
      intro E ed e he
      cases ed with
      | none => exact .inl he
      | some e0 => exact .inl he
  | cons p rest ih =>
      intro E ed e he
      have hopen : p.2 = false →
          e ∈ edge_scan node1 rest (E ++ [(node1.1, p.1.1)]) (some (node1.1, p.1.1)) →
          e ∈ E ∨ ∃ nv : GNode, (nv, false) ∈ p :: rest ∧ e = (node1.1, nv.1) := by
        intro h2 he2
        rcases ih _ _ e he2 with hE | ⟨nv, hnv, hee⟩
        · rcases List.mem_append.1 hE with h | h
          · exact .inl h
          · refine .inr ⟨p.1, ?_, List.mem_singleton.1 h⟩
            have hp : (p.1, false) = p := by rw [← h2]
            rw [hp]
            exact List.mem_cons_self p rest
        · exact .inr ⟨nv, List.mem_cons_of_mem _ hnv, hee⟩
      cases ed with
      | none =>
          rw [edge_scan] at he
          by_cases h2 : p.2 = false
          · rw [if_pos h2] at he
            exact hopen h2 he
          · rw [if_neg h2] at he
            rcases ih _ _ e he with hE | ⟨nv, hnv, hee⟩
            · exact .inl hE
            · exact .inr ⟨nv, List.mem_cons_of_mem _ hnv, hee⟩
      | some e0 =>
          rw [edge_scan] at he
          by_cases h2 : p.2 = false
          · rw [if_pos h2] at he
            exact hopen h2 he
          · rw [if_neg h2] at he
            by_cases hmem : e0 ∈ E
            · rw [if_pos hmem] at he
              exact .inl he
            · rw [if_neg hmem] at he
              rcases ih _ _ e he with hE | ⟨nv, hnv, hee⟩
              · exact .inl hE
              · exact .inr ⟨nv, List.mem_cons_of_mem _ hnv, hee⟩

/-- Every edge emitted by the whole sweep either was already recorded or
pairs a close marker with a later open marker of the marker list. -/
theorem edges_pass_mem (l : List (GNode × Bool)) :
    ∀ (E : List (ℕ × ℕ)) (e : ℕ × ℕ), e ∈ edges_pass l E →
      e ∈ E ∨ ∃ (nu nv : GNode) (l1 l2 : List (GNode × Bool)),
        l = l1 ++ (nu, true) :: l2 ∧ (nv, false) ∈ l2 ∧ e = (nu.1, nv.1) := by
  induction l with
  | nil => intro E e he; exact .inl he
  | cons p rest ih =>
      intro E e he
      obtain ⟨node1, ttype1⟩ := p
      rw [edges_pass] at he
      simp only at he
      by_cases h1 : ttype1 = true
      · rw [if_pos h1] at he
        rcases ih _ e he with hE | ⟨nu, nv, l1, l2, hsplit, hnv, hee⟩
        · rcases edge_scan_mem node1 rest E none e hE with h | ⟨nv, hnv, hee⟩
          · exact .inl h
          · exact .inr ⟨node1, nv, [], rest, by simp [h1], hnv, hee⟩
        · exact .inr ⟨nu, nv, (node1, ttype1) :: l1, l2, by simp [hsplit], hnv, hee⟩
      · rw [if_neg h1] at he
        rcases ih _ e he with hE | ⟨nu, nv, l1, l2, hsplit, hnv, hee⟩
        · exact .inl hE
        · exact .inr ⟨nu, nv, (node1, ttype1) :: l1, l2, by simp [hsplit], hnv, hee⟩

/-! ## The structure of a successfully built graph -/

/-- Decomposition of a successful `behavior_graph` run into its sorted
triples. -/
theorem behavior_graph_parts {tr : List UEvent} {g : BGraph}
    (hg : behavior_graph tr = Except.ok g) :
    ∃ triples, sorted_triples tr = Except.ok triples ∧
      g.nodes = dedupFirst ((triples.map (fun t => (t.2.1, t.2.2))).map Prod.fst) ∧
      g.edges = dedupFirst (add_edges_from_nodes (triples.map (fun t => (t.2.1, t.2.2)))) := by
  rw [behavior_graph, create_nodes_tuples] at hg
  cases hst : sorted_triples tr with
  | error err => rw [hst] at hg; simp at hg
  | ok triples =>
      rw [hst] at hg
      simp only [except_bind_ok, except_pure_eq, Except.ok.injEq] at hg
      exact ⟨triples, rfl, by rw [← hg], by rw [← hg]⟩

/-- A close-before-open pair in `keyLe` order has strictly increasing
times. -/
theorem keyLe_close_open {a b : ℚ × GNode × Bool} (h : keyLe a b = true)
    (ha : a.2.2 = true) (hb : b.2.2 = false) : a.1 < b.1 := by
  rw [keyLe] at h
  by_cases heq : a.1 = b.1
  · rw [if_pos heq, ha, hb] at h
    simp at h
  · rw [if_neg heq] at h
    simp only [decide_eq_true_eq] at h
    exact lt_of_le_of_ne h heq

/-- Every edge of a successfully built behavior graph connects event indices
whose occurrence intervals are strictly ordered: the source event's interval
ends strictly before the target event's begins. -/
theorem edge_strict {tr : List UEvent} {g : BGraph}
    (hg : behavior_graph tr = Except.ok g) {u v : ℕ} (huv : (u, v) ∈ g.edges) :
    ∃ (hu : u < tr.length) (hv : v < tr.length), closeTime tr[u] < openTime tr[v] := by
  obtain ⟨triples, hst, -, hedges⟩ := behavior_graph_parts hg
  have hcm : ∃ acc, collect_markers tr 0 = Except.ok acc := by
    rw [sorted_triples] at hst
    cases hacc : collect_markers tr 0 with
    | error err => rw [hacc] at hst; simp at hst
    | ok acc => exact ⟨acc, rfl⟩
  obtain ⟨acc, hacc⟩ := hcm
  have hperm := sorted_triples_perm hacc hst
  have hpw := sorted_triples_pairwise hst
  rw [hedges] at huv
  rw [dedupFirst_mem] at huv
  rw [add_edges_from_nodes] at huv
  rcases edges_pass_mem _ _ _ huv with h | ⟨nu, nv, l1, l2, hsplit, hnv, hee⟩
  · cases h
  · obtain ⟨s1, s2, hs, hm1, hm2⟩ := List.append_eq_map_iff.mp hsplit.symm
    obtain ⟨a, s2t, hs2, hfa, hm2t⟩ := List.map_eq_cons_iff.mp hm2
    obtain ⟨hfa1, hfa2⟩ := Prod.mk.injEq .. ▸ hfa
    obtain ⟨bb, hbb, hfb⟩ := List.mem_map.1 (hm2t ▸ hnv)
    have hfb1 : bb.2.1 = nv := congrArg Prod.fst hfb
    have hfb2 : bb.2.2 = false := congrArg Prod.snd hfb
    have htr : triples = s1 ++ a :: s2t := by rw [hs, hs2]
    have hrel : keyLe a bb = true := by
      have hpw2 := htr ▸ hpw
      have h2 := (List.pairwise_append.1 hpw2).2.1
      rw [List.pairwise_cons] at h2
      exact h2.1 bb hbb
    have hlt : a.1 < bb.1 := keyLe_close_open hrel hfa2 hfb2
    have hamem : a ∈ acc := hperm.subset (htr ▸ List.mem_append_right s1 (List.mem_cons_self a s2t))
    have hbmem : bb ∈ acc := hperm.subset (htr ▸ List.mem_append_right s1
      (List.mem_cons_of_mem a hbb))
    obtain ⟨ju, hju, hju1, -, hju3⟩ := collect_markers_mem hacc a hamem
    obtain ⟨jv, hjv, hjv1, -, hjv3⟩ := collect_markers_mem hacc bb hbmem
    have hueq : u = ju := by
      have : u = a.2.1.1 := by rw [Prod.mk.injEq] at hee; rw [hee.1, ← hfa1]
      omega
    have hveq : v = jv := by
      have : v = bb.2.1.1 := by rw [Prod.mk.injEq] at hee; rw [hee.2, ← hfb1]
      omega
    subst hueq hveq
    refine ⟨hju, hjv, ?_⟩
    rw [hfa2] at hju3
    rw [hfb2] at hjv3
    simp only [if_pos rfl] at hju3
    simp only [Bool.false_eq_true, if_neg] at hjv3
    calc closeTime tr[u] = a.1 := hju3.symm
      _ < bb.1 := hlt
      _ = openTime tr[v] := by
          rw [hjv3]
          simp

/-- The marker collection contains a marker for every trace position. -/
theorem collect_markers_complete {tr : List UEvent} {i0 : ℕ}
    {acc : List (ℚ × GNode × Bool)} (hacc : collect_markers tr i0 = Except.ok acc) :
    ∀ j, (hj : j < tr.length) → ∃ node, process_event tr[j] (i0 + j) = Except.ok node ∧
      ∃ t b, (t, node, b) ∈ acc := by
  induction tr generalizing i0 acc with
  | nil => intro j hj; cases (by simp at hj : False)
  | cons e rest ih =>
      rw [collect_markers] at hacc
      cases hnode : process_event e i0 with
      | error err => rw [hnode] at hacc; simp at hacc
      | ok node =>
          rw [hnode] at hacc
          simp only [except_bind_ok] at hacc
          cases hpair : add_node_tuples e node with
          | error err => rw [hpair] at hacc; simp at hacc
          | ok pair =>
              rw [hpair] at hacc
              simp only [except_bind_ok] at hacc
              cases htail : collect_markers rest (i0 + 1) with
              | error err => rw [htail] at hacc; simp at hacc
              | ok tail =>
                  rw [htail] at hacc
                  simp only [except_bind_ok, except_pure_eq, Except.ok.injEq] at hacc
                  subst hacc
                  intro j hj
                  cases j with
                  | zero =>
                      refine ⟨node, by simpa using hnode, openTime e, false, ?_⟩
                      rw [add_node_tuples_shape hpair]
                      simp
                  | succ j2 =>
                      obtain ⟨node2, hn2, t, b, hmem⟩ := ih htail j2 (by simpa using hj)
                      refine ⟨node2, ?_, t, b, List.mem_append_right _ hmem⟩
                      simp only [List.getElem_cons_succ]
                      rw [show i0 + (j2 + 1) = i0 + 1 + j2 by omega]
                      exact hn2

/-- Every node of a successfully built behavior graph is the
`process_event` output of a trace position, which is its index. -/
theorem nodes_mem_origin {tr : List UEvent} {g : BGraph}
    (hg : behavior_graph tr = Except.ok g) :
    ∀ node ∈ g.nodes, ∃ j, ∃ hj : j < tr.length,
      node.1 = j ∧ process_event tr[j] j = Except.ok node := by
  obtain ⟨triples, hst, hnodes, -⟩ := behavior_graph_parts hg
  have hcm : ∃ acc, collect_markers tr 0 = Except.ok acc := by
    rw [sorted_triples] at hst
    cases hacc : collect_markers tr 0 with
    | error err => rw [hacc] at hst; simp at hst
    | ok acc => exact ⟨acc, rfl⟩
  obtain ⟨acc, hacc⟩ := hcm
  have hperm := sorted_triples_perm hacc hst
  intro node hnode
  rw [hnodes, dedupFirst_mem] at hnode
  obtain ⟨p, hp, hpeq⟩ := List.mem_map.1 hnode
  obtain ⟨t3, ht3, ht3eq⟩ := List.mem_map.1 hp
  have hmem : t3 ∈ acc := hperm.subset ht3
  obtain ⟨j, hj, h1, h2, -⟩ := collect_markers_mem hacc t3 hmem
  have : node = t3.2.1 := by rw [← hpeq, ← ht3eq]
  subst this
  exact ⟨j, hj, by omega, by simpa using h2⟩

/-- Every trace position contributes a node to the behavior graph. -/
theorem nodes_complete {tr : List UEvent} {g : BGraph}
    (hg : behavior_graph tr = Except.ok g) :
    ∀ j, (hj : j < tr.length) → ∃ node ∈ g.nodes, node.1 = j := by
  obtain ⟨triples, hst, hnodes, -⟩ := behavior_graph_parts hg
  have hcm : ∃ acc, collect_markers tr 0 = Except.ok acc := by
    rw [sorted_triples] at hst
    cases hacc : collect_markers tr 0 with
    | error err => rw [hacc] at hst; simp at hst
    | ok acc => exact ⟨acc, rfl⟩
  obtain ⟨acc, hacc⟩ := hcm
  have hperm := sorted_triples_perm hacc hst
  intro j hj
  obtain ⟨node, hpe, t, b, hmem⟩ := collect_markers_complete hacc j hj
  have htr : (t, node, b) ∈ triples := hperm.symm.subset hmem
  refine ⟨node, ?_, by simpa using process_event_fst hpe⟩
  rw [hnodes, dedupFirst_mem]
  exact List.mem_map_of_mem _ (List.mem_map_of_mem _ htr)

/-- The node indices of a successfully built behavior graph are distinct. -/
theorem nodes_fst_nodup {tr : List UEvent} {g : BGraph}
    (hg : behavior_graph tr = Except.ok g) : (g.nodes.map Prod.fst).Nodup := by
  have hnd : g.nodes.Nodup := by
    obtain ⟨triples, hst, hnodes, -⟩ := behavior_graph_parts hg
    rw [hnodes]
    exact dedupFirst_nodup _
  refine (List.nodup_map_iff_inj_on hnd).mpr ?_
  intro x hx y hy hxy
  obtain ⟨j1, hj1, he1, hp1⟩ := nodes_mem_origin hg x hx
  obtain ⟨j2, hj2, he2, hp2⟩ := nodes_mem_origin hg y hy
  have : j1 = j2 := by rw [← he1, ← he2, hxy]
  subst this
  rw [hp1] at hp2
  exact (Except.ok.injEq .. ▸ hp2)

/-! ## Well-formed events and the rank measure -/

/-- The data-model invariants of the spec (§3) for one event: the occurrence
interval is a closed interval (lower end at most upper end; for a certain
timestamp both ends coincide, so this holds automatically), and a
label-probability mapping, being a Python dict, is non-empty with distinct
keys. -/
def WFEvent (e : UEvent) : Prop :=
  openTime e ≤ closeTime e ∧
  ∀ ch, e.uActivity = some ch → ch ≠ [] ∧ (ch.map Prod.fst).Nodup

/-- The close time of trace position `v` (total function, defaulting
out-of-range positions). -/
def closeT (tr : List UEvent) (v : ℕ) : ℚ := closeTime (tr.getD v {})

/-- The open time of trace position `v`. -/
def openT (tr : List UEvent) (v : ℕ) : ℚ := openTime (tr.getD v {})

/-- Edges of a built graph strictly increase interval endpoints, in the
total-function formulation. -/
theorem edge_strictT {tr : List UEvent} {g : BGraph}
    (hg : behavior_graph tr = Except.ok g) {u v : ℕ} (huv : (u, v) ∈ g.edges) :
    u < tr.length ∧ v < tr.length ∧ closeT tr u < openT tr v := by
  obtain ⟨hu, hv, hlt⟩ := edge_strict hg huv
  refine ⟨hu, hv, ?_⟩
  rw [closeT, openT, List.getD_eq_getElem?_getD, List.getD_eq_getElem?_getD,
    List.getElem?_eq_getElem hu, List.getElem?_eq_getElem hv]
  exact hlt

/-- For a well-formed trace, an edge strictly increases close times. -/
theorem edge_closeT_lt {tr : List UEvent} {g : BGraph}
    (hg : behavior_graph tr = Except.ok g) (hwf : ∀ e ∈ tr, WFEvent e)
    {u v : ℕ} (huv : (u, v) ∈ g.edges) : closeT tr u < closeT tr v := by
  obtain ⟨hu, hv, hlt⟩ := edge_strictT hg huv
  refine lt_of_lt_of_le hlt ?_
  have := (hwf (tr.getD v {}) (by
    rw [List.getD_eq_getElem?_getD, List.getElem?_eq_getElem hv]
    exact List.getElem_mem hv)).1
  rw [openT, closeT]
  exact this

/-- A well-formed trace's graph has no self loops. -/
theorem edge_no_self {tr : List UEvent} {g : BGraph}
    (hg : behavior_graph tr = Except.ok g) (hwf : ∀ e ∈ tr, WFEvent e)
    (v : ℕ) : (v, v) ∉ g.edges := by
  intro h
  exact absurd (edge_closeT_lt hg hwf h) (lt_irrefl _)

/-- The rank of a position: how many positions have strictly larger close
time.  Ranks strictly decrease along graph edges. -/
def rankOf (tr : List UEvent) (v : ℕ) : ℕ :=
  ((Finset.range tr.length).filter (fun u => closeT tr v < closeT tr u)).card

/-- Ranks strictly decrease along edges of a well-formed trace's graph. -/
theorem rank_lt_of_edge {tr : List UEvent} {g : BGraph}
    (hg : behavior_graph tr = Except.ok g) (hwf : ∀ e ∈ tr, WFEvent e)
    {u v : ℕ} (huv : (u, v) ∈ g.edges) : rankOf tr v < rankOf tr u := by
  obtain ⟨hu, hv, -⟩ := edge_strictT hg huv
  have hlt := edge_closeT_lt hg hwf huv
  apply Finset.card_lt_card
  constructor
  · intro w hw
    rw [Finset.mem_filter] at hw ⊢
    exact ⟨hw.1, lt_trans hlt hw.2⟩
  · intro hsub
    have hvmem : v ∈ (Finset.range tr.length).filter (fun w => closeT tr u < closeT tr w) := by
      rw [Finset.mem_filter]
      exact ⟨Finset.mem_range.2 hv, hlt⟩
    have := hsub hvmem
    rw [Finset.mem_filter] at this
    exact absurd this.2 (lt_irrefl _)

/-- A successful `process_event` on a well-formed event yields a non-empty
list of label alternatives. -/
theorem process_event_ne_nil {e : UEvent} {i : ℕ} {node : GNode}
    (hwf : WFEvent e) (h : process_event e i = Except.ok node) : node.2 ≠ [] := by
  rw [process_event] at h
  cases hts : e.timestamp with
  | none => rw [hts] at h; simp at h
  | some t =>
      rw [hts] at h
      simp only [except_bind_ok] at h
      cases ha : e.uActivity with
      | some children =>
          rw [ha] at h
          simp only [except_bind_ok, except_pure_eq, Except.ok.injEq] at h
          have hch := (hwf.2 children ha).1
          rw [← h]
          simp only [ne_eq, List.append_eq_nil, List.map_eq_nil_iff, not_and]
          intro hc
          exact absurd hc hch
      | none =>
          rw [ha] at h
          cases hl : e.label with
          | none => rw [hl] at h; simp at h
          | some l =>
              rw [hl] at h
              simp only [except_bind_ok, except_pure_eq, Except.ok.injEq] at h
              rw [← h]
              simp

/-- Every node of a well-formed trace's graph has at least one label
alternative. -/
theorem node_options_ne_nil {tr : List UEvent} {g : BGraph}
    (hg : behavior_graph tr = Except.ok g) (hwf : ∀ e ∈ tr, WFEvent e) :
    ∀ node ∈ g.nodes, node.2 ≠ [] := by
  intro node hnode
  obtain ⟨j, hj, -, hpe⟩ := nodes_mem_origin hg node hnode
  exact process_event_ne_nil (hwf tr[j] (List.getElem_mem hj)) hpe

/-! ## `BehaviorNet` (behavior_net.py lines 12-82)

Places and transitions are identified by the data the constructor bakes into
their names: the boundary `source`/`sink` places, one place `fromSource v`
per predecessor-less node `v` (Python name `source_to_{v}`), one place
`between u v` per graph edge (Python name `{u}_to_{v}`), one place
`toSink v` per successor-less node (Python name `{v}_to_sink`), the invisible
`t_source`/`t_sink` transitions, and one transition `act v l` per label
alternative `l` of node `v` (Python name `t{v}_{l}`).  Distinct Python
objects get distinct identifiers because node ids are distinct and label
alternatives within one node are distinct dict keys. -/

/-- Places of a behavior net. -/
inductive Place where
  | source
  | sink
  | fromSource (v : ℕ)
  | between (u v : ℕ)
  | toSink (v : ℕ)
deriving DecidableEq, Repr

/-- Transitions of a behavior net.  `act v l` carries the node id and its
label (the pm4py transition label; `none` for the "absent" alternative). -/
inductive Trans where
  | tsource
  | tsink
  | act (v : ℕ) (l : Lbl)
deriving DecidableEq, Repr

/-- The label of a transition as pm4py stores it (`None` for the invisible
boundary transitions). -/
def Trans.label : Trans → Lbl
  | .tsource => none
  | .tsink => none
  | .act _ l => l

/-- Predecessor ids of node `v` in the graph (networkx `predecessors`). -/
def BGraph.preds (g : BGraph) (v : ℕ) : List ℕ :=
  (g.edges.filter (fun e => e.2 = v)).map Prod.fst

/-- Successor ids of node `v` in the graph (networkx `successors`). -/
def BGraph.succs (g : BGraph) (v : ℕ) : List ℕ :=
  (g.edges.filter (fun e => e.1 = v)).map Prod.snd

/-- Node ids with no incoming edge (wired to the source transition). -/
def BGraph.predless (g : BGraph) : List ℕ :=
  (g.nodes.map Prod.fst).filter (fun v => g.preds v = [])

/-- Node ids with no outgoing edge (wired to the sink transition). -/
def BGraph.succless (g : BGraph) : List ℕ :=
  (g.nodes.map Prod.fst).filter (fun v => g.succs v = [])

/-- A marking: pm4py's `Marking` is a `Counter` (multiset) of places.  We
carry the multiset as a list; every observation below is count-based and
hence permutation-invariant. -/
abbrev Marking := List Place

/-- The input places of a transition, with multiplicity (each arc the
constructor adds has weight 1, and no arc is added twice). -/
def preT (g : BGraph) : Trans → Marking
  | .tsource => [.source]
  | .tsink => g.succless.map .toSink
  | .act v _ =>
      (if g.preds v = [] then [Place.fromSource v] else []) ++ (g.preds v).map (.between · v)

/-- The output places of a transition, with multiplicity. -/
def postT (g : BGraph) : Trans → Marking
  | .tsource => g.predless.map .fromSource
  | .tsink => [.sink]
  | .act v _ =>
      (g.succs v).map (.between v ·) ++ (if g.succs v = [] then [Place.toSink v] else [])

/-- All transitions of the behavior net, in construction order: the two
invisible boundary transitions, then one transition per label alternative of
each node. -/
def transList (g : BGraph) : List Trans :=
  .tsource :: .tsink :: g.nodes.flatMap (fun n => n.2.map (fun lp => Trans.act n.1 lp.1))

/-- The `uncertainty_dict` attached to a transition (behavior_net.py lines
42-47, read back in utils.py line 53 with default `{}`): the uncertainty
dictionary of the label alternative the transition was created from. -/
def uDict (g : BGraph) : Trans → UInfo
  | .act v l =>
      match g.nodes.find? (fun n => n.1 = v) with
      | some n =>
          match n.2.find? (fun lp => lp.1 = l) with
          | some lp => lp.2
          | none => emptyUInfo
      | none => emptyUInfo
  | _ => emptyUInfo

/-- The initial marking: one token in the source place (line 81). -/
def initialMarking : Marking := [.source]

/-- The final marking: one token in the sink place (line 82). -/
def finalMarking : Marking := [.sink]

/-! ## Marking operations (pm4py `semantics`, multiset-style) -/

/-- Count-based multiset order on markings: `a` is contained in `b`.  This is
pm4py's enabledness test (`m[p] >= arc.weight` for each input arc). -/
def mLeB (a b : Marking) : Bool :=
  a.all (fun p => a.count p ≤ b.count p)

/-- Count-based multiset equality of markings: pm4py `Marking` objects are
`Counter`s, equal iff all counts agree. -/
def mEqB (a b : Marking) : Bool :=
  a.all (fun p => a.count p == b.count p) && b.all (fun p => b.count p == a.count p)

/-- Fire a transition: remove the input tokens, add the output tokens
(pm4py `semantics.execute`). -/
def fire (g : BGraph) (t : Trans) (m : Marking) : Marking :=
  (m.diff (preT g t)) ++ postT g t

/-- The transitions enabled at `m`, in `transList` order (pm4py
`semantics.enabled_transitions`; a Python set, whose iteration order we fix
to construction order). -/
def enabledList (g : BGraph) (m : Marking) : List Trans :=
  (transList g).filter (fun t => mLeB (preT g t) m)

/-! ## Count-based semantics of markings -/

/-- Count equality of markings: the multiset equality pm4py's `Marking`
comparison implements. -/
def MEquiv (a b : Marking) : Prop := ∀ p, a.count p = b.count p

/-- `mLeB` decides count-wise containment. -/
theorem mLeB_iff (a b : Marking) : mLeB a b = true ↔ ∀ p, a.count p ≤ b.count p := by
  rw [mLeB, List.all_eq_true]
  constructor
  · intro h p
    by_cases hp : p ∈ a
    · simpa using h p hp
    · rw [List.count_eq_zero.2 hp]
      exact Nat.zero_le _
  · intro h p hp
    simpa using h p

/-- `mEqB` decides count equality. -/
theorem mEqB_iff (a b : Marking) : mEqB a b = true ↔ MEquiv a b := by
  rw [mEqB, Bool.and_eq_true, List.all_eq_true, List.all_eq_true, MEquiv]
  constructor
  · rintro ⟨h1, h2⟩ p
    by_cases hpa : p ∈ a
    · simpa using h1 p hpa
    · by_cases hpb : p ∈ b
      · have h3 := h2 p hpb
        simp only [beq_iff_eq] at h3
        exact h3.symm
      · rw [List.count_eq_zero.2 hpa, List.count_eq_zero.2 hpb]
  · intro h
    exact ⟨fun p _ => by simpa using h p, fun p _ => by simpa using (h p).symm⟩

/-- Count in a list difference. -/
theorem count_diff [DecidableEq α] (l2 : List α) :
    ∀ (l : List α) (a : α), (l.diff l2).count a = l.count a - l2.count a := by
  induction l2 with
  | nil => intro l a; simp
  | cons b l2 ih =>
      intro l a
      rw [List.diff_cons, ih, List.count_erase, List.count_cons]
      by_cases hba : b = a
      · subst hba; simp; omega
      · simp [hba, beq_iff_eq]

/-- Count after firing a transition. -/
theorem count_fire (g : BGraph) (t : Trans) (m : Marking) (p : Place) :
    (fire g t m).count p = m.count p - (preT g t).count p + (postT g t).count p := by
  rw [fire, List.count_append, count_diff]

/-- Counts of an injective map over a filter of a duplicate-free list. -/
theorem count_filter_map_nodup [DecidableEq α] [DecidableEq β] (f : α → β)
    (hf : Function.Injective f) (l : List α) (hl : l.Nodup) (q : α → Bool) (a : α) :
    ((l.filter q).map f).count (f a) = if a ∈ l ∧ q a then 1 else 0 := by
  rw [List.count_map_of_injective _ f hf]
  by_cases h : a ∈ l ∧ q a
  · rw [if_pos h]
    exact List.count_eq_one_of_mem (hl.filter q) (List.mem_filter.2 ⟨h.1, h.2⟩)
  · rw [if_neg h]
    rw [List.count_eq_zero]
    intro hmem
    obtain ⟨h1, h2⟩ := List.mem_filter.1 hmem
    exact h ⟨h1, h2⟩

/-- Count of an element whose shape no list member maps to. -/
theorem count_map_ne [DecidableEq β] (f : α → β) (l : List α) (b : β)
    (h : ∀ a ∈ l, f a ≠ b) : (l.map f).count b = 0 := by
  rw [List.count_eq_zero]
  intro hmem
  obtain ⟨a, ha, hfa⟩ := List.mem_map.1 hmem
  exact h a ha hfa

/-- `Place.fromSource` is injective. -/
theorem fromSource_inj : Function.Injective Place.fromSource := by
  intro a b h; injection h

/-- `Place.toSink` is injective. -/
theorem toSink_inj : Function.Injective Place.toSink := by
  intro a b h; injection h

/-- The pair-to-`between` map is injective. -/
theorem between_inj : Function.Injective (fun e : ℕ × ℕ => Place.between e.1 e.2) := by
  intro a b h
  injection h with h1 h2
  exact Prod.ext h1 h2

/-! ## The canonical marking after firing a set of nodes -/

/-- The marking reached after the source transition and the nodes of `S`
have fired: one token per untriggered source branch, per boundary-crossing
edge, and per completed sink branch. -/
def mkM (g : BGraph) (S : List ℕ) : Marking :=
  (g.predless.filter (fun v => v ∉ S)).map Place.fromSource
    ++ (g.edges.filter (fun e => e.1 ∈ S ∧ e.2 ∉ S)).map (fun e => Place.between e.1 e.2)
    ++ (g.succless.filter (fun v => v ∈ S)).map Place.toSink

/-- `predless` has no duplicates when node indices are distinct. -/
theorem predless_nodup {g : BGraph} (h : (g.nodes.map Prod.fst).Nodup) :
    g.predless.Nodup := h.filter _

/-- `succless` has no duplicates when node indices are distinct. -/
theorem succless_nodup {g : BGraph} (h : (g.nodes.map Prod.fst).Nodup) :
    g.succless.Nodup := h.filter _

/-- Count of a `fromSource` place in `mkM`. -/
theorem count_mkM_fromSource {g : BGraph} (hN : (g.nodes.map Prod.fst).Nodup)
    (S : List ℕ) (w : ℕ) :
    (mkM g S).count (Place.fromSource w) = if w ∈ g.predless ∧ w ∉ S then 1 else 0 := by
  rw [mkM, List.count_append, List.count_append]
  rw [count_filter_map_nodup Place.fromSource fromSource_inj _ (predless_nodup hN)]
  rw [count_map_ne (fun e : ℕ × ℕ => Place.between e.1 e.2) _ _ (by intro x _; simp),
    count_map_ne Place.toSink _ _ (by intro x _; simp)]
  simp only [Nat.add_zero]
  by_cases h : w ∈ g.predless ∧ w ∉ S
  · rw [if_pos ⟨h.1, by simpa using h.2⟩, if_pos h]
  · rw [if_neg (by simpa using h), if_neg h]

/-- Count of a `between` place in `mkM`. -/
theorem count_mkM_between {g : BGraph} (hE : g.edges.Nodup)
    (S : List ℕ) (a b : ℕ) :
    (mkM g S).count (Place.between a b) =
      if (a, b) ∈ g.edges ∧ a ∈ S ∧ b ∉ S then 1 else 0 := by
  rw [mkM, List.count_append, List.count_append]
  rw [count_map_ne Place.fromSource _ _ (by intro x _; simp),
    count_map_ne Place.toSink _ _ (by intro x _; simp)]
  have h0 := count_filter_map_nodup (fun e : ℕ × ℕ => Place.between e.1 e.2) between_inj
    g.edges hE (fun e => e.1 ∈ S ∧ e.2 ∉ S) (a, b)
  simp only at h0
  rw [h0]
  simp only [Nat.zero_add, Nat.add_zero]
  by_cases h : (a, b) ∈ g.edges ∧ a ∈ S ∧ b ∉ S
  · rw [if_pos ⟨h.1, by simpa using h.2⟩, if_pos h]
  · rw [if_neg (by simpa using h), if_neg h]

/-- Count of a `toSink` place in `mkM`. -/
theorem count_mkM_toSink {g : BGraph} (hN : (g.nodes.map Prod.fst).Nodup)
    (S : List ℕ) (w : ℕ) :
    (mkM g S).count (Place.toSink w) = if w ∈ g.succless ∧ w ∈ S then 1 else 0 := by
  rw [mkM, List.count_append, List.count_append]
  rw [count_filter_map_nodup Place.toSink toSink_inj _ (succless_nodup hN)]
  rw [count_map_ne Place.fromSource _ _ (by intro x _; simp),
    count_map_ne (fun e : ℕ × ℕ => Place.between e.1 e.2) _ _ (by intro x _; simp)]
  simp only [Nat.zero_add]
  by_cases h : w ∈ g.succless ∧ w ∈ S
  · rw [if_pos ⟨h.1, by simpa using h.2⟩, if_pos h]
  · rw [if_neg (by simpa using h), if_neg h]

/-- `mkM` puts no token on the boundary places. -/
theorem count_mkM_source (g : BGraph) (S : List ℕ) :
    (mkM g S).count Place.source = 0 := by
  rw [mkM, List.count_append, List.count_append]
  rw [count_map_ne Place.fromSource _ _ (by intro x _; simp),
    count_map_ne (fun e : ℕ × ℕ => Place.between e.1 e.2) _ _ (by intro x _; simp),
    count_map_ne Place.toSink _ _ (by intro x _; simp)]

/-- `mkM` puts no token on the sink place. -/
theorem count_mkM_sink (g : BGraph) (S : List ℕ) :
    (mkM g S).count Place.sink = 0 := by
  rw [mkM, List.count_append, List.count_append]
  rw [count_map_ne Place.fromSource _ _ (by intro x _; simp),
    count_map_ne (fun e : ℕ × ℕ => Place.between e.1 e.2) _ _ (by intro x _; simp),
    count_map_ne Place.toSink _ _ (by intro x _; simp)]

/-- Membership in `preds` is edge membership. -/
theorem mem_preds {g : BGraph} {a v : ℕ} : a ∈ g.preds v ↔ (a, v) ∈ g.edges := by
  rw [BGraph.preds]
  constructor
  · intro h
    obtain ⟨e, he, heq⟩ := List.mem_map.1 h
    obtain ⟨he1, he2⟩ := List.mem_filter.1 he
    have he2p : e.2 = v := of_decide_eq_true he2
    have : e = (a, v) := Prod.ext heq he2p
    exact this ▸ he1
  · intro h
    refine List.mem_map_of_mem _ (List.mem_filter.2 ⟨h, ?_⟩)
    exact decide_eq_true rfl

/-- Membership in `succs` is edge membership. -/
theorem mem_succs {g : BGraph} {v b : ℕ} : b ∈ g.succs v ↔ (v, b) ∈ g.edges := by
  rw [BGraph.succs]
  constructor
  · intro h
    obtain ⟨e, he, heq⟩ := List.mem_map.1 h
    obtain ⟨he1, he2⟩ := List.mem_filter.1 he
    have he1p : e.1 = v := of_decide_eq_true he2
    have : e = (v, b) := Prod.ext he1p heq
    exact this ▸ he1
  · intro h
    refine List.mem_map_of_mem _ (List.mem_filter.2 ⟨h, ?_⟩)
    exact decide_eq_true rfl

/-- `preds` is duplicate-free for duplicate-free edges. -/
theorem preds_nodup {g : BGraph} (hE : g.edges.Nodup) (v : ℕ) : (g.preds v).Nodup := by
  rw [BGraph.preds]
  refine (List.nodup_map_iff_inj_on (hE.filter _)).mpr ?_
  intro x hx y hy hxy
  obtain ⟨-, hx2⟩ := List.mem_filter.1 hx
  obtain ⟨-, hy2⟩ := List.mem_filter.1 hy
  simp only [decide_eq_true_eq] at hx2 hy2
  obtain ⟨x1, x2⟩ := x
  obtain ⟨y1, y2⟩ := y
  simp only at hxy hx2 hy2
  rw [hxy, hx2, hy2]

/-- `succs` is duplicate-free for duplicate-free edges. -/
theorem succs_nodup {g : BGraph} (hE : g.edges.Nodup) (v : ℕ) : (g.succs v).Nodup := by
  rw [BGraph.succs]
  refine (List.nodup_map_iff_inj_on (hE.filter _)).mpr ?_
  intro x hx y hy hxy
  obtain ⟨-, hx2⟩ := List.mem_filter.1 hx
  obtain ⟨-, hy2⟩ := List.mem_filter.1 hy
  simp only [decide_eq_true_eq] at hx2 hy2
  obtain ⟨x1, x2⟩ := x
  obtain ⟨y1, y2⟩ := y
  simp only at hxy hx2 hy2
  rw [hxy, hx2, hy2]

/-- A predecessor-less node id of the graph is in `predless`. -/
theorem mem_predless {g : BGraph} {v : ℕ} :
    v ∈ g.predless ↔ v ∈ g.nodes.map Prod.fst ∧ g.preds v = [] := by
  rw [BGraph.predless]
  constructor
  · intro h
    obtain ⟨h1, h2⟩ := List.mem_filter.1 h
    exact ⟨h1, of_decide_eq_true h2⟩
  · intro ⟨h1, h2⟩
    exact List.mem_filter.2 ⟨h1, decide_eq_true h2⟩

/-- A successor-less node id of the graph is in `succless`. -/
theorem mem_succless {g : BGraph} {v : ℕ} :
    v ∈ g.succless ↔ v ∈ g.nodes.map Prod.fst ∧ g.succs v = [] := by
  rw [BGraph.succless]
  constructor
  · intro h
    obtain ⟨h1, h2⟩ := List.mem_filter.1 h
    exact ⟨h1, of_decide_eq_true h2⟩
  · intro ⟨h1, h2⟩
    exact List.mem_filter.2 ⟨h1, decide_eq_true h2⟩

/-- Count of a `fromSource` place among a node transition's inputs. -/
theorem count_preT_act_fromSource (g : BGraph) (v : ℕ) (l : Lbl) (w : ℕ) :
    (preT g (Trans.act v l)).count (Place.fromSource w) =
      if w = v ∧ g.preds v = [] then 1 else 0 := by
  rw [preT, List.count_append]
  rw [count_map_ne (fun u => Place.between u v) _ _ (by intro x _; simp), Nat.add_zero]
  by_cases h : g.preds v = []
  · rw [if_pos h]
    by_cases hw : w = v
    · subst hw
      rw [if_pos ⟨rfl, h⟩]
      simp
    · rw [if_neg (by simp [hw])]
      rw [List.count_eq_zero]
      intro hmem
      exact hw (by simpa using List.mem_singleton.1 hmem)
  · rw [if_neg h, if_neg (by simp [h])]
    exact List.count_nil _

/-- Count of a `between` place among a node transition's inputs. -/
theorem count_preT_act_between {g : BGraph} (hE : g.edges.Nodup) (v : ℕ) (l : Lbl)
    (a b : ℕ) :
    (preT g (Trans.act v l)).count (Place.between a b) =
      if b = v ∧ (a, v) ∈ g.edges then 1 else 0 := by
  rw [preT, List.count_append]
  have h1 : (if g.preds v = [] then [Place.fromSource v] else []).count (Place.between a b) = 0 := by
    by_cases h : g.preds v = [] <;> simp [h]
  rw [h1, Nat.zero_add]
  by_cases hb : b = v
  · subst hb
    rw [List.count_map_of_injective _ (fun u => Place.between u b)
      (by intro x y hxy; simpa using hxy) a]
    by_cases ha : (a, b) ∈ g.edges
    · rw [if_pos ⟨rfl, ha⟩]
      exact List.count_eq_one_of_mem (preds_nodup hE b) (mem_preds.2 ha)
    · rw [if_neg (by simp [ha])]
      rw [List.count_eq_zero]
      intro hmem
      exact ha (mem_preds.1 hmem)
  · rw [if_neg (by simp [hb])]
    exact count_map_ne _ _ _ (by
      intro x _ hx
      injection hx with g1 g2
      exact hb g2.symm)

/-- A node transition consumes nothing from the other place shapes. -/
theorem count_preT_act_other (g : BGraph) (v : ℕ) (l : Lbl) (p : Place)
    (hp : ∀ w, p ≠ Place.fromSource w) (hp2 : ∀ a b, p ≠ Place.between a b) :
    (preT g (Trans.act v l)).count p = 0 := by
  rw [preT, List.count_append]
  rw [count_map_ne (fun u => Place.between u v) _ _ (by intro x _ hx; exact hp2 x v hx.symm)]
  have h1 : (if g.preds v = [] then [Place.fromSource v] else []).count p = 0 := by
    by_cases h : g.preds v = []
    · rw [if_pos h, List.count_eq_zero]
      intro hmem
      exact hp v (List.mem_singleton.1 hmem)
    · simp [h]
  rw [h1]

/-- Counts of the sink transition's inputs. -/
theorem count_preT_tsink_toSink {g : BGraph} (hN : (g.nodes.map Prod.fst).Nodup) (w : ℕ) :
    (preT g Trans.tsink).count (Place.toSink w) = if w ∈ g.succless then 1 else 0 := by
  rw [preT]
  rw [List.count_map_of_injective _ _ toSink_inj]
  by_cases h : w ∈ g.succless
  · rw [if_pos h]
    exact List.count_eq_one_of_mem (succless_nodup hN) h
  · rw [if_neg h, List.count_eq_zero]
    exact fun hmem => h hmem

/-- The sink transition consumes nothing from the other place shapes. -/
theorem count_preT_tsink_other (g : BGraph) (p : Place) (hp : ∀ w, p ≠ Place.toSink w) :
    (preT g Trans.tsink).count p = 0 := by
  rw [preT]
  exact count_map_ne _ _ _ (fun a _ hx => hp a hx.symm)

/-- Counts of the source transition's outputs. -/
theorem count_postT_tsource_fromSource {g : BGraph} (hN : (g.nodes.map Prod.fst).Nodup)
    (w : ℕ) :
    (postT g Trans.tsource).count (Place.fromSource w) = if w ∈ g.predless then 1 else 0 := by
  rw [postT]
  rw [List.count_map_of_injective _ _ fromSource_inj]
  by_cases h : w ∈ g.predless
  · rw [if_pos h]
    exact List.count_eq_one_of_mem (predless_nodup hN) h
  · rw [if_neg h, List.count_eq_zero]
    exact fun hmem => h hmem

/-- The source transition produces nothing of the other place shapes. -/
theorem count_postT_tsource_other (g : BGraph) (p : Place) (hp : ∀ w, p ≠ Place.fromSource w) :
    (postT g Trans.tsource).count p = 0 := by
  rw [postT]
  exact count_map_ne _ _ _ (fun a _ hx => hp a hx.symm)

/-- Count of a `between` place among a node transition's outputs. -/
theorem count_postT_act_between {g : BGraph} (hE : g.edges.Nodup) (v : ℕ) (l : Lbl)
    (a b : ℕ) :
    (postT g (Trans.act v l)).count (Place.between a b) =
      if a = v ∧ (v, b) ∈ g.edges then 1 else 0 := by
  rw [postT, List.count_append]
  have h1 : (if g.succs v = [] then [Place.toSink v] else []).count (Place.between a b) = 0 := by
    by_cases h : g.succs v = [] <;> simp [h]
  rw [h1, Nat.add_zero]
  by_cases ha : a = v
  · subst ha
    rw [List.count_map_of_injective _ (fun w => Place.between a w)
      (by intro x y hxy; simpa using hxy) b]
    by_cases hb : (a, b) ∈ g.edges
    · rw [if_pos ⟨rfl, hb⟩]
      exact List.count_eq_one_of_mem (succs_nodup hE a) (mem_succs.2 hb)
    · rw [if_neg (by simp [hb])]
      rw [List.count_eq_zero]
      intro hmem
      exact hb (mem_succs.1 hmem)
  · rw [if_neg (by simp [ha])]
    exact count_map_ne _ _ _ (by
      intro x _ hx
      injection hx with g1 g2
      exact ha g1.symm)

/-- Count of a `toSink` place among a node transition's outputs. -/
theorem count_postT_act_toSink (g : BGraph) (v : ℕ) (l : Lbl) (w : ℕ) :
    (postT g (Trans.act v l)).count (Place.toSink w) =
      if w = v ∧ g.succs v = [] then 1 else 0 := by
  rw [postT, List.count_append]
  rw [count_map_ne (fun x => Place.between v x) _ _ (by intro x _; simp), Nat.zero_add]
  by_cases h : g.succs v = []
  · rw [if_pos h]
    by_cases hw : w = v
    · subst hw
      rw [if_pos ⟨rfl, h⟩]
      simp
    · rw [if_neg (by simp [hw])]
      rw [List.count_eq_zero]
      intro hmem
      exact hw (by simpa using List.mem_singleton.1 hmem)
  · rw [if_neg h, if_neg (by simp [h])]
    exact List.count_nil _

/-- A node transition produces nothing of the other place shapes. -/
theorem count_postT_act_other (g : BGraph) (v : ℕ) (l : Lbl) (p : Place)
    (hp : ∀ w, p ≠ Place.toSink w) (hp2 : ∀ a b, p ≠ Place.between a b) :
    (postT g (Trans.act v l)).count p = 0 := by
  rw [postT, List.count_append]
  rw [count_map_ne (fun x => Place.between v x) _ _ (by intro x _ hx; exact hp2 v x hx.symm)]
  have h1 : (if g.succs v = [] then [Place.toSink v] else []).count p = 0 := by
    by_cases h : g.succs v = []
    · rw [if_pos h, List.count_eq_zero]
      intro hmem
      exact hp v (List.mem_singleton.1 hmem)
    · simp [h]
  rw [h1]

/-! ## The reachable-marking invariant -/

/-- `S` is a set of node indices. -/
def NodeSet (g : BGraph) (S : List ℕ) : Prop :=
  ∀ v ∈ S, v ∈ g.nodes.map Prod.fst

/-- `S` is history-closed: predecessors of fired nodes have fired. -/
def HistClosed (g : BGraph) (S : List ℕ) : Prop :=
  ∀ v ∈ S, ∀ u, (u, v) ∈ g.edges → u ∈ S

/-- Counts in the initial marking. -/
theorem count_init (p : Place) :
    initialMarking.count p = if p = Place.source then 1 else 0 := by
  cases p <;> simp [initialMarking]

/-- Counts in the final marking. -/
theorem count_final (p : Place) :
    finalMarking.count p = if p = Place.sink then 1 else 0 := by
  cases p <;> simp [finalMarking]

/-- Counts of the source transition's single input place. -/
theorem count_preT_tsource (g : BGraph) (p : Place) :
    (preT g Trans.tsource).count p = if p = Place.source then 1 else 0 := by
  rw [preT]
  cases p <;> simp

/-- Counts of the sink transition's single output place. -/
theorem count_postT_tsink (g : BGraph) (p : Place) :
    (postT g Trans.tsink).count p = if p = Place.sink then 1 else 0 := by
  rw [postT]
  cases p <;> simp

/-- The source transition is enabled at (anything count-equal to) the
initial marking, and firing it yields `mkM g []`. -/
theorem fire_tsource_init {g : BGraph} (hN : (g.nodes.map Prod.fst).Nodup)
    (hE : g.edges.Nodup) {m : Marking} (hm : MEquiv m initialMarking) :
    mLeB (preT g Trans.tsource) m = true ∧
      MEquiv (fire g Trans.tsource m) (mkM g []) := by
  constructor
  · rw [mLeB_iff]
    intro p
    rw [hm p, count_init, count_preT_tsource]
  · intro p
    rw [count_fire, hm p, count_init, count_preT_tsource]
    cases p with
    | source =>
        rw [count_mkM_source, count_postT_tsource_other _ _ (by intro w; simp)]
        simp
    | sink =>
        rw [count_mkM_sink, count_postT_tsource_other _ _ (by intro w; simp)]
        simp
    | fromSource w =>
        rw [count_mkM_fromSource hN, count_postT_tsource_fromSource hN]
        rw [if_neg (by simp)]
        by_cases h : w ∈ g.predless
        · rw [if_pos h, if_pos ⟨h, by simp⟩]
        · rw [if_neg h, if_neg (by simp [h])]
    | between a b =>
        rw [count_mkM_between hE, count_postT_tsource_other _ _ (by intro w; simp)]
        rw [if_neg (by simp), if_neg (by simp)]
    | toSink w =>
        rw [count_mkM_toSink hN, count_postT_tsource_other _ _ (by intro x; simp)]
        rw [if_neg (by simp), if_neg (by simp)]

/-- At the initial marking, no node transition is enabled. -/
theorem act_not_enabled_init {g : BGraph} (hE : g.edges.Nodup) {m : Marking}
    (hm : MEquiv m initialMarking) (v : ℕ) (l : Lbl) :
    mLeB (preT g (Trans.act v l)) m ≠ true := by
  intro h
  rw [mLeB_iff] at h
  by_cases hp : g.preds v = []
  · have := h (Place.fromSource v)
    rw [hm _, count_init, count_preT_act_fromSource, if_pos ⟨rfl, hp⟩,
      if_neg (by simp)] at this
    omega
  · obtain ⟨u, hu⟩ := List.exists_mem_of_ne_nil _ hp
    have hedge := mem_preds.1 hu
    have := h (Place.between u v)
    rw [hm _, count_init, count_preT_act_between hE, if_pos ⟨rfl, hedge⟩,
      if_neg (by simp)] at this
    omega

/-- The source transition is not enabled at a fired-set marking. -/
theorem tsource_not_enabled_mkM {g : BGraph} {S : List ℕ} {m : Marking}
    (hm : MEquiv m (mkM g S)) : mLeB (preT g Trans.tsource) m ≠ true := by
  intro h
  rw [mLeB_iff] at h
  have := h Place.source
  rw [hm _, count_mkM_source, count_preT_tsource, if_pos rfl] at this
  omega

/-- Enabledness of a node transition at a fired-set marking: the node has
not fired and all its predecessors have. -/
theorem act_enabled_iff {g : BGraph} (hE : g.edges.Nodup)
    (hN : (g.nodes.map Prod.fst).Nodup) {S : List ℕ} {m : Marking}
    (hm : MEquiv m (mkM g S)) {v : ℕ} (hv : v ∈ g.nodes.map Prod.fst) (l : Lbl) :
    mLeB (preT g (Trans.act v l)) m = true ↔
      v ∉ S ∧ ∀ u, (u, v) ∈ g.edges → u ∈ S := by
  rw [mLeB_iff]
  constructor
  · intro h
    by_cases hp : g.preds v = []
    · have h1 := h (Place.fromSource v)
      rw [hm _, count_mkM_fromSource hN, count_preT_act_fromSource,
        if_pos ⟨rfl, hp⟩] at h1
      have h2 : v ∈ g.predless ∧ v ∉ S := by
        by_contra hc
        rw [if_neg hc] at h1
        omega
      exact ⟨h2.2, fun u hu => absurd (mem_preds.2 hu) (by simp [hp])⟩
    · have hvS : v ∉ S := by
        obtain ⟨u, hu⟩ := List.exists_mem_of_ne_nil _ hp
        have hedge := mem_preds.1 hu
        have h1 := h (Place.between u v)
        rw [hm _, count_mkM_between hE, count_preT_act_between hE,
          if_pos ⟨rfl, hedge⟩] at h1
        by_contra hc
        rw [if_neg (by simp [hc])] at h1
        omega
      refine ⟨hvS, fun u hu => ?_⟩
      have h1 := h (Place.between u v)
      rw [hm _, count_mkM_between hE, count_preT_act_between hE,
        if_pos ⟨rfl, hu⟩] at h1
      by_contra hc
      rw [if_neg (by simp [hc])] at h1
      omega
  · rintro ⟨hvS, hpreds⟩ p
    rw [hm _]
    cases p with
    | source =>
        rw [count_preT_act_other _ _ _ _ (by intro w; simp) (by intro a b; simp)]
        omega
    | sink =>
        rw [count_preT_act_other _ _ _ _ (by intro w; simp) (by intro a b; simp)]
        omega
    | fromSource w =>
        rw [count_preT_act_fromSource, count_mkM_fromSource hN]
        by_cases hw : w = v ∧ g.preds v = []
        · have hcond : w ∈ g.predless ∧ w ∉ S := by
            obtain ⟨rfl, hp⟩ := hw
            exact ⟨mem_predless.2 ⟨hv, hp⟩, hvS⟩
          rw [if_pos hw, if_pos hcond]
        · rw [if_neg hw]
          omega
    | between a b =>
        rw [count_preT_act_between hE, count_mkM_between hE]
        by_cases hab : b = v ∧ (a, v) ∈ g.edges
        · obtain ⟨rfl, hav⟩ := hab
          rw [if_pos ⟨rfl, hav⟩, if_pos ⟨hav, hpreds a hav, hvS⟩]
        · rw [if_neg hab]
          omega
    | toSink w =>
        rw [count_preT_act_other _ _ _ _ (by intro x; simp) (by intro x y; simp)]
        omega

/-- Firing an enabled node transition moves the fired-set marking from `S`
to `S ++ [v]`. -/
theorem fire_act_mkM {g : BGraph} (hE : g.edges.Nodup)
    (hN : (g.nodes.map Prod.fst).Nodup) {S : List ℕ} {m : Marking}
    (hm : MEquiv m (mkM g S)) {v : ℕ} (hv : v ∈ g.nodes.map Prod.fst)
    (hvv : (v, v) ∉ g.edges) (hS : HistClosed g S) (hvS : v ∉ S)
    (hpreds : ∀ u, (u, v) ∈ g.edges → u ∈ S) (l : Lbl) :
    MEquiv (fire g (Trans.act v l) m) (mkM g (S ++ [v])) := by
  intro p
  rw [count_fire, hm p]
  cases p with
  | source =>
      rw [count_mkM_source, count_mkM_source,
        count_preT_act_other _ _ _ _ (by intro w; simp) (by intro a b; simp),
        count_postT_act_other _ _ _ _ (by intro w; simp) (by intro a b; simp)]
  | sink =>
      rw [count_mkM_sink, count_mkM_sink,
        count_preT_act_other _ _ _ _ (by intro w; simp) (by intro a b; simp),
        count_postT_act_other _ _ _ _ (by intro w; simp) (by intro a b; simp)]
  | fromSource w =>
      rw [count_mkM_fromSource hN, count_mkM_fromSource hN, count_preT_act_fromSource,
        count_postT_act_other _ _ _ _ (by intro x; simp) (by intro a b; simp)]
      by_cases hw : w = v
      · subst hw
        by_cases hp : g.preds w = []
        · rw [if_pos (show w ∈ g.predless ∧ w ∉ S from ⟨mem_predless.2 ⟨hv, hp⟩, hvS⟩),
            if_pos (show w = w ∧ g.preds w = [] from ⟨rfl, hp⟩),
            if_neg (show ¬(w ∈ g.predless ∧ w ∉ S ++ [w]) by simp)]
        · rw [if_neg (show ¬(w ∈ g.predless ∧ w ∉ S) from
              fun hc => hp (mem_predless.1 hc.1).2),
            if_neg (show ¬(w = w ∧ g.preds w = []) from fun hc => hp hc.2),
            if_neg (show ¬(w ∈ g.predless ∧ w ∉ S ++ [w]) by simp)]
      · by_cases hws : w ∈ g.predless ∧ w ∉ S
        · rw [if_pos hws,
            if_neg (show ¬(w = v ∧ g.preds v = []) from fun hc => hw hc.1),
            if_pos (show w ∈ g.predless ∧ w ∉ S ++ [v] from ⟨hws.1, by simp [hws.2, hw]⟩)]
        · rw [if_neg hws,
            if_neg (show ¬(w = v ∧ g.preds v = []) from fun hc => hw hc.1),
            if_neg (show ¬(w ∈ g.predless ∧ w ∉ S ++ [v]) from
              fun hc => hws ⟨hc.1, fun hs => hc.2 (List.mem_append_left _ hs)⟩)]
  | between a b =>
      rw [count_mkM_between hE, count_mkM_between hE, count_preT_act_between hE,
        count_postT_act_between hE]
      by_cases hb : b = v
      · subst hb
        by_cases hav : (a, b) ∈ g.edges
        · have ha : a ≠ b := fun h => hvv (h ▸ hav)
          rw [if_pos (show (a, b) ∈ g.edges ∧ a ∈ S ∧ b ∉ S from
              ⟨hav, hpreds a hav, hvS⟩),
            if_pos (show b = b ∧ (a, b) ∈ g.edges from ⟨rfl, hav⟩),
            if_neg (show ¬(a = b ∧ (b, b) ∈ g.edges) from fun hc => ha hc.1),
            if_neg (show ¬((a, b) ∈ g.edges ∧ a ∈ S ++ [b] ∧ b ∉ S ++ [b]) by simp)]
        · rw [if_neg (show ¬((a, b) ∈ g.edges ∧ a ∈ S ∧ b ∉ S) from fun hc => hav hc.1),
            if_neg (show ¬(b = b ∧ (a, b) ∈ g.edges) from fun hc => hav hc.2),
            if_neg (show ¬(a = b ∧ (b, b) ∈ g.edges) from fun hc => hvv hc.2),
            if_neg (show ¬((a, b) ∈ g.edges ∧ a ∈ S ++ [b] ∧ b ∉ S ++ [b]) from
              fun hc => hav hc.1)]
      · by_cases ha : a = v
        · subst ha
          by_cases hvb : (a, b) ∈ g.edges
          · have hbS : b ∉ S := fun h => hvS (hS b h a hvb)
            rw [if_neg (show ¬((a, b) ∈ g.edges ∧ a ∈ S ∧ b ∉ S) from
                fun hc => hvS hc.2.1),
              if_neg (show ¬(b = a ∧ (a, a) ∈ g.edges) from fun hc => hb hc.1),
              if_pos (show a = a ∧ (a, b) ∈ g.edges from ⟨rfl, hvb⟩),
              if_pos (show (a, b) ∈ g.edges ∧ a ∈ S ++ [a] ∧ b ∉ S ++ [a] from
                ⟨hvb, by simp, by simp [hbS, hb]⟩)]
          · rw [if_neg (show ¬((a, b) ∈ g.edges ∧ a ∈ S ∧ b ∉ S) from
                fun hc => hvb hc.1),
              if_neg (show ¬(b = a ∧ (a, a) ∈ g.edges) from fun hc => hvv hc.2),
              if_neg (show ¬(a = a ∧ (a, b) ∈ g.edges) from fun hc => hvb hc.2),
              if_neg (show ¬((a, b) ∈ g.edges ∧ a ∈ S ++ [a] ∧ b ∉ S ++ [a]) from
                fun hc => hvb hc.1)]
        · by_cases hcond : (a, b) ∈ g.edges ∧ a ∈ S ∧ b ∉ S
          · rw [if_pos hcond,
              if_neg (show ¬(b = v ∧ (a, v) ∈ g.edges) from fun hc => hb hc.1),
              if_neg (show ¬(a = v ∧ (v, b) ∈ g.edges) from fun hc => ha hc.1),
              if_pos (show (a, b) ∈ g.edges ∧ a ∈ S ++ [v] ∧ b ∉ S ++ [v] from
                ⟨hcond.1, List.mem_append_left _ hcond.2.1, by simp [hcond.2.2, hb]⟩)]
          · rw [if_neg hcond,
              if_neg (show ¬(b = v ∧ (a, v) ∈ g.edges) from fun hc => hb hc.1),
              if_neg (show ¬(a = v ∧ (v, b) ∈ g.edges) from fun hc => ha hc.1),
              if_neg (show ¬((a, b) ∈ g.edges ∧ a ∈ S ++ [v] ∧ b ∉ S ++ [v]) from
                fun hc => hcond ⟨hc.1,
                  (List.mem_append.1 hc.2.1).resolve_right
                    (fun h => ha (List.mem_singleton.1 h)),
                  fun hbs => hc.2.2 (List.mem_append_left _ hbs)⟩)]
  | toSink w =>
      rw [count_mkM_toSink hN, count_mkM_toSink hN, count_postT_act_toSink,
        count_preT_act_other _ _ _ _ (by intro x; simp) (by intro a b; simp)]
      by_cases hw : w = v
      · subst hw
        by_cases hsuc : g.succs w = []
        · rw [if_neg (show ¬(w ∈ g.succless ∧ w ∈ S) from fun hc => hvS hc.2),
            if_pos (show w = w ∧ g.succs w = [] from ⟨rfl, hsuc⟩),
            if_pos (show w ∈ g.succless ∧ w ∈ S ++ [w] from
              ⟨mem_succless.2 ⟨hv, hsuc⟩, by simp⟩)]
        · rw [if_neg (show ¬(w ∈ g.succless ∧ w ∈ S) from fun hc => hvS hc.2),
            if_neg (show ¬(w = w ∧ g.succs w = []) from fun hc => hsuc hc.2),
            if_neg (show ¬(w ∈ g.succless ∧ w ∈ S ++ [w]) from
              fun hc => hsuc (mem_succless.1 hc.1).2)]
      · by_cases hws : w ∈ g.succless ∧ w ∈ S
        · rw [if_pos hws,
            if_neg (show ¬(w = v ∧ g.succs v = []) from fun hc => hw hc.1),
            if_pos (show w ∈ g.succless ∧ w ∈ S ++ [v] from
              ⟨hws.1, List.mem_append_left _ hws.2⟩)]
        · rw [if_neg hws,
            if_neg (show ¬(w = v ∧ g.succs v = []) from fun hc => hw hc.1),
            if_neg (show ¬(w ∈ g.succless ∧ w ∈ S ++ [v]) from
              fun hc => hws ⟨hc.1, (List.mem_append.1 hc.2).resolve_right
                (fun h => hw (List.mem_singleton.1 h))⟩)]

/-- Enabledness of the sink transition at a fired-set marking: every
successor-less node has fired. -/
theorem tsink_enabled_iff {g : BGraph} (hN : (g.nodes.map Prod.fst).Nodup)
    {S : List ℕ} {m : Marking} (hm : MEquiv m (mkM g S)) :
    mLeB (preT g Trans.tsink) m = true ↔ ∀ w ∈ g.succless, w ∈ S := by
  rw [mLeB_iff]
  constructor
  · intro h w hw
    have := h (Place.toSink w)
    rw [hm _, count_mkM_toSink hN, count_preT_tsink_toSink hN, if_pos hw] at this
    by_contra hc
    rw [if_neg (fun h2 => hc h2.2)] at this
    omega
  · intro hall p
    rw [hm _]
    cases p with
    | source =>
        rw [count_preT_tsink_other _ _ (by intro w; simp)]
        exact Nat.zero_le _
    | sink =>
        rw [count_preT_tsink_other _ _ (by intro w; simp)]
        exact Nat.zero_le _
    | fromSource w =>
        rw [count_preT_tsink_other _ _ (by intro x; simp)]
        exact Nat.zero_le _
    | between a b =>
        rw [count_preT_tsink_other _ _ (by intro x; simp)]
        exact Nat.zero_le _
    | toSink w =>
        rw [count_preT_tsink_toSink hN, count_mkM_toSink hN]
        by_cases hw : w ∈ g.succless
        · rw [if_pos hw, if_pos ⟨hw, hall w hw⟩]
        · rw [if_neg hw]
          exact Nat.zero_le _

/-- Firing the sink transition at the fired-set marking of a complete fired
set reaches the final marking. -/
theorem fire_tsink_full {g : BGraph} (hE : g.edges.Nodup)
    (hN : (g.nodes.map Prod.fst).Nodup)
    (hEnds : ∀ e ∈ g.edges, e.2 ∈ g.nodes.map Prod.fst)
    {S : List ℕ} {m : Marking} (hm : MEquiv m (mkM g S))
    (hfull : ∀ w ∈ g.nodes.map Prod.fst, w ∈ S) :
    MEquiv (fire g Trans.tsink m) finalMarking := by
  intro p
  rw [count_fire, hm p, count_final]
  cases p with
  | source =>
      rw [count_mkM_source, count_preT_tsink_other _ _ (by intro w; simp),
        count_postT_tsink, if_neg (show ¬(Place.source = Place.sink) by simp)]
  | sink =>
      rw [count_mkM_sink, count_preT_tsink_other _ _ (by intro w; simp),
        count_postT_tsink, if_pos (show Place.sink = Place.sink from rfl)]
  | fromSource w =>
      rw [count_mkM_fromSource hN, count_preT_tsink_other _ _ (by intro x; simp),
        count_postT_tsink,
        if_neg (show ¬(w ∈ g.predless ∧ w ∉ S) from
          fun hc => hc.2 (hfull w (mem_predless.1 hc.1).1)),
        if_neg (show ¬(Place.fromSource w = Place.sink) by simp)]
  | between a b =>
      rw [count_mkM_between hE, count_preT_tsink_other _ _ (by intro x; simp),
        count_postT_tsink,
        if_neg (show ¬((a, b) ∈ g.edges ∧ a ∈ S ∧ b ∉ S) from
          fun hc => hc.2.2 (hfull b (hEnds (a, b) hc.1))),
        if_neg (show ¬(Place.between a b = Place.sink) by simp)]
  | toSink w =>
      rw [count_mkM_toSink hN, count_preT_tsink_toSink hN, count_postT_tsink]
      by_cases hw : w ∈ g.succless
      · rw [if_pos (show w ∈ g.succless ∧ w ∈ S from ⟨hw, hfull w (mem_succless.1 hw).1⟩),
          if_pos hw, if_neg (show ¬(Place.toSink w = Place.sink) by simp)]
      · rw [if_neg (show ¬(w ∈ g.succless ∧ w ∈ S) from fun hc => hw hc.1),
          if_neg hw, if_neg (show ¬(Place.toSink w = Place.sink) by simp)]

/-- The endpoints of every edge of a built graph are node indices. -/
theorem edge_ends_nodes {tr : List UEvent} {g : BGraph}
    (hg : behavior_graph tr = Except.ok g) {u v : ℕ} (huv : (u, v) ∈ g.edges) :
    u ∈ g.nodes.map Prod.fst ∧ v ∈ g.nodes.map Prod.fst := by
  obtain ⟨hu, hv, -⟩ := edge_strictT hg huv
  obtain ⟨nu, hnu, hnu1⟩ := nodes_complete hg u hu
  obtain ⟨nv, hnv, hnv1⟩ := nodes_complete hg v hv
  exact ⟨List.mem_map.2 ⟨nu, hnu, hnu1⟩, List.mem_map.2 ⟨nv, hnv, hnv1⟩⟩

/-- The edge list of a built graph is duplicate-free. -/
theorem edges_nodup {tr : List UEvent} {g : BGraph}
    (hg : behavior_graph tr = Except.ok g) : g.edges.Nodup := by
  obtain ⟨triples, -, -, hedges⟩ := behavior_graph_parts hg
  rw [hedges]
  exact dedupFirst_nodup _

/-- A nonempty built graph has a successor-less node (the one with the
largest close time). -/
theorem succless_ne_nil {tr : List UEvent} {g : BGraph}
    (hg : behavior_graph tr = Except.ok g) (hwf : ∀ e ∈ tr, WFEvent e)
    (hne : g.nodes ≠ []) : g.succless ≠ [] := by
  classical
  obtain ⟨n, hn⟩ := List.exists_mem_of_ne_nil _ hne
  have hT : (g.nodes.map Prod.fst).toFinset.Nonempty :=
    ⟨n.1, List.mem_toFinset.2 (List.mem_map_of_mem _ hn)⟩
  obtain ⟨v, hvT, hmax⟩ := Finset.exists_max_image _ (closeT tr) hT
  have hv : v ∈ g.nodes.map Prod.fst := List.mem_toFinset.1 hvT
  have hsucc : g.succs v = [] := by
    by_contra hs
    obtain ⟨b, hb⟩ := List.exists_mem_of_ne_nil _ hs
    have hvb := mem_succs.1 hb
    have hlt := edge_closeT_lt hg hwf hvb
    have hbT : b ∈ (g.nodes.map Prod.fst).toFinset :=
      List.mem_toFinset.2 (edge_ends_nodes hg hvb).2
    have := hmax b hbT
    exact absurd (lt_of_lt_of_le hlt this) (lt_irrefl _)
  exact List.ne_nil_of_mem (mem_succless.2 ⟨hv, hsucc⟩)

/-- A history-closed fired set containing every successor-less node contains
every node (downward induction along the acyclic edge relation). -/
theorem all_in_S {tr : List UEvent} {g : BGraph}
    (hg : behavior_graph tr = Except.ok g) (hwf : ∀ e ∈ tr, WFEvent e)
    {S : List ℕ} (hS : HistClosed g S) (hsucc : ∀ w ∈ g.succless, w ∈ S) :
    ∀ v ∈ g.nodes.map Prod.fst, v ∈ S := by
  have H : ∀ r, ∀ v ∈ g.nodes.map Prod.fst, rankOf tr v < r → v ∈ S := by
    intro r
    induction r with
    | zero => intro v _ hr; omega
    | succ r ih =>
        intro v hv hr
        by_cases hs : g.succs v = []
        · exact hsucc v (mem_succless.2 ⟨hv, hs⟩)
        · obtain ⟨b, hb⟩ := List.exists_mem_of_ne_nil _ hs
          have hvb := mem_succs.1 hb
          have hbS : b ∈ S := ih b (edge_ends_nodes hg hvb).2
            (by have := rank_lt_of_edge hg hwf hvb; omega)
          exact hS b hbS v hvb
  exact fun v hv => H (rankOf tr v + 1) v hv (Nat.lt_succ_self _)

/-- While some node is unfired, a node with maximal rank among the unfired
ones has all its predecessors fired. -/
theorem exists_enabled_act {tr : List UEvent} {g : BGraph}
    (hg : behavior_graph tr = Except.ok g) (hwf : ∀ e ∈ tr, WFEvent e)
    {S : List ℕ} {v0 : ℕ} (hv0 : v0 ∈ g.nodes.map Prod.fst) (hv0S : v0 ∉ S) :
    ∃ v ∈ g.nodes.map Prod.fst, v ∉ S ∧ ∀ u, (u, v) ∈ g.edges → u ∈ S := by
  classical
  have hT : (((g.nodes.map Prod.fst).filter (fun v => v ∉ S)).toFinset).Nonempty :=
    ⟨v0, List.mem_toFinset.2 (List.mem_filter.2 ⟨hv0, by simpa using hv0S⟩)⟩
  obtain ⟨v, hvT, hmax⟩ := Finset.exists_max_image _ (rankOf tr) hT
  obtain ⟨hv1, hv2⟩ := List.mem_filter.1 (List.mem_toFinset.1 hvT)
  refine ⟨v, hv1, by simpa using hv2, ?_⟩
  intro u huv
  by_contra huS
  have huT : u ∈ ((g.nodes.map Prod.fst).filter (fun v => v ∉ S)).toFinset :=
    List.mem_toFinset.2 (List.mem_filter.2 ⟨(edge_ends_nodes hg huv).1, by simpa using huS⟩)
  have h1 := hmax u huT
  have h2 := rank_lt_of_edge hg hwf huv
  omega

/-- No node transition is enabled at the final marking. -/
theorem act_not_enabled_final {g : BGraph} (hE : g.edges.Nodup) {m : Marking}
    (hm : MEquiv m finalMarking) (v : ℕ) (l : Lbl) :
    mLeB (preT g (Trans.act v l)) m ≠ true := by
  intro h
  rw [mLeB_iff] at h
  by_cases hp : g.preds v = []
  · have := h (Place.fromSource v)
    rw [hm _, count_final, count_preT_act_fromSource,
      if_pos (show v = v ∧ g.preds v = [] from ⟨rfl, hp⟩),
      if_neg (show ¬(Place.fromSource v = Place.sink) by simp)] at this
    omega
  · obtain ⟨u, hu⟩ := List.exists_mem_of_ne_nil _ hp
    have hedge := mem_preds.1 hu
    have := h (Place.between u v)
    rw [hm _, count_final, count_preT_act_between hE,
      if_pos (show v = v ∧ (u, v) ∈ g.edges from ⟨rfl, hedge⟩),
      if_neg (show ¬(Place.between u v = Place.sink) by simp)] at this
    omega

/-- The source transition is not enabled at the final marking. -/
theorem tsource_not_enabled_final {g : BGraph} {m : Marking}
    (hm : MEquiv m finalMarking) : mLeB (preT g Trans.tsource) m ≠ true := by
  intro h
  rw [mLeB_iff] at h
  have := h Place.source
  rw [hm _, count_final, count_preT_tsource,
    if_pos (show Place.source = Place.source from rfl),
    if_neg (show ¬(Place.source = Place.sink) by simp)] at this
  omega

/-- With a successor-less node present, the sink transition is not enabled
at the final marking. -/
theorem tsink_not_enabled_final {g : BGraph} (hN : (g.nodes.map Prod.fst).Nodup)
    (hne : g.succless ≠ []) {m : Marking} (hm : MEquiv m finalMarking) :
    mLeB (preT g Trans.tsink) m ≠ true := by
  intro h
  rw [mLeB_iff] at h
  obtain ⟨w, hw⟩ := List.exists_mem_of_ne_nil _ hne
  have := h (Place.toSink w)
  rw [hm _, count_final, count_preT_tsink_toSink hN, if_pos hw,
    if_neg (show ¬(Place.toSink w = Place.sink) by simp)] at this
  omega

/-- With no successor-less node, the sink transition has no input places
and is enabled at every marking. -/
theorem tsink_enabled_no_succless {g : BGraph} (hne : g.succless = [])
    (m : Marking) : mLeB (preT g Trans.tsink) m = true := by
  rw [mLeB_iff]
  intro p
  rw [preT, hne]
  simp

/-- The boundary transitions belong to the net's transition list. -/
theorem tsource_mem_transList (g : BGraph) : Trans.tsource ∈ transList g := by
  rw [transList]
  exact List.mem_cons_self _ _

/-- The sink transition belongs to the net's transition list. -/
theorem tsink_mem_transList (g : BGraph) : Trans.tsink ∈ transList g := by
  rw [transList]
  exact List.mem_cons_of_mem _ (List.mem_cons_self _ _)

/-- Every node contributes at least one transition to the net's transition
list. -/
theorem act_mem_transList {g : BGraph} {v : ℕ} (hv : v ∈ g.nodes.map Prod.fst)
    (hopts : ∀ node ∈ g.nodes, node.2 ≠ []) :
    ∃ l, Trans.act v l ∈ transList g := by
  obtain ⟨n, hn, hn1⟩ := List.mem_map.1 hv
  obtain ⟨lp, hlp⟩ := List.exists_mem_of_ne_nil _ (hopts n hn)
  refine ⟨lp.1, ?_⟩
  rw [transList]
  refine List.mem_cons_of_mem _ (List.mem_cons_of_mem _ ?_)
  rw [List.mem_flatMap]
  exact ⟨n, hn, List.mem_map.2 ⟨lp, hlp, by rw [hn1]⟩⟩

/-- Shapes of the members of the transition list. -/
theorem transList_cases {g : BGraph} {t : Trans} (ht : t ∈ transList g) :
    t = Trans.tsource ∨ t = Trans.tsink ∨
      ∃ v l, t = Trans.act v l ∧ v ∈ g.nodes.map Prod.fst := by
  rw [transList] at ht
  rcases List.mem_cons.1 ht with h | ht
  · exact .inl h
  rcases List.mem_cons.1 ht with h | ht
  · exact .inr (.inl h)
  rw [List.mem_flatMap] at ht
  obtain ⟨n, hn, hmem⟩ := ht
  obtain ⟨lp, hlp, heq⟩ := List.mem_map.1 hmem
  exact .inr (.inr ⟨n.1, lp.1, heq.symm, List.mem_map.2 ⟨n, hn, rfl⟩⟩)

/-- Firing sequences of the net: repeatedly execute an enabled transition of
the net (pm4py `semantics.execute` on members of the transition list). -/
inductive Fires (g : BGraph) : Marking → Marking → Prop
  | refl (m : Marking) : Fires g m m
  | step {m1 : Marking} (t : Trans) {m2 : Marking} :
      t ∈ transList g → mLeB (preT g t) m1 = true →
      Fires g (fire g t m1) m2 → Fires g m1 m2

/-- The reachability invariant: every reachable marking is (count-equal to)
the initial marking, a fired-set marking of a history-closed node set, or
the final marking. -/
def GShape (g : BGraph) (m : Marking) : Prop :=
  MEquiv m initialMarking ∨
    (∃ S, NodeSet g S ∧ HistClosed g S ∧ MEquiv m (mkM g S)) ∨
    MEquiv m finalMarking

/-- One firing step preserves the reachability invariant. -/
theorem gshape_step {tr : List UEvent} {g : BGraph}
    (hg : behavior_graph tr = Except.ok g) (hwf : ∀ e ∈ tr, WFEvent e)
    (hne : g.nodes ≠ []) {m : Marking} (hshape : GShape g m) {t : Trans}
    (ht : t ∈ transList g) (hen : mLeB (preT g t) m = true) :
    GShape g (fire g t m) := by
  have hE := edges_nodup hg
  have hN := nodes_fst_nodup hg
  rcases hshape with hm | ⟨S, hNS, hHC, hm⟩ | hm
  · rcases transList_cases ht with rfl | rfl | ⟨v, l, rfl, hv⟩
    · exact .inr (.inl ⟨[], fun v hv => absurd hv (List.not_mem_nil v),
        fun v hv => absurd hv (List.not_mem_nil v),
        (fire_tsource_init hN hE hm).2⟩)
    · exfalso
      obtain ⟨w, hw⟩ := List.exists_mem_of_ne_nil _ (succless_ne_nil hg hwf hne)
      rw [mLeB_iff] at hen
      have := hen (Place.toSink w)
      rw [hm _, count_init, count_preT_tsink_toSink hN, if_pos hw,
        if_neg (show ¬(Place.toSink w = Place.source) by simp)] at this
      omega
    · exact absurd hen (act_not_enabled_init hE hm v l)
  · rcases transList_cases ht with rfl | rfl | ⟨v, l, rfl, hv⟩
    · exact absurd hen (tsource_not_enabled_mkM hm)
    · have hsucc := (tsink_enabled_iff hN hm).1 hen
      have hfull := all_in_S hg hwf hHC hsucc
      exact .inr (.inr (fire_tsink_full hE hN
        (fun e he => (edge_ends_nodes hg he).2) hm hfull))
    · obtain ⟨hvS, hpreds⟩ := (act_enabled_iff hE hN hm hv l).1 hen
      refine .inr (.inl ⟨S ++ [v], ?_, ?_,
        fire_act_mkM hE hN hm hv (edge_no_self hg hwf v) hHC hvS hpreds l⟩)
      · intro w hw
        rcases List.mem_append.1 hw with h | h
        · exact hNS w h
        · rw [List.mem_singleton.1 h]
          exact hv
      · intro w hw u hu
        rcases List.mem_append.1 hw with h | h
        · exact List.mem_append_left _ (hHC w h u hu)
        · rw [List.mem_singleton.1 h] at hu
          exact List.mem_append_left _ (hpreds u hu)
  · rcases transList_cases ht with rfl | rfl | ⟨v, l, rfl, hv⟩
    · exact absurd hen (tsource_not_enabled_final hm)
    · exact absurd hen (tsink_not_enabled_final hN (succless_ne_nil hg hwf hne) hm)
    · exact absurd hen (act_not_enabled_final hE hm v l)

/-- Every marking reachable from an invariant-satisfying marking satisfies
the invariant. -/
theorem fires_shape {tr : List UEvent} {g : BGraph}
    (hg : behavior_graph tr = Except.ok g) (hwf : ∀ e ∈ tr, WFEvent e)
    (hne : g.nodes ≠ []) {m0 m : Marking} (h0 : GShape g m0)
    (hf : Fires g m0 m) : GShape g m := by
  induction hf with
  | refl m => exact h0
  | step t ht hen htail ih => exact ih (gshape_step hg hwf hne h0 ht hen)

/-! ## `acyclic_net_variants` / `explore_marking` (behavior_net/utils.py) -/

/-- An event of a replayed realization: the pm4py `Event` built at utils.py
lines 55-56, carrying the transition label and the transition's uncertainty
dictionary. -/
abbrev VEvent := Lbl × UInfo

/-- A state of the exploration: the current marking and the partial trace. -/
abbrev EState := Marking × List VEvent

/-- The exploration's mutable context: the realizations recorded so far and
the visited set (Python keeps hashes; we keep the states themselves and
compare markings as multisets, which is what hashing a `Marking` compares). -/
structure ERes where
  recs : List (List VEvent)
  vis : List EState
deriving Repr

/-- The visited-set membership test: marking compared as a multiset, partial
trace as a tuple (utils.py line 44). -/
def stateMem (m : Marking) (w : List VEvent) (vis : List EState) : Bool :=
  vis.any (fun s => mEqB s.1 m && s.2 == w)

/-- The loop body of `explore_marking` (utils.py lines 51-60): fire each
enabled transition in turn, recursing via `exp`; boundary transitions do not
contribute an event.  `exp` is the one-level-less-fuel exploration. -/
def explore_fold (g : BGraph) (exp : Marking → List VEvent → ERes → Option ERes) (m : Marking)
    (w : List VEvent) : List Trans → ERes → Option ERes
  | [], st => some st
  | t :: ts, st =>
    let m2 := fire g t m
    let next := if t == Trans.tsource || t == Trans.tsink then exp m2 w st
      else exp m2 (w ++ [(t.label, uDict g t)]) st
    next.bind (explore_fold g exp m w ts)

/-- Model of `explore_marking` (utils.py lines 30-60), with explicit fuel:
`none` means the Python recursion would not have returned within `fuel`
nested calls (the source gives no termination guarantee). -/
def explore (g : BGraph) : ℕ → Marking → List VEvent → ERes → Option ERes
  | 0, _, _, _ => none
  | fuel + 1, m, w, st =>
    if mEqB m finalMarking then some ⟨st.recs ++ [w], st.vis⟩
    else if stateMem m w st.vis then some st
    else explore_fold g (fun m2 w2 st2 => explore g fuel m2 w2 st2) m w
        (enabledList g m) ⟨st.recs, st.vis ++ [(m, w)]⟩

/-- Model of `acyclic_net_variants` (utils.py lines 10-68): explore from the
initial marking and return the recorded realizations. -/
def acyclic_net_variants (g : BGraph) (fuel : ℕ) : Option (List (List VEvent)) :=
  (explore g fuel initialMarking [] ⟨[], []⟩).map ERes.recs

/-! ## Probability evaluation (trace_probability_calculator.py)

`scipy.integrate.nquad` is external code; it is modelled as a parameter: a
function receiving the integrand, the list of bounds functions and the
options record, returning the `(value, abserr)` pair `nquad` returns. -/

/-- A probability density function. -/
abbrev Pdf := ℚ → ℚ

/-- A bounds function for one integration variable: from the values of the
enclosing variables, the `(lower, upper)` pair. -/
abbrev BoundFn := List ℚ → ℚ × ℚ

/-- The options dictionary passed to `nquad` (lines 224-228). -/
structure NquadOptions where
  limit : ℕ
  epsabs : ℚ
  epsrel : ℚ
deriving DecidableEq, Repr

/-- The model of `scipy.integrate.nquad`: integrand, bounds, options in;
`(value, error estimate)` out. -/
abbrev Integrator := (List ℚ → ℚ) → List BoundFn → NquadOptions → ℚ × ℚ

/-- Model of `construct_uniform_pdf` (lines 31-35). -/
def construct_uniform_pdf (lower upper : ℚ) : Pdf :=
  fun x => if lower ≤ x ∧ x ≤ upper then 1 / (upper - lower) else 0

/-- Model of `construct_dirac_pdf` (lines 43-49). -/
def construct_dirac_pdf (timestamp : ℚ) (delta : ℚ) : Pdf :=
  fun x => if timestamp - delta ≤ x ∧ x ≤ timestamp + delta then 1 / (2 * delta) else 0

/-- An event object built by `construct_event` (lines 52-90): the pdf and the
(normalized) interval bounds. -/
structure IEvent where
  p : Pdf
  lower : ℚ
  upper : ℚ

/-- Python `round(x, 3)`: round to 3 decimal places, ties to even. -/
def round3 (q : ℚ) : ℚ :=
  let y := q * 1000
  let f : ℤ := ⌊y⌋
  let frac := y - f
  (if frac < 1 / 2 then f else if 1 / 2 < frac then f + 1 else if Even f then f else f + 1) / 1000

/-- Model of `process_event_seq` (lines 93-146): classify each realization
event as uniform (interval) or deterministic, find the minimum timestamp,
shift all bounds by it (rounded to 3 decimals), and build the event objects.
The dirac half-width `delta` is the default `1e-6`. -/
def process_event_seq (sigma : List VEvent) : List IEvent :=
  let eventObjs : List (ℚ × ℚ × Bool) := sigma.map (fun ev =>
    match ev.2.uTimestampMin, ev.2.uTimestampMax with
    | some tmin, some tmax => (tmin, tmax, true)
    | _, _ => (ev.2.timestamp, ev.2.timestamp, false))
  let minTs : ℚ := (eventObjs.map Prod.fst).foldl min (eventObjs.head?.elim 0 Prod.fst)
  eventObjs.map (fun obj =>
    let lower1 := round3 (obj.1 - minTs)
    let upper1 := round3 (obj.2.1 - minTs)
    if obj.2.2 then ⟨construct_uniform_pdf lower1 upper1, lower1, upper1⟩
    else ⟨construct_dirac_pdf lower1 (1 / 1000000), lower1, upper1⟩)

/-- Model of `get_integrand` (lines 149-165): the product of the pdfs, each
applied to its own variable. -/
def get_integrand (pdfs : List Pdf) : List ℚ → ℚ :=
  fun xs => ((pdfs.zip xs).foldl (fun r px => r * px.1 px.2) 1)

/-- Model of `bound_func` (lines 168-187): the bounds of the `i`-th pdf's
integral.  The upper bound is the minimum of the upper interval ends from
`i` on; the lower bound is the maximum of the `i`-th lower end and the first
enclosing variable (if any). -/
def bound_func (i : ℕ) (tmins tmaxs : List ℚ) : BoundFn :=
  fun xs =>
    let upper := (tmaxs.drop i).foldl min ((tmaxs.drop i).head?.elim 0 id)
    let lower := match xs.head? with
      | some x0 => max (tmins.getD i 0) x0
      | none => tmins.getD i 0
    (lower, upper)

/-- Model of `bounds_proper` (lines 190-208): the bounds functions, innermost
integral first (scipy's `nquad` convention), built by inserting
`bound_func i` at the front for `i = 0, …, n-1`. -/
def bounds_proper (tmins tmaxs : List ℚ) : List BoundFn :=
  (List.range tmins.length).foldl (fun bounds i => bound_func i tmins tmaxs :: bounds) []

/-- The options dictionary of `probability` (lines 224-228): a fixed
iteration limit of 5 and absolute/relative tolerances of `1e-3`. -/
def probabilityOptions : NquadOptions :=
  ⟨5, 1 / 1000, 1 / 1000⟩

/-- Model of `probability` (lines 211-230): hand `nquad` the integrand, the
bounds and the fixed options; return `nquad`'s `(value, error)` pair. -/
def probability (nq : Integrator) (pdfs : List Pdf) (tmins tmaxs : List ℚ) : ℚ × ℚ :=
  nq (get_integrand pdfs) (bounds_proper tmins tmaxs) probabilityOptions

/-- Model of `calculate_integral` (lines 233-246): build the event objects,
reverse the pdf list (nquad's innermost-first convention), and integrate. -/
def calculate_integral (nq : Integrator) (sigma : List VEvent) : ℚ × ℚ :=
  let events := process_event_seq sigma
  probability nq (events.map IEvent.p).reverse (events.map IEvent.lower) (events.map IEvent.upper)

/-- Model of the inner `calculate_P_missing` (lines 286-297): the product of
the stored missing-probability entries over the realization's events. -/
def calculate_P_missing (sigma : List VEvent) : ℚ :=
  sigma.foldl (fun acc ev => match ev.2.uMissing with
    | some p => acc * p
    | none => acc) 1

/-- Model of the inner `calculate_PO` (lines 260-269): multiply the missing
factor with the integral value when any event carries an interval; note the
integral's error estimate is dropped here. -/
def calculate_PO (nq : Integrator) (sigma : List VEvent) : ℚ :=
  let pm := calculate_P_missing sigma
  if sigma.any (fun ev => ev.2.uTimestampMin.isSome) then (calculate_integral nq sigma).1 * pm
  else pm

/-- Model of the inner `calculate_PA` (lines 272-283): the product of the
stored activity probabilities over the realization's events. -/
def calculate_PA (sigma : List VEvent) : ℚ :=
  sigma.foldl (fun acc ev => match ev.2.uActivity with
    | some p => acc * p
    | none => acc) 1

/-- Model of `calculate_realizations_probabilities` (lines 249-305): attach
`PO * PA` to each realization as its `trace_probability` attribute. -/
def calculate_realizations_probabilities (nq : Integrator) (rs : List (List VEvent)) :
    List (List VEvent × ℚ) :=
  rs.map (fun sigma => (sigma, calculate_PO nq sigma * calculate_PA sigma))

/-! ## Aggregation (realization_set_aggregator.py) -/

/-- Add `v` to the entry of `k`, inserting at the end if absent: the
behaviour of `defaultdict[k] += v` with dict insertion order. -/
def upsert (k : List Lbl) (v : ℚ) : List (List Lbl × ℚ) → List (List Lbl × ℚ)
  | [] => [(k, v)]
  | (k2, v2) :: rest => if k2 = k then (k2, v2 + v) :: rest else (k2, v2) :: upsert k v rest

/-- An output realization: the observable label sequence and, when
probabilities were aggregated, the total probability (the
`trace_probability` attribute of the rebuilt `Trace`). -/
structure OutTrace where
  seq : List Lbl
  prob : Option ℚ
deriving DecidableEq, Repr

/-- Model of `get_unique_realizations` (lines 8-43): group the realizations
by their label sequence with `None` labels dropped (line 28), summing the
`trace_probability` attribute (default 1) when `add_probability` else adding
0, and rebuild one output trace per distinct sequence. -/
def get_unique_realizations (rs : List (List VEvent × Option ℚ)) (addProbability : Bool) :
    List OutTrace :=
  let grouped := rs.foldl (fun acc r =>
    let key := (r.1.map Prod.fst).filter (fun l => l ≠ none)
    upsert key (if addProbability then (r.2.getD 1) else 0) acc) []
  grouped.map (fun kv => ⟨kv.1, if addProbability then some kv.2 else none⟩)

/-! ## `realization_set` (uncertain_log/utils.py lines 14-71) -/

/-- Model of `realization_set`: build the behavior graph and net, enumerate
the variants (with the given exploration fuel), optionally attach
probabilities, and aggregate.  The outer `Except` carries a Python
exception; the inner `Option` is `none` when the exploration recursion does
not terminate within `fuel`. -/
def realization_set (nq : Integrator) (fuel : ℕ) (trace : List UEvent)
    (add_probability : Bool) : Except PyErr (Option (List OutTrace)) := do
  let g ← behavior_graph trace
  match acyclic_net_variants g fuel with
  | none => return none
  | some rs =>
      let pairs : List (List VEvent × Option ℚ) :=
        if add_probability then
          (calculate_realizations_probabilities nq rs).map (fun rp => (rp.1, some rp.2))
        else rs.map (fun r => (r, none))
      return some (get_unique_realizations pairs add_probability)

/-- An integrator that ignores its input; used to instantiate theorems whose
statement does not depend on the integrator. -/
def nqZero : Integrator := fun _ _ _ => (0, 0)

/-! ## Concrete example traces -/

/-- The spec's "concrete scenario with missing event": one event with label
`"A"`, certain timestamp 0, missing-probability 0.3. -/
def exMissing : List UEvent :=
  [{ timestamp := some 0, label := some "A", uMissing := some (3 / 10) }]

/-- A malformed event: no timestamp field at all. -/
def exNoTimestamp : List UEvent := [{ label := some "A" }]

/-- A well-keyed event with uncertainty values that violate the data-model
invariants (label probabilities summing to 1.4, missing probability 0.9). -/
def exBadValues : List UEvent :=
  [{ timestamp := some 0, uMissing := some (9 / 10),
     uActivity := some [("X", 7 / 10), ("Y", 7 / 10)] }]

end Proved

deriving instance DecidableEq for Except

namespace Proved

/-! ## Claim C1: the missing-event concrete scenario -/

/-- C1, counterexample.  For the trace `[label "A", t = 0,
missing-probability 0.3]`, `realization_set` with probability tracking
returns the *reverse* assignment of the claim: the singleton sequence
`["A"]` carries probability 0.3 and the empty sequence carries probability
0.7 (`process_event` stores the raw field value 0.3 on the "A" alternative
and `1 - 0.3 = 0.7` on the absent alternative, and `calculate_P_missing`
multiplies the stored values).  In particular the claimed realization
`([], 0.3)` is not in the returned set, refuting the claim. -/
theorem c1_counterexample :
    realization_set nqZero 10 exMissing true =
      Except.ok (some [⟨[some "A"], some (3 / 10)⟩, ⟨[], some (7 / 10)⟩]) ∧
    realization_set nqZero 10 exMissing true ≠
      Except.ok (some [⟨[], some (3 / 10)⟩, ⟨[some "A"], some (7 / 10)⟩]) ∧
    realization_set nqZero 10 exMissing true ≠
      Except.ok (some [⟨[some "A"], some (7 / 10)⟩, ⟨[], some (3 / 10)⟩]) := by
  refine ⟨by with_unfolding_all decide, by with_unfolding_all decide, by with_unfolding_all decide⟩

/-- C1, amended claim: for the uncertain trace consisting of the single
event with label "A", certain timestamp 0 and missing-probability 0.3,
`realization_set` with probability tracking enabled returns exactly two
realizations: the label sequence `["A"]` with probability 0.3 and the empty
label sequence with probability 0.7 (the code treats the stored
missing-probability field as the weight of the *present* alternative, per
`process_event` lines 106-109).  Stated for every integrator, since no
timestamp interval occurs. -/
theorem c1_amended (nq : Integrator) :
    realization_set nq 10 exMissing true =
      Except.ok (some [⟨[some "A"], some (3 / 10)⟩, ⟨[], some (7 / 10)⟩]) := by
  have hg : behavior_graph exMissing =
      Except.ok ⟨[(0, [(some "A", { timestamp := 0, uMissing := some (3 / 10) }),
        (none, { timestamp := 0, uMissing := some (7 / 10) })])], []⟩ := by
    with_unfolding_all decide
  have hv : acyclic_net_variants
      (⟨[(0, [(some "A", { timestamp := 0, uMissing := some (3 / 10) }),
        (none, { timestamp := 0, uMissing := some (7 / 10) })])], []⟩ : BGraph) 10 =
      some [[(some "A", { timestamp := 0, uMissing := some (3 / 10) })],
        [(none, { timestamp := 0, uMissing := some (7 / 10) })]] := by
    with_unfolding_all decide
  rw [realization_set, hg]
  simp only [Except.bind, bind, hv]
  simp [calculate_realizations_probabilities, calculate_PO, calculate_P_missing,
    calculate_PA, get_unique_realizations, upsert, pure, Except.pure]

/-! ## Claim C5: failure mode of the graph builder -/

/-- C5, counterexample.  Building the graph over an event with no timestamp
field raises `KeyError('time:timestamp')` -- a `KeyError`, not the claimed
`ValidationError` (no `ValidationError` is ever raised by the builder). -/
theorem c5_counterexample :
    behavior_graph exNoTimestamp = Except.error (PyErr.keyError "time:timestamp") := by
  with_unfolding_all decide

/-- An event makes `process_event` fail iff its timestamp key is missing,
or it has neither a label-uncertainty dict nor a plain label. -/
def badKeys (e : UEvent) : Prop :=
  e.timestamp = none ∨ (e.uActivity = none ∧ e.label = none)

/-- All the keys the builder dereferences are present. -/
def goodKeys (e : UEvent) : Prop :=
  e.timestamp ≠ none ∧ (e.uActivity = none → e.label ≠ none) ∧
    (e.uTimestampMin ≠ none → e.uTimestampMax ≠ none)

/-- On an event with bad keys, `process_event` raises a `KeyError`. -/
theorem process_event_badKeys {e : UEvent} (h : badKeys e) (i : ℕ) :
    ∃ k, process_event e i = Except.error (PyErr.keyError k) := by
  rcases h with h | ⟨ha, hl⟩
  · exact ⟨"time:timestamp", by simp [process_event, h, Except.bind, bind]⟩
  · cases hts : e.timestamp with
    | none => exact ⟨"time:timestamp", by simp [process_event, hts, Except.bind, bind]⟩
    | some t => exact ⟨"concept:name", by simp [process_event, hts, ha, hl, Except.bind, bind]⟩

/-- On an event with good keys, `process_event` succeeds, whatever the
uncertainty values are. -/
theorem process_event_goodKeys {e : UEvent} (h : goodKeys e) (i : ℕ) :
    ∃ node, process_event e i = Except.ok node := by
  rcases h with ⟨hts, hl, -⟩
  cases hpe : process_event e i with
  | ok node => exact ⟨node, rfl⟩
  | error err =>
      exfalso
      cases hts2 : e.timestamp with
      | none => exact absurd hts2 hts
      | some t =>
          cases ha : e.uActivity with
          | some children =>
              rw [process_event] at hpe
              simp [hts2, ha, Except.bind, bind, pure, Except.pure] at hpe
          | none =>
              cases hl2 : e.label with
              | none => exact absurd hl2 (hl ha)
              | some l =>
                  rw [process_event] at hpe
                  simp [hts2, ha, hl2, Except.bind, bind, pure, Except.pure] at hpe

/-- On an event with good keys, `add_node_tuples` succeeds. -/
theorem add_node_tuples_goodKeys {e : UEvent} (h : goodKeys e) (node : GNode) :
    ∃ pair, add_node_tuples e node = Except.ok pair := by
  rcases h with ⟨hts, -, hmm⟩
  cases hp : add_node_tuples e node with
  | ok pair => exact ⟨pair, rfl⟩
  | error err =>
      exfalso
      cases hmin : e.uTimestampMin with
      | none =>
          cases hts2 : e.timestamp with
          | none => exact absurd hts2 hts
          | some t =>
              rw [add_node_tuples] at hp
              simp [hmin, hts2, Except.bind, bind, pure, Except.pure] at hp
      | some tmin =>
          cases hmax : e.uTimestampMax with
          | none => exact absurd hmax (hmm (by simp [hmin]))
          | some tmax =>
              rw [add_node_tuples] at hp
              simp [hmin, hmax, Except.bind, bind, pure, Except.pure] at hp

/-- `collect_markers` either succeeds or raises a `KeyError`; and it
succeeds iff every event has good keys... (helper: success on good keys). -/
theorem collect_markers_ok {trace : List UEvent} (h : ∀ e ∈ trace, goodKeys e) (i : ℕ) :
    ∃ l, collect_markers trace i = Except.ok l := by
  induction trace generalizing i with
  | nil => exact ⟨[], rfl⟩
  | cons e rest ih =>
      obtain ⟨node, hnode⟩ := process_event_goodKeys (h e (by simp)) i
      obtain ⟨pair, hpair⟩ := add_node_tuples_goodKeys (h e (by simp)) node
      obtain ⟨tail, htail⟩ := ih (fun e he => h e (by simp [he])) (i + 1)
      exact ⟨pair ++ tail, by simp [collect_markers, hnode, hpair, htail, Except.bind, bind, pure, Except.pure]⟩

/-- On a trace with a bad-keyed event, `collect_markers` does not succeed. -/
theorem collect_markers_bad {trace : List UEvent} {e : UEvent} (he : e ∈ trace)
    (hbad : badKeys e) (i : ℕ) : ∀ l, collect_markers trace i ≠ Except.ok l := by
  induction trace generalizing i with
  | nil => cases he
  | cons e2 rest ih =>
      intro l hl
      rw [collect_markers] at hl
      rcases List.mem_cons.1 he with rfl | he2
      · obtain ⟨k, hk⟩ := process_event_badKeys hbad i
        simp [hk] at hl
      · cases hnode : process_event e2 i with
        | error err => simp [hnode] at hl
        | ok node =>
            simp only [hnode, except_bind_ok] at hl
            cases hpair : add_node_tuples e2 node with
            | error err => simp [hpair] at hl
            | ok pair =>
                simp only [hpair, except_bind_ok] at hl
                cases htail : collect_markers rest (i + 1) with
                | error err => simp [htail] at hl
                | ok tail => exact ih he2 (i + 1) tail htail

/-- Every error the marker-collection phase produces is a `KeyError`. -/
theorem collect_markers_error_shape (trace : List UEvent) (i : ℕ) :
    (∃ l, collect_markers trace i = Except.ok l) ∨
      ∃ k, collect_markers trace i = Except.error (PyErr.keyError k) := by
  induction trace generalizing i with
  | nil => exact .inl ⟨[], rfl⟩
  | cons e rest ih =>
      rw [collect_markers]
      cases hnode : process_event e i with
      | error err =>
          refine .inr ?_
          have herr : ∃ k, err = PyErr.keyError k := by
            rw [process_event] at hnode
            cases hts : e.timestamp with
            | none =>
                rw [hts] at hnode
                simp at hnode
                exact ⟨"time:timestamp", hnode.symm⟩
            | some t =>
                rw [hts] at hnode
                cases ha : e.uActivity with
                | some children => rw [ha] at hnode; simp at hnode
                | none =>
                    rw [ha] at hnode
                    cases hl : e.label with
                    | some l => rw [hl] at hnode; simp at hnode
                    | none =>
                        rw [hl] at hnode
                        simp at hnode
                        exact ⟨"concept:name", hnode.symm⟩
          obtain ⟨k, rfl⟩ := herr
          exact ⟨k, by simp⟩
      | ok node =>
          simp only [except_bind_ok]
          cases hpair : add_node_tuples e node with
          | error err =>
              refine .inr ?_
              have herr : ∃ k, err = PyErr.keyError k := by
                rw [add_node_tuples] at hpair
                cases hmin : e.uTimestampMin with
                | none =>
                    rw [hmin] at hpair
                    cases hts : e.timestamp with
                    | none =>
                        rw [hts] at hpair
                        simp at hpair
                        exact ⟨"time:timestamp", hpair.symm⟩
                    | some t => rw [hts] at hpair; simp at hpair
                | some tmin =>
                    rw [hmin] at hpair
                    cases hmax : e.uTimestampMax with
                    | none =>
                        rw [hmax] at hpair
                        simp at hpair
                        exact ⟨"uncertainty:timestamp_max", hpair.symm⟩
                    | some tmax => rw [hmax] at hpair; simp at hpair
              obtain ⟨k, rfl⟩ := herr
              exact ⟨k, by simp⟩
          | ok pair =>
              rcases ih (i + 1) with ⟨l, hl⟩ | ⟨k, hk⟩
              · exact .inl ⟨pair ++ l, by simp [hl]⟩
              · exact .inr ⟨k, by simp [hk]⟩

/-- C5, amended claim: for every trace containing an event that misses a
required timestamp or label field, building the precedence graph fails by
raising a `KeyError` (Python's `KeyError`, not a `ValidationError` -- the
builder defines no such exception); and the builder never fails on the
uncertainty *values* themselves: whenever all dereferenced keys are
present, construction succeeds whatever the probability values are. -/
theorem c5_amended :
    (∀ (trace : List UEvent) (e : UEvent), e ∈ trace → badKeys e →
      ∃ k, behavior_graph trace = Except.error (PyErr.keyError k)) ∧
    (∀ trace : List UEvent, (∀ e ∈ trace, goodKeys e) →
      ∃ g, behavior_graph trace = Except.ok g) := by
  constructor
  · intro trace e he hbad
    rcases collect_markers_error_shape trace 0 with ⟨l, hl⟩ | ⟨k, hk⟩
    · exact absurd hl (collect_markers_bad he hbad 0 l)
    · exact ⟨k, by simp [behavior_graph, create_nodes_tuples, sorted_triples, hk, Except.bind]⟩
  · intro trace h
    obtain ⟨l, hl⟩ := collect_markers_ok h 0
    cases hg : behavior_graph trace with
    | ok g => exact ⟨g, rfl⟩
    | error err =>
        rw [behavior_graph, create_nodes_tuples, sorted_triples] at hg
        simp [hl] at hg

/-- C5, witness: instantiating the amended claim at the one-event trace with
no timestamp (bad keys) and at the one-event trace with bad uncertainty
values but good keys. -/
theorem c5_witness :
    (∃ k, behavior_graph exNoTimestamp = Except.error (PyErr.keyError k)) ∧
    (∃ g, behavior_graph exBadValues = Except.ok g) :=
  ⟨c5_amended.1 exNoTimestamp { label := some "A" } (by simp [exNoTimestamp])
      (Or.inl rfl),
    c5_amended.2 exBadValues (by
      intro e he
      simp only [exBadValues, List.mem_singleton] at he
      subst he
      exact ⟨by simp, by simp, by simp⟩)⟩

/-! ## Claim C6: integration options and error estimate -/

/-- An integrator returning a nonzero error estimate, otherwise agreeing
with `nqZero` on the value component. -/
def nqErr : Integrator := fun _ _ _ => (0, 1 / 100)

/-- A one-event realization carrying a timestamp interval, so that
`calculate_PO` takes the integration branch. -/
def exIntervalSigma : List VEvent :=
  [(some "A", { timestamp := 0, uTimestampMin := some 0, uTimestampMax := some 1 })]

/-- C6, counterexample.  Two integrators that agree on the integral value
but return different error estimates produce the *same* output of
`calculate_PO`: the error estimate is discarded there (line 266 binds it and
line 267 drops it), so it never reaches the caller alongside the
probability.  Also, the options handed to the integration routine are the
fixed record `{limit := 5, epsabs := 1e-3, epsrel := 1e-3}`; no caller can
configure them. -/
theorem c6_counterexample :
    calculate_PO nqZero exIntervalSigma = calculate_PO nqErr exIntervalSigma ∧
    nqZero (get_integrand []) [] probabilityOptions ≠
      nqErr (get_integrand []) [] probabilityOptions ∧
    probabilityOptions = ⟨5, 1 / 1000, 1 / 1000⟩ := by
  refine ⟨rfl, by with_unfolding_all decide, rfl⟩

/-- C6, amended claim: the timestamp-consistency computation does *not*
accept configurable tolerances -- `probability` always hands the integrator
the fixed options `{limit := 5, epsabs := 1e-3, epsrel := 1e-3}` -- and the
integration routine's error estimate, though returned by `probability` and
`calculate_integral`, is discarded by `calculate_PO`: any two integrators
agreeing on the value component yield identical surfaced probabilities. -/
theorem c6_amended :
    (∀ (nq : Integrator) (pdfs : List Pdf) (tmins tmaxs : List ℚ),
      probability nq pdfs tmins tmaxs =
        nq (get_integrand pdfs) (bounds_proper tmins tmaxs) ⟨5, 1 / 1000, 1 / 1000⟩) ∧
    (∀ (nq1 nq2 : Integrator) (sigma : List VEvent),
      (∀ f b o, (nq1 f b o).1 = (nq2 f b o).1) →
      calculate_PO nq1 sigma = calculate_PO nq2 sigma) := by
  constructor
  · intro nq pdfs tmins tmaxs
    rfl
  · intro nq1 nq2 sigma hval
    unfold calculate_PO calculate_integral probability
    rw [hval]

/-- C6, witness: the amended claim applied to the concrete integrators
`nqZero`, `nqErr` (which agree on values) and the interval realization. -/
theorem c6_witness :
    calculate_PO nqZero exIntervalSigma = calculate_PO nqErr exIntervalSigma :=
  c6_amended.2 nqZero nqErr exIntervalSigma (fun _ _ _ => rfl)

/-! ## Claim C10: the aggregator strips `None`-labelled placeholder events -/

/-- Keys present in an `upsert` result are the inserted key or keys already
present. -/
theorem upsert_mem {k : List Lbl} {v : ℚ} {acc : List (List Lbl × ℚ)} :
    ∀ kv ∈ upsert k v acc, kv.1 = k ∨ kv.1 ∈ acc.map Prod.fst := by
  induction acc with
  | nil => simp [upsert]
  | cons hd tl ih =>
      intro kv hkv
      rw [upsert] at hkv
      by_cases hk : hd.1 = k
      · rw [if_pos hk] at hkv
        rcases List.mem_cons.1 hkv with rfl | h2
        · exact .inl hk
        · exact .inr (List.mem_cons_of_mem _ (List.mem_map_of_mem _ h2))
      · rw [if_neg hk] at hkv
        rcases List.mem_cons.1 hkv with rfl | h2
        · exact .inr (List.mem_cons_self _ _)
        · rcases ih kv h2 with h | h
          · exact .inl h
          · exact .inr (List.mem_cons_of_mem _ h)

/-- Every key produced by the aggregator's grouping fold consists of
non-`None` labels only. -/
theorem grouping_keys_not_none (rs : List (List VEvent × Option ℚ)) (addProb : Bool) :
    ∀ acc, (∀ kv ∈ acc, ∀ l ∈ kv.1, l ≠ (none : Lbl)) →
      ∀ kv ∈ rs.foldl (fun acc r =>
          upsert ((r.1.map Prod.fst).filter (fun l => l ≠ none))
            (if addProb then (r.2.getD 1) else 0) acc) acc,
        ∀ l ∈ kv.1, l ≠ (none : Lbl) := by
  induction rs with
  | nil => intro acc hacc; simpa using hacc
  | cons r rest ih =>
      intro acc hacc kv hkv
      refine ih _ ?_ kv (by simpa using hkv)
      intro kv2 hkv2 l hl
      rcases upsert_mem kv2 hkv2 with h | h
      · rw [h] at hl
        have := List.mem_filter.1 hl
        simpa using this.2
      · obtain ⟨kv3, hkv3, hfst⟩ := List.mem_map.1 h
        exact hacc kv3 hkv3 l (hfst ▸ hl)

/-- C10: every trace in the `RealizationSet` returned by the aggregator
contains only events whose activity label is not `None`: the `None`-labelled
placeholder events the enumerator emits for the "absent" alternative of an
indeterminate event are filtered out of the observable label sequence
during aggregation (realization_set_aggregator.py line 28). -/
theorem c10_no_none_labels (rs : List (List VEvent × Option ℚ)) (addProb : Bool) :
    ∀ t ∈ get_unique_realizations rs addProb, ∀ l ∈ t.seq, l ≠ (none : Lbl) := by
  intro t ht l hl
  rw [get_unique_realizations] at ht
  obtain ⟨kv, hkv, hteq⟩ := List.mem_map.1 ht
  have hseq : t.seq = kv.1 := by rw [← hteq]
  exact grouping_keys_not_none rs addProb [] (by simp) kv hkv l (hseq ▸ hl)

/-- C10, witness: applying the theorem to the enumerator output of the
missing-event scenario, whose second realization consists of one
`None`-labelled placeholder event; the aggregated first trace's label is
non-`None`. -/
theorem c10_witness : (some "A" : Lbl) ≠ (none : Lbl) := by
  have happ := c10_no_none_labels
    [([((some "A" : Lbl), emptyUInfo)], some (3 / 10)),
     ([((none : Lbl), emptyUInfo)], some (7 / 10))] true
  exact happ ⟨[some "A"], some (3 / 10)⟩ (by with_unfolding_all decide) (some "A")
    (by with_unfolding_all decide)

/-! ## Claim C8: the nested integration bounds -/

/-- A left fold of `min` stays below its starting value and below every list
element, and returns one of them. -/
theorem foldl_min_spec (t : List ℚ) :
    ∀ b : ℚ, (t.foldl min b = b ∨ t.foldl min b ∈ t) ∧
      t.foldl min b ≤ b ∧ ∀ x ∈ t, t.foldl min b ≤ x := by
  induction t with
  | nil => intro b; exact ⟨.inl rfl, le_refl b, by simp⟩
  | cons a t ih =>
      intro b
      obtain ⟨hmem, hle, hall⟩ := ih (min b a)
      refine ⟨?_, ?_, ?_⟩
      · rcases hmem with h | h
        · rcases min_choice b a with hc | hc
          · exact .inl (by rw [List.foldl_cons, h, hc])
          · exact .inr (by rw [List.foldl_cons, h, hc]; exact List.mem_cons_self a t)
        · exact .inr (List.mem_cons_of_mem a h)
      · exact le_trans hle (min_le_left b a)
      · intro x hx
        rcases List.mem_cons.1 hx with rfl | hx
        · exact le_trans hle (min_le_right b x)
        · exact hall x hx

/-- The upper bound computed by `bound_func i` is the minimum of
`tmaxs[i:]`: it is one of those entries and below each of them. -/
theorem bound_func_upper (i : ℕ) (tmins tmaxs : List ℚ) (hi : i < tmaxs.length)
    (xs : List ℚ) :
    ((bound_func i tmins tmaxs xs).2 ∈ tmaxs.drop i ∧
      ∀ x ∈ tmaxs.drop i, (bound_func i tmins tmaxs xs).2 ≤ x) := by
  have hne : tmaxs.drop i ≠ [] := by
    simpa [List.drop_eq_nil_iff] using Nat.not_le.2 hi
  obtain ⟨a, t, hat⟩ := List.exists_cons_of_ne_nil hne
  have hhead : (tmaxs.drop i).head?.elim 0 id = a := by rw [hat]; rfl
  have hval : (bound_func i tmins tmaxs xs).2 = (tmaxs.drop i).foldl min a := by
    rw [bound_func, hhead]
  obtain ⟨hmem, hle, hall⟩ := foldl_min_spec t (min a a)
  rw [hval, hat, List.foldl_cons]
  constructor
  · rcases hmem with h | h
    · rw [h, min_self]; exact List.mem_cons_self a t
    · exact List.mem_cons_of_mem a h
  · intro x hx
    rcases List.mem_cons.1 hx with rfl | hx
    · exact le_trans hle (by rw [min_self])
    · exact hall x hx

/-- The fold building `bounds_proper` is reversal of a map. -/
theorem foldl_cons_reverse_map (f : ℕ → BoundFn) (l : List ℕ) :
    ∀ acc, l.foldl (fun bounds i => f i :: bounds) acc = (l.map f).reverse ++ acc := by
  induction l with
  | nil => intro acc; simp
  | cons a l ih => intro acc; simp [ih]

/-- C8: in the nested integral over the events of a realization, taken in
realization order (wiring checked against scipy's `nquad` convention: the
element at position `k` of the bounds list governs the `k`-th innermost
integration variable and receives the enclosing variables outermost-last, so
the `i`-th event of `n` is governed by position `n-1-i`, and the first
enclosing variable is the value assigned to event `i-1`): the bound list
pairs position `n-1-i` with `bound_func i`; the lower bound of event `i ≥ 1`
is the maximum of its own interval lower bound `tmins[i]` and the value
`x0` assigned to event `i-1` (for the outermost event it is `tmins[i]`
alone); and the upper bound is the minimum of the interval upper bounds
`tmaxs[i:]` of events `i` through `n-1`.  The interval ends are those built
by `process_event_seq`, i.e. already shifted by the realization's minimum
timestamp. -/
theorem c8_bounds (tmins tmaxs : List ℚ) (i : ℕ) (hlen : tmaxs.length = tmins.length)
    (hi : i < tmins.length) :
    (bounds_proper tmins tmaxs)[tmins.length - 1 - i]? = some (bound_func i tmins tmaxs) ∧
    (∀ (x0 : ℚ) (xs : List ℚ),
      (bound_func i tmins tmaxs (x0 :: xs)).1 = max (tmins.getD i 0) x0) ∧
    (bound_func i tmins tmaxs []).1 = tmins.getD i 0 ∧
    (∀ xs : List ℚ,
      (∃ j, i ≤ j ∧ j < tmaxs.length ∧ (bound_func i tmins tmaxs xs).2 = tmaxs.getD j 0) ∧
      ∀ j, i ≤ j → j < tmaxs.length → (bound_func i tmins tmaxs xs).2 ≤ tmaxs.getD j 0) := by
  have hi2 : i < tmaxs.length := hlen ▸ hi
  refine ⟨?_, ?_, ?_, ?_⟩
  · rw [bounds_proper, foldl_cons_reverse_map, List.append_nil]
    rw [List.getElem?_reverse (by simp; omega)]
    simp only [List.length_map, List.length_range]
    rw [show tmins.length - 1 - (tmins.length - 1 - i) = i by omega]
    rw [List.getElem?_map, List.getElem?_range hi]
    rfl
  · intro x0 xs; simp [bound_func]
  · simp [bound_func]
  · intro xs
    obtain ⟨hmem, hall⟩ := bound_func_upper i tmins tmaxs hi2 xs
    constructor
    · obtain ⟨k, hk, hkeq⟩ := List.mem_iff_getElem.1 hmem
      have hiklen : i + k < tmaxs.length := by
        simp only [List.length_drop] at hk; omega
      refine ⟨i + k, Nat.le_add_right i k, hiklen, ?_⟩
      rw [List.getD_eq_getElem?_getD, List.getElem?_eq_getElem hiklen]
      rw [List.getElem_drop] at hkeq
      simp [← hkeq]
    · intro j hij hj
      have hk : j - i < (tmaxs.drop i).length := by
        simp only [List.length_drop]; omega
      have h1 : (tmaxs.drop i)[j - i]? = tmaxs[j]? := by
        rw [List.getElem?_drop]
        rw [show i + (j - i) = j by omega]
      have h2 : tmaxs.getD j 0 = (tmaxs.drop i)[j - i] := by
        rw [List.getD_eq_getElem?_getD, ← h1, List.getElem?_eq_getElem hk]
        rfl
      rw [h2]
      exact hall _ (List.getElem_mem hk)

/-- C8, witness: the theorem applied to the two-event interval data
`tmins = [0, 1]`, `tmaxs = [2, 3]` at `i = 1`: position `0` (innermost) is
`bound_func 1`, the lower bound given the outer value `5` is
`max 1 5 = 5`, and the upper bound is below `tmaxs[1] = 3`. -/
theorem c8_witness :
    (bounds_proper [0, 1] [2, 3])[0]? = some (bound_func 1 [0, 1] [2, 3]) ∧
    (bound_func 1 [0, 1] [2, 3] [(5 : ℚ)]).1 = max 1 5 := by
  have h := c8_bounds [0, 1] [2, 3] 1 (by decide) (by decide)
  refine ⟨?_, ?_⟩
  · have h1 := h.1
    norm_num at h1 ⊢
    exact h1
  · have h2 := h.2.1 5 []
    simpa using h2

/-! ## Claim C3: the edge sweep versus the transitive reduction -/

/-- Modelled from the spec (§3, §4.1): the necessarily-before relation
"u's occurrence interval ends strictly before v's begins", over event
indices of the trace. -/
def spec_strict_before (trace : List UEvent) (u v : ℕ) : Bool :=
  decide (closeTime (trace.getD u {}) < openTime (trace.getD v {}))

/-- Modelled from the spec (§3): the transitive reduction of the
necessarily-before relation: all pairs `u → v` of the relation such that no
intermediate `z` satisfies `u → z → v`; these are exactly the direct edges
the spec's invariant requires the behavior graph to carry. -/
def spec_transitive_reduction (trace : List UEvent) : List (ℕ × ℕ) :=
  (List.range trace.length).flatMap (fun u =>
    ((List.range trace.length).filter (fun v =>
      spec_strict_before trace u v &&
        (List.range trace.length).all (fun z =>
          !(spec_strict_before trace u z && spec_strict_before trace z v)))).map
      (fun v => (u, v)))

/-- Four interval events: `[0,2]`, `[1,4]`, `[3,6]`, `[5,8]`. -/
def exSweep : List UEvent :=
  [{ timestamp := some 0, label := some "a", uTimestampMin := some 0, uTimestampMax := some 2 },
   { timestamp := some 1, label := some "b", uTimestampMin := some 1, uTimestampMax := some 4 },
   { timestamp := some 3, label := some "c", uTimestampMin := some 3, uTimestampMax := some 6 },
   { timestamp := some 5, label := some "d", uTimestampMin := some 5, uTimestampMax := some 8 }]

/-- C3, evaluation at the failing input.  On the four events with intervals
`[0,2]`, `[1,4]`, `[3,6]`, `[5,8]`, the transitive reduction of
necessarily-before is `{0→2, 0→3, 1→3}` (`0→3` is not implied: the only
candidates `z = 1, 2` satisfy neither `0→1` nor `2→3`), but the sweep emits
only `{0→2, 1→3}`: after emitting `0→2` the scan from event 0's close
marker reaches event 1's close marker and `break`s -- the condition
`edge in edges_list` at line 177 holds for the just-appended edge `0→2` --
so the required direct edge `0→3` is never emitted.  The spec's own stop
rule ("stop once an edge to an already-recorded successor is reproduced")
would continue past event 1's close, since no edge `0→1` was ever
recorded. -/
theorem c3_sweep_drops_edge :
    (behavior_graph exSweep).map BGraph.edges = Except.ok [(0, 2), (1, 3)] ∧
    spec_transitive_reduction exSweep = [(0, 2), (0, 3), (1, 3)] ∧
    ((0, 3) ∈ spec_transitive_reduction exSweep ∧
      (0, 3) ∉ [(0, 2), (1, 3)]) := by
  refine ⟨by with_unfolding_all decide, by with_unfolding_all decide,
    by with_unfolding_all decide, by decide⟩

/-- C2: every maximal firing sequence of a behavior net built from a
well-formed uncertain trace ends exactly at the final marking.  `Fires`
is the step relation firing enabled net transitions; if a marking `m`
reached from the initial marking (one token on the source place) enables no
transition of the net, then `m` is count-equal to the final marking (one
token on the sink place, nothing elsewhere) -- no deadlock with stray
tokens is reachable. -/
theorem c2_soundness {tr : List UEvent} {g : BGraph}
    (hg : behavior_graph tr = Except.ok g) (hwf : ∀ e ∈ tr, WFEvent e)
    {m : Marking} (hf : Fires g initialMarking m)
    (hmax : ∀ t ∈ transList g, mLeB (preT g t) m ≠ true) :
    MEquiv m finalMarking := by
  have hE := edges_nodup hg
  have hN := nodes_fst_nodup hg
  by_cases hnodes : g.nodes = []
  · exfalso
    have hsl : g.succless = [] := by
      simp [BGraph.succless, hnodes]
    exact hmax Trans.tsink (tsink_mem_transList g) (tsink_enabled_no_succless hsl m)
  · have hshape := fires_shape hg hwf hnodes (.inl (fun p => rfl)) hf
    rcases hshape with hm | ⟨S, hNS, hHC, hm⟩ | hm
    · exact absurd (fire_tsource_init hN hE hm).1
        (hmax Trans.tsource (tsource_mem_transList g))
    · by_cases hfull : ∀ w ∈ g.nodes.map Prod.fst, w ∈ S
      · have hsucc : ∀ w ∈ g.succless, w ∈ S := fun w hw => hfull w (mem_succless.1 hw).1
        exact absurd ((tsink_enabled_iff hN hm).2 hsucc)
          (hmax Trans.tsink (tsink_mem_transList g))
      · push_neg at hfull
        obtain ⟨v0, hv0, hv0S⟩ := hfull
        obtain ⟨v, hv, hvS, hpreds⟩ := exists_enabled_act hg hwf hv0 hv0S
        obtain ⟨l, hl⟩ := act_mem_transList hv (node_options_ne_nil hg hwf)
        exact absurd ((act_enabled_iff hE hN hm hv l).2 ⟨hvS, hpreds⟩) (hmax _ hl)
    · exact hm

/-- A single certain event with label "A" at time 0. -/
def c2trace : List UEvent := [{ timestamp := some 0, label := some "A" }]

/-- The behavior graph of `c2trace`: one node, no edges. -/
def c2g : BGraph := ⟨[(0, [(some "A", { timestamp := 0 })])], []⟩

theorem c2_witness :
    MEquiv (fire c2g Trans.tsink (fire c2g (Trans.act 0 (some "A"))
      (fire c2g Trans.tsource initialMarking))) finalMarking := by
  refine @c2_soundness c2trace c2g (by with_unfolding_all decide) ?_ _ ?_ ?_
  · intro e he
    rw [c2trace, List.mem_singleton] at he
    subst he
    refine ⟨by with_unfolding_all decide, ?_⟩
    intro ch hch
    exact Option.noConfusion hch
  · refine Fires.step Trans.tsource (tsource_mem_transList _)
      (by with_unfolding_all decide) ?_
    refine Fires.step (Trans.act 0 (some "A")) (by with_unfolding_all decide)
      (by with_unfolding_all decide) ?_
    exact Fires.step Trans.tsink (tsink_mem_transList _)
      (by with_unfolding_all decide) (Fires.refl _)
  · intro t ht
    revert ht
    revert t
    with_unfolding_all decide

/-! ## Claim C7: fully certain traces -/

/-- The certain timestamp of an event (defaulted; used only where the
timestamp is known present). -/
def tstamp (e : UEvent) : ℚ := e.timestamp.getD 0

/-- A fully certain event: present label and timestamp, and none of the
uncertainty fields. -/
def CertEvent (e : UEvent) : Prop :=
  (∃ l, e.label = some l) ∧ (∃ t, e.timestamp = some t) ∧
    e.uActivity = none ∧ e.uMissing = none ∧
    e.uTimestampMin = none ∧ e.uTimestampMax = none

/-- The uncertainty dictionary `process_event` builds for a certain event. -/
def certInfo (e : UEvent) : UInfo := ⟨tstamp e, none, none, none, none⟩

/-- The node `process_event` builds for a certain event. -/
def certNode (e : UEvent) (i : ℕ) : GNode := (i, [(e.label, certInfo e)])

/-- The marker list `collect_markers` produces on a certain trace. -/
def certMarkers : List UEvent → ℕ → List (ℚ × GNode × Bool)
  | [], _ => []
  | e :: rest, i =>
      (tstamp e, certNode e i, false) ::
        (tstamp e, certNode e i, true) :: certMarkers rest (i + 1)

/-- The node list of a certain trace's graph. -/
def chainNodes : List UEvent → ℕ → List GNode
  | [], _ => []
  | e :: rest, i => certNode e i :: chainNodes rest (i + 1)

/-- Markers with the time dropped: each node appears as an open/close pair. -/
def dupTuples : List GNode → List (GNode × Bool)
  | [] => []
  | nd :: rest => (nd, false) :: (nd, true) :: dupTuples rest

/-- Consecutive edges over a node list. -/
def chainEdges : List GNode → List (ℕ × ℕ)
  | [] => []
  | [_] => []
  | a :: b :: rest => (a.1, b.1) :: chainEdges (b :: rest)

/-- `process_event` on a certain event. -/
theorem process_event_cert {e : UEvent} (h : CertEvent e) (i : ℕ) :
    process_event e i = Except.ok (certNode e i) := by
  obtain ⟨⟨l, hl⟩, ⟨t, ht⟩, hA, hM, hm1, -⟩ := h
  rw [process_event, ht, hA, hl, hM, hm1]
  simp [certNode, certInfo, tstamp, ht, hl]

/-- `add_node_tuples` on a certain event. -/
theorem add_node_tuples_cert {e : UEvent} (h : CertEvent e) (nd : GNode) :
    add_node_tuples e nd = Except.ok [(tstamp e, nd, false), (tstamp e, nd, true)] := by
  obtain ⟨-, ⟨t, ht⟩, -, -, hm1, -⟩ := h
  rw [add_node_tuples, hm1, ht]
  simp [tstamp, ht]

/-- `collect_markers` on a certain trace. -/
theorem collect_markers_cert {tr : List UEvent} (h : ∀ e ∈ tr, CertEvent e) :
    ∀ i, collect_markers tr i = Except.ok (certMarkers tr i) := by
  induction tr with
  | nil => intro i; rfl
  | cons e rest ih =>
      intro i
      rw [collect_markers, process_event_cert (h e (List.mem_cons_self e rest)) i]
      simp only [except_bind_ok]
      rw [add_node_tuples_cert (h e (List.mem_cons_self e rest)) _]
      simp only [except_bind_ok]
      rw [ih (fun e2 he2 => h e2 (List.mem_cons_of_mem _ he2)) (i + 1)]
      simp [certMarkers]

/-- Inserting an element above the whole list appends it. -/
theorem sinsert_of_all_le (le : α → α → Bool) (a : α) :
    ∀ l : List α, (∀ b ∈ l, le b a = true) → sinsert le a l = l ++ [a] := by
  intro l
  induction l with
  | nil => intro h; rfl
  | cons b bs ih =>
      intro h
      rw [sinsert, if_pos (h b (List.mem_cons_self b bs)),
        ih (fun c hc => h c (List.mem_cons_of_mem _ hc))]
      rfl

/-- The stable sort of an already sorted list is itself. -/
theorem ssort_eq_self (le : α → α → Bool) :
    ∀ l : List α, l.Pairwise (fun x y => le x y = true) → ssort le l = l := by
  intro l
  induction l using List.reverseRecOn with
  | nil => intro h; rfl
  | append_singleton l1 a ih =>
      intro h
      have h1 := List.pairwise_append.1 h
      rw [ssort, List.foldl_append, List.foldl_cons, List.foldl_nil]
      have hss : List.foldl (fun acc x => sinsert le x acc) [] l1 = l1 := ih h1.1
      rw [hss]
      exact sinsert_of_all_le le a l1
        (fun b hb => h1.2.2 b hb a (List.mem_singleton_self a))

/-- Times occurring in the certain marker list are event times. -/
theorem certMarkers_time_mem {tr : List UEvent} :
    ∀ {i : ℕ} {y : ℚ × GNode × Bool}, y ∈ certMarkers tr i → y.1 ∈ tr.map tstamp := by
  induction tr with
  | nil => intro i y hy; cases hy
  | cons e rest ih =>
      intro i y hy
      rw [certMarkers] at hy
      rcases List.mem_cons.1 hy with rfl | hy2
      · simp [tstamp]
      rcases List.mem_cons.1 hy2 with rfl | hy3
      · simp [tstamp]
      · exact List.mem_cons_of_mem _ (ih hy3)

/-- The certain marker list is sorted for strictly increasing times. -/
theorem certMarkers_pairwise {tr : List UEvent}
    (hmono : (tr.map tstamp).Pairwise (· < ·)) :
    ∀ i, (certMarkers tr i).Pairwise (fun x y => keyLe x y = true) := by
  induction tr with
  | nil => intro i; exact List.Pairwise.nil
  | cons e rest ih =>
      intro i
      rw [List.map_cons, List.pairwise_cons] at hmono
      obtain ⟨h1, h2⟩ := hmono
      have hkey : ∀ y ∈ certMarkers rest (i + 1), keyLe (tstamp e, certNode e i, true) y = true ∧
          keyLe (tstamp e, certNode e i, false) y = true := by
        intro y hy
        have hlt := h1 y.1 (certMarkers_time_mem hy)
        constructor <;>
          · rw [keyLe, if_neg (ne_of_lt hlt)]
            simp [le_of_lt hlt]
      rw [certMarkers]
      refine List.Pairwise.cons ?_ (List.Pairwise.cons ?_ (ih h2 (i + 1)))
      · intro y hy
        rcases List.mem_cons.1 hy with rfl | hy2
        · simp [keyLe]
        · exact (hkey y hy2).2
      · intro y hy
        exact (hkey y hy).1

/-- `sorted_triples` on a certain strictly increasing trace: the collected
markers are already sorted. -/
theorem sorted_triples_cert {tr : List UEvent} (hcert : ∀ e ∈ tr, CertEvent e)
    (hmono : (tr.map tstamp).Pairwise (· < ·)) :
    sorted_triples tr = Except.ok (certMarkers tr 0) := by
  rw [sorted_triples, collect_markers_cert hcert 0]
  simp only [except_bind_ok, except_pure_eq]
  rw [ssort_eq_self keyLe _ (certMarkers_pairwise hmono 0)]

/-- Dropping the time from the certain markers gives the duplicated node
tuples. -/
theorem certMarkers_map (tr : List UEvent) :
    ∀ i, (certMarkers tr i).map (fun t => (t.2.1, t.2.2)) = dupTuples (chainNodes tr i) := by
  induction tr with
  | nil => intro i; rfl
  | cons e rest ih =>
      intro i
      rw [certMarkers, chainNodes, dupTuples, List.map_cons, List.map_cons, ih (i + 1)]

/-- Node indices in the chain node list are at least the start index. -/
theorem chainNodes_fst_ge {tr : List UEvent} :
    ∀ {i : ℕ} {nd : GNode}, nd ∈ chainNodes tr i → i ≤ nd.1 := by
  induction tr with
  | nil => intro i nd h; cases h
  | cons e rest ih =>
      intro i nd h
      rcases List.mem_cons.1 h with rfl | h2
      · exact le_refl _
      · exact le_trans (Nat.le_succ i) (ih h2)

/-- The chain node list has no duplicates. -/
theorem chainNodes_nodup (tr : List UEvent) : ∀ i, (chainNodes tr i).Nodup := by
  induction tr with
  | nil => intro i; exact List.nodup_nil
  | cons e rest ih =>
      intro i
      rw [chainNodes, List.nodup_cons]
      refine ⟨fun hmem => ?_, ih (i + 1)⟩
      have := chainNodes_fst_ge hmem
      simp [certNode] at this

/-- Deduplicating the duplicated node list recovers the node list. -/
theorem dedupFirstAux_dup :
    ∀ (ns : List GNode) (seen : List GNode), (∀ nd ∈ ns, nd ∉ seen) → ns.Nodup →
      dedupFirstAux seen ((dupTuples ns).map Prod.fst) = ns := by
  intro ns
  induction ns with
  | nil => intro seen h hnd; rfl
  | cons nd rest ih =>
      intro seen h hnd
      rw [dupTuples, List.map_cons, List.map_cons]
      rw [dedupFirstAux, if_neg (h nd (List.mem_cons_self nd rest))]
      rw [dedupFirstAux, if_pos (List.mem_append_right _ (List.mem_singleton_self nd))]
      rw [ih (seen ++ [nd]) ?_ (List.nodup_cons.1 hnd).2]
      intro m hm
      rw [List.mem_append, List.mem_singleton]
      rintro (hs | rfl)
      · exact h m (List.mem_cons_of_mem _ hm) hs
      · exact (List.nodup_cons.1 hnd).1 hm

/-- Deduplication of an already duplicate-free list is the identity. -/
theorem dedupFirstAux_eq_self [DecidableEq α] :
    ∀ (l : List α) (seen : List α), (∀ a ∈ l, a ∉ seen) → l.Nodup →
      dedupFirstAux seen l = l := by
  intro l
  induction l with
  | nil => intro seen h hnd; rfl
  | cons a rest ih =>
      intro seen h hnd
      rw [dedupFirstAux, if_neg (h a (List.mem_cons_self a rest))]
      rw [ih (seen ++ [a]) ?_ (List.nodup_cons.1 hnd).2]
      intro m hm
      rw [List.mem_append, List.mem_singleton]
      rintro (hs | rfl)
      · exact h m (List.mem_cons_of_mem _ hm) hs
      · exact (List.nodup_cons.1 hnd).1 hm

/-- `dedupFirst` of a duplicate-free list. -/
theorem dedupFirst_eq_self [DecidableEq α] {l : List α} (h : l.Nodup) :
    dedupFirst l = l :=
  dedupFirstAux_eq_self l [] (fun a _ ha => (List.not_mem_nil a) ha) h

/-- The scan from a close marker over duplicated tuples: empty tail. -/
theorem edge_scan_dup_nil (n0 : GNode) (E : List (ℕ × ℕ)) :
    edge_scan n0 (dupTuples []) E none = E := rfl

/-- The scan from a close marker over duplicated tuples: it emits one edge
to the next node and stops at that node's close marker. -/
theorem edge_scan_dup_cons (n0 n1 : GNode) (rest : List GNode) (E : List (ℕ × ℕ)) :
    edge_scan n0 (dupTuples (n1 :: rest)) E none = E ++ [(n0.1, n1.1)] := by
  simp [dupTuples, edge_scan]

/-- The whole sweep over duplicated tuples emits the consecutive edges. -/
theorem edges_pass_dup :
    ∀ (ns : List GNode) (E : List (ℕ × ℕ)),
      edges_pass (dupTuples ns) E = E ++ chainEdges ns := by
  intro ns
  induction ns with
  | nil => intro E; simp [dupTuples, edges_pass, chainEdges]
  | cons n0 rest ih =>
      intro E
      cases rest with
      | nil => simp [dupTuples, edges_pass, edge_scan, chainEdges]
      | cons n1 rest2 =>
          rw [dupTuples, edges_pass, if_neg (by simp), edges_pass, if_pos rfl]
          rw [show (n0, true).1 = n0 from rfl]
          rw [edge_scan_dup_cons n0 n1 rest2 E]
          rw [ih (E ++ [(n0.1, n1.1)])]
          rw [chainEdges]
          simp

/-- Second components of the chain edges over a node suffix exceed the first
node's index. -/
theorem chainEdges_snd_ge {tr : List UEvent} :
    ∀ {i : ℕ} {u v : ℕ}, (u, v) ∈ chainEdges (chainNodes tr i) → i < v := by
  induction tr with
  | nil => intro i u v h; cases h
  | cons e rest ih =>
      intro i u v h
      cases rest with
      | nil => cases h
      | cons e2 rest2 =>
          rw [chainNodes, chainNodes, chainEdges] at h
          rcases List.mem_cons.1 h with heq | h2
          · rw [Prod.mk.injEq] at heq
            have : v = (certNode e2 (i + 1)).1 := heq.2
            simp [certNode] at this
            omega
          · rw [← chainNodes] at h2
            have := ih h2
            omega

/-- The chain edges of the chain node list are duplicate-free. -/
theorem chainEdges_nodup (tr : List UEvent) : ∀ i, (chainEdges (chainNodes tr i)).Nodup := by
  induction tr with
  | nil => intro i; exact List.nodup_nil
  | cons e rest ih =>
      intro i
      cases rest with
      | nil => exact List.nodup_nil
      | cons e2 rest2 =>
          rw [chainNodes, chainNodes, chainEdges, List.nodup_cons, ← chainNodes]
          refine ⟨fun hmem => ?_, ih (i + 1)⟩
          have := chainEdges_snd_ge hmem
          simp [certNode] at this

/-- The behavior graph of a fully certain, strictly increasing trace: one
node per event in order, and the chain of consecutive edges. -/
theorem behavior_graph_cert {tr : List UEvent} (hcert : ∀ e ∈ tr, CertEvent e)
    (hmono : (tr.map tstamp).Pairwise (· < ·)) :
    behavior_graph tr = Except.ok ⟨chainNodes tr 0, chainEdges (chainNodes tr 0)⟩ := by
  rw [behavior_graph, create_nodes_tuples, sorted_triples_cert hcert hmono]
  simp only [except_bind_ok, except_pure_eq]
  rw [certMarkers_map tr 0]
  rw [show dedupFirst ((dupTuples (chainNodes tr 0)).map Prod.fst) = chainNodes tr 0 from
    dedupFirstAux_dup (chainNodes tr 0) [] (fun nd _ h => (List.not_mem_nil nd) h)
      (chainNodes_nodup tr 0)]
  rw [add_edges_from_nodes, edges_pass_dup (chainNodes tr 0) [], List.nil_append,
    dedupFirst_eq_self (chainEdges_nodup tr 0)]

/-- The chain graph of a certain trace. -/
def chainG (tr : List UEvent) : BGraph :=
  ⟨chainNodes tr 0, chainEdges (chainNodes tr 0)⟩

@[simp] theorem chainG_nodes (tr : List UEvent) :
    (chainG tr).nodes = chainNodes tr 0 := rfl

@[simp] theorem chainG_edges (tr : List UEvent) :
    (chainG tr).edges = chainEdges (chainNodes tr 0) := rfl

@[simp] theorem certNode_fst (e : UEvent) (i : ℕ) : (certNode e i).1 = i := rfl

/-- Containment of a singleton marking in a singleton marking is equality of
the places. -/
theorem mLeB_single (x p : Place) : mLeB [x] [p] = decide (x = p) := by
  rw [mLeB]
  simp only [List.all_cons, List.all_nil, Bool.and_true]
  by_cases h : x = p
  · subst h
    simp
  · simp [List.count_singleton, h]

/-- Count equality of singleton markings is equality of the places. -/
theorem mEqB_single (p q : Place) : mEqB [p] [q] = decide (p = q) := by
  by_cases h : p = q
  · subst h
    simp [mEqB]
  · rw [mEqB]
    simp only [List.all_cons, List.all_nil, Bool.and_true]
    simp [List.count_singleton, h, Ne.symm h]

/-- Filtering the chain edges by target index. -/
theorem chain_filter_snd (tr : List UEvent) :
    ∀ (i v : ℕ), (chainEdges (chainNodes tr i)).filter (fun e => e.2 = v) =
      if i < v ∧ v < i + tr.length then [(v - 1, v)] else [] := by
  induction tr with
  | nil =>
      intro i v
      rw [chainNodes, chainEdges, List.filter_nil,
        if_neg (by simp only [List.length_nil]; omega)]
  | cons e rest ih =>
      intro i v
      cases rest with
      | nil =>
          rw [chainNodes, chainNodes, chainEdges, List.filter_nil,
            if_neg (by simp; omega)]
      | cons e2 rest2 =>
          rw [chainNodes, chainNodes, chainEdges, ← chainNodes, certNode_fst, certNode_fst]
          rw [List.filter_cons, ih (i + 1) v]
          by_cases hv : i + 1 = v
          · rw [if_pos (by simp [hv]), if_neg (by omega),
              if_pos (by simp only [List.length_cons]; omega)]
            subst hv
            simp
          · rw [if_neg (by simp [hv])]
            by_cases h2 : i + 1 < v ∧ v < i + 1 + (e2 :: rest2).length
            · rw [if_pos h2, if_pos (by simp only [List.length_cons] at h2 ⊢; omega)]
            · rw [if_neg h2, if_neg (by simp only [List.length_cons] at h2 ⊢; omega)]

/-- Filtering the chain edges by source index. -/
theorem chain_filter_fst (tr : List UEvent) :
    ∀ (i v : ℕ), (chainEdges (chainNodes tr i)).filter (fun e => e.1 = v) =
      if i ≤ v ∧ v + 1 < i + tr.length then [(v, v + 1)] else [] := by
  induction tr with
  | nil =>
      intro i v
      rw [chainNodes, chainEdges, List.filter_nil,
        if_neg (by simp only [List.length_nil]; omega)]
  | cons e rest ih =>
      intro i v
      cases rest with
      | nil =>
          rw [chainNodes, chainNodes, chainEdges, List.filter_nil,
            if_neg (by simp)]
      | cons e2 rest2 =>
          rw [chainNodes, chainNodes, chainEdges, ← chainNodes, certNode_fst, certNode_fst]
          rw [List.filter_cons, ih (i + 1) v]
          by_cases hv : i = v
          · rw [if_pos (by simp [hv]), if_neg (by omega),
              if_pos (by simp only [List.length_cons]; omega)]
            subst hv
            simp
          · rw [if_neg (by simp [hv])]
            by_cases h2 : i + 1 ≤ v ∧ v + 1 < i + 1 + (e2 :: rest2).length
            · rw [if_pos h2, if_pos (by simp only [List.length_cons] at h2 ⊢; omega)]
            · rw [if_neg h2, if_neg (by simp only [List.length_cons] at h2 ⊢; omega)]

/-- Predecessors in the chain graph. -/
theorem chainG_preds (tr : List UEvent) (v : ℕ) :
    (chainG tr).preds v = if 0 < v ∧ v < tr.length then [v - 1] else [] := by
  rw [BGraph.preds, chainG_edges, chain_filter_snd tr 0 v]
  by_cases h : 0 < v ∧ v < 0 + tr.length
  · rw [if_pos h, if_pos (by omega)]
    rfl
  · rw [if_neg h, if_neg (by omega)]
    rfl

/-- Successors in the chain graph. -/
theorem chainG_succs (tr : List UEvent) (v : ℕ) :
    (chainG tr).succs v = if v + 1 < tr.length then [v + 1] else [] := by
  rw [BGraph.succs, chainG_edges, chain_filter_fst tr 0 v]
  by_cases h : 0 ≤ v ∧ v + 1 < 0 + tr.length
  · rw [if_pos h, if_pos (by omega)]
    rfl
  · rw [if_neg h, if_neg (by omega)]
    rfl

/-- The index interval `[i, i+k)` as a list. -/
def idxList : ℕ → ℕ → List ℕ
  | _, 0 => []
  | i, k + 1 => i :: idxList (i + 1) k

/-- Membership in the index interval. -/
theorem idxList_mem : ∀ {k i v : ℕ}, v ∈ idxList i k ↔ i ≤ v ∧ v < i + k := by
  intro k
  induction k with
  | zero => intro i v; rw [idxList]; simp
  | succ k ih =>
      intro i v
      rw [idxList, List.mem_cons, ih]
      omega

/-- The node indices of the chain graph. -/
theorem chainNodes_map_fst (tr : List UEvent) :
    ∀ i, (chainNodes tr i).map Prod.fst = idxList i tr.length := by
  induction tr with
  | nil => intro i; rfl
  | cons e rest ih =>
      intro i
      rw [chainNodes, List.map_cons, ih (i + 1), certNode_fst, List.length_cons, idxList]

/-- Filtering an index interval by a predicate that holds only at the last
index. -/
theorem idxList_filter_last :
    ∀ (k i : ℕ) (q : ℕ → Bool),
      (∀ v, i ≤ v → v < i + k → (q v = true ↔ v = i + k - 1)) → 0 < k →
      (idxList i k).filter q = [i + k - 1] := by
  intro k
  induction k with
  | zero => intro i q h h0; omega
  | succ k ih =>
      intro i q h h0
      rw [idxList, List.filter_cons]
      cases k with
      | zero =>
          rw [if_pos ((h i (le_refl i) (by omega)).2 (by omega))]
          rw [idxList, List.filter_nil]
          simp
      | succ k2 =>
          have hfalse : q i = false := by
            by_contra hc
            have := (h i (le_refl i) (by omega)).1 (by
              cases hq : q i
              · exact absurd hq hc
              · rfl)
            omega
          rw [if_neg (by rw [hfalse]; simp)]
          rw [ih (i + 1) q (fun v hv1 hv2 => by
            rw [h v (by omega) (by omega)]
            omega) (by omega)]
          rw [show i + 1 + (k2 + 1) - 1 = i + (k2 + 1 + 1) - 1 by omega]

/-- The chain graph's only predecessor-less node is the first event. -/
theorem chainG_predless {tr : List UEvent} (hne : tr ≠ []) :
    (chainG tr).predless = [0] := by
  rw [BGraph.predless, chainG_nodes, chainNodes_map_fst tr 0]
  obtain ⟨e, rest, rfl⟩ := List.exists_cons_of_ne_nil hne
  rw [List.length_cons, idxList, List.filter_cons,
    if_pos (by rw [chainG_preds]; simp)]
  rw [List.filter_eq_nil_iff.2 ?_]
  intro v hv
  rw [idxList_mem] at hv
  rw [chainG_preds, if_pos (by simp only [List.length_cons]; omega)]
  simp

/-- The chain graph's only successor-less node is the last event. -/
theorem chainG_succless {tr : List UEvent} (hne : tr ≠ []) :
    (chainG tr).succless = [tr.length - 1] := by
  rw [BGraph.succless, chainG_nodes, chainNodes_map_fst tr 0]
  rw [idxList_filter_last tr.length 0 _ ?_ (by
    cases tr
    · exact absurd rfl hne
    · simp)]
  · simp
  · intro v hv1 hv2
    rw [chainG_succs]
    by_cases h : v + 1 < tr.length
    · rw [if_pos h]
      simp
      omega
    · rw [if_neg h]
      simp
      omega

/-- The node transitions of the chain net, in order. -/
def actList : List UEvent → ℕ → List Trans
  | [], _ => []
  | e :: rest, i => Trans.act i e.label :: actList rest (i + 1)

/-- The flat-mapped transition list of the chain graph. -/
theorem chainNodes_flatMap (tr : List UEvent) :
    ∀ i, (chainNodes tr i).flatMap
        (fun nd => nd.2.map (fun lp => Trans.act nd.1 lp.1)) = actList tr i := by
  induction tr with
  | nil => intro i; rfl
  | cons e rest ih =>
      intro i
      rw [chainNodes, List.flatMap_cons, ih (i + 1), actList]
      simp [certNode]

/-- The transition list of the chain net. -/
theorem chainG_transList (tr : List UEvent) :
    transList (chainG tr) = Trans.tsource :: Trans.tsink :: actList tr 0 := by
  rw [transList, chainG_nodes, chainNodes_flatMap tr 0]

/-- Elements of `actList` are node transitions of trace positions. -/
theorem actList_mem {tr : List UEvent} :
    ∀ {i : ℕ} {t : Trans}, t ∈ actList tr i →
      ∃ k, ∃ hk : k < tr.length, t = Trans.act (i + k) (tr[k].label) := by
  induction tr with
  | nil => intro i t h; cases h
  | cons e rest ih =>
      intro i t h
      rcases List.mem_cons.1 h with rfl | h2
      · exact ⟨0, by simp, by simp⟩
      · obtain ⟨k, hk, heq⟩ := ih h2
        exact ⟨k + 1, by simpa using hk, by
          rw [heq]
          simp only [List.getElem_cons_succ]
          rw [show i + 1 + k = i + (k + 1) by omega]⟩

/-- Looking up a node by index in the chain node list. -/
theorem chainNodes_find? (tr : List UEvent) :
    ∀ i k, (hk : k < tr.length) →
      (chainNodes tr i).find? (fun nd => nd.1 = i + k) = some (certNode tr[k] (i + k)) := by
  induction tr with
  | nil => intro i k hk; simp at hk
  | cons e rest ih =>
      intro i k hk
      cases k with
      | zero =>
          rw [chainNodes, List.find?_cons_of_pos _ (by simp)]
          simp
      | succ k2 =>
          rw [chainNodes, List.find?_cons_of_neg _ (by simp)]
          rw [show i + (k2 + 1) = i + 1 + k2 by omega]
          rw [ih (i + 1) k2 (by simpa using hk)]
          simp

/-- The uncertainty dictionary attached to a chain node transition. -/
theorem chainG_uDict {tr : List UEvent} {k : ℕ} (hk : k < tr.length) :
    uDict (chainG tr) (Trans.act k (tr[k].label)) = certInfo tr[k] := by
  have hfind := chainNodes_find? tr 0 k hk
  rw [Nat.zero_add] at hfind
  rw [uDict, chainG_nodes, hfind]
  simp [certNode]

/-- Filtering the node transitions with a predicate false at every
position. -/
theorem actList_filter_nil {q : Trans → Bool} :
    ∀ (tr : List UEvent) (i : ℕ),
      (∀ k, (hk : k < tr.length) → q (Trans.act (i + k) (tr[k].label)) = false) →
      (actList tr i).filter q = [] := by
  intro tr
  induction tr with
  | nil => intro i h; rfl
  | cons e rest ih =>
      intro i h
      have h0 : q (Trans.act i e.label) = false := by simpa using h 0 (by simp)
      rw [actList, List.filter_cons, if_neg (by rw [h0]; simp)]
      exact ih (i + 1) (fun k hk => by
        have h2 := h (k + 1) (by simpa using hk)
        rw [show i + (k + 1) = i + 1 + k by omega] at h2
        simpa using h2)

/-- Filtering the node transitions with a predicate true exactly at one
position. -/
theorem actList_filter_single {q : Trans → Bool} :
    ∀ (tr : List UEvent) (i k0 : ℕ) (hk0 : k0 < tr.length),
      (∀ k, (hk : k < tr.length) →
        (q (Trans.act (i + k) (tr[k].label)) = true ↔ k = k0)) →
      (actList tr i).filter q = [Trans.act (i + k0) (tr[k0].label)] := by
  intro tr
  induction tr with
  | nil => intro i k0 hk0 hq; simp at hk0
  | cons e rest ih =>
      intro i k0 hk0 hq
      rw [actList, List.filter_cons]
      cases k0 with
      | zero =>
          have h0 : q (Trans.act i e.label) = true := by
            simpa using (hq 0 (by simp)).2 rfl
          rw [if_pos h0]
          rw [actList_filter_nil rest (i + 1) (fun k hk => by
            have h2 := hq (k + 1) (by simpa using hk)
            rw [show i + (k + 1) = i + 1 + k by omega] at h2
            simp only [List.getElem_cons_succ] at h2
            cases hqq : q (Trans.act (i + 1 + k) (rest[k].label))
            · rfl
            · exact absurd (h2.1 hqq) (by omega))]
          simp
      | succ k2 =>
          have h0 : q (Trans.act i e.label) = false := by
            cases hqq : q (Trans.act i e.label)
            · rfl
            · have := (hq 0 (by simp)).1 (by simpa using hqq)
              omega
          rw [if_neg (by rw [h0]; simp)]
          rw [ih (i + 1) k2 (by simpa using hk0) (fun k hk => by
            have h2 := hq (k + 1) (by simpa using hk)
            rw [show i + (k + 1) = i + 1 + k by omega] at h2
            simp only [List.getElem_cons_succ] at h2
            rw [h2]
            omega)]
          simp only [List.getElem_cons_succ]
          rw [show i + (k2 + 1) = i + 1 + k2 by omega]

/-- The marking after the first `k` node transitions of the chain have
fired: a token entering node `k` (or, with everything fired, the token in
front of the sink transition). -/
def chainMark (n : ℕ) : ℕ → Marking
  | 0 => [Place.fromSource 0]
  | k + 1 => if k + 1 < n then [Place.between k (k + 1)] else [Place.toSink (n - 1)]

/-- The chain marking before the last transition. -/
theorem chainMark_lt {n k : ℕ} (hk : k < n) :
    chainMark n k = if k = 0 then [Place.fromSource 0] else [Place.between (k - 1) k] := by
  cases k with
  | zero => rfl
  | succ j =>
      rw [chainMark, if_pos hk, if_neg (by omega)]
      simp

/-- The chain marking with everything fired. -/
theorem chainMark_end (n : ℕ) (hn : 0 < n) : chainMark n n = [Place.toSink (n - 1)] := by
  cases n with
  | zero => omega
  | succ j => rw [chainMark, if_neg (by omega)]

/-- Inputs of a chain node transition. -/
theorem chainG_preT_act {tr : List UEvent} {k : ℕ} (hk : k < tr.length) (l : Lbl) :
    preT (chainG tr) (Trans.act k l) =
      if k = 0 then [Place.fromSource 0] else [Place.between (k - 1) k] := by
  rw [preT, chainG_preds]
  by_cases h0 : k = 0
  · subst h0
    rw [if_neg (show ¬((0:ℕ) < 0 ∧ 0 < tr.length) by omega)]
    simp
  · rw [if_pos (show 0 < k ∧ k < tr.length by omega), if_neg h0]
    simp

/-- Outputs of a chain node transition. -/
theorem chainG_postT_act {tr : List UEvent} {k : ℕ} (hk : k < tr.length) (l : Lbl) :
    postT (chainG tr) (Trans.act k l) =
      if k + 1 < tr.length then [Place.between k (k + 1)] else [Place.toSink k] := by
  rw [postT, chainG_succs]
  by_cases h : k + 1 < tr.length
  · rw [if_pos h]
    simp [h]
  · rw [if_neg h]
    simp [h]

/-- Inputs of the chain net's sink transition. -/
theorem chainG_preT_tsink {tr : List UEvent} (hne : tr ≠ []) :
    preT (chainG tr) Trans.tsink = [Place.toSink (tr.length - 1)] := by
  rw [preT, chainG_succless hne]
  rfl

/-- Outputs of the chain net's source transition. -/
theorem chainG_postT_tsource {tr : List UEvent} (hne : tr ≠ []) :
    postT (chainG tr) Trans.tsource = [Place.fromSource 0] := by
  rw [postT, chainG_predless hne]
  rfl

/-- Only the source transition is enabled at the initial marking of the
chain net. -/
theorem chain_enabled_start {tr : List UEvent} (hne : tr ≠ []) :
    enabledList (chainG tr) [Place.source] = [Trans.tsource] := by
  rw [enabledList, chainG_transList, List.filter_cons, List.filter_cons]
  rw [if_pos (show mLeB (preT (chainG tr) Trans.tsource) [Place.source] = true by
    rw [preT, mLeB_single]
    simp)]
  rw [if_neg (show ¬(mLeB (preT (chainG tr) Trans.tsink) [Place.source] = true) by
    rw [chainG_preT_tsink hne, mLeB_single]
    simp)]
  rw [actList_filter_nil tr 0 (fun k hk => by
    rw [Nat.zero_add, chainG_preT_act hk]
    by_cases h0 : k = 0
    · rw [if_pos h0, mLeB_single]
      simp
    · rw [if_neg h0, mLeB_single]
      simp)]

/-- Only the `k`-th node transition is enabled at the `k`-th chain
marking. -/
theorem chain_enabled_mid {tr : List UEvent} {k : ℕ} (hk : k < tr.length) :
    enabledList (chainG tr) (chainMark tr.length k) = [Trans.act k (tr[k].label)] := by
  have hne : tr ≠ [] := by
    intro h
    rw [h] at hk
    simp at hk
  have h1 : mLeB (preT (chainG tr) Trans.tsource) (chainMark tr.length k) = false := by
    rw [preT, chainMark_lt hk]
    by_cases h0 : k = 0
    · rw [if_pos h0, mLeB_single]
      simp
    · rw [if_neg h0, mLeB_single]
      simp
  have h2 : mLeB (preT (chainG tr) Trans.tsink) (chainMark tr.length k) = false := by
    rw [chainG_preT_tsink hne, chainMark_lt hk]
    by_cases h0 : k = 0
    · rw [if_pos h0, mLeB_single]
      simp
    · rw [if_neg h0, mLeB_single]
      simp
  have h3 : ∀ k2, (hk2 : k2 < tr.length) →
      (mLeB (preT (chainG tr) (Trans.act (0 + k2) (tr[k2].label)))
        (chainMark tr.length k) = true ↔ k2 = k) := by
    intro k2 hk2
    rw [Nat.zero_add, chainG_preT_act hk2, chainMark_lt hk]
    by_cases ha : k2 = 0 <;> by_cases hb : k = 0
    · subst ha
      subst hb
      rw [if_pos rfl, mLeB_single]
      simp
    · subst ha
      rw [if_pos rfl, if_neg hb, mLeB_single]
      simp [Ne.symm hb]
    · subst hb
      rw [if_neg ha, if_pos rfl, mLeB_single]
      simp [ha]
    · rw [if_neg ha, if_neg hb, mLeB_single]
      simp only [decide_eq_true_eq, Place.between.injEq]
      exact ⟨fun h => h.2, fun h => ⟨by omega, h⟩⟩
  rw [enabledList, chainG_transList, List.filter_cons, List.filter_cons,
    if_neg (by rw [h1]; simp), if_neg (by rw [h2]; simp),
    actList_filter_single tr 0 k hk h3, Nat.zero_add]

/-- Only the sink transition is enabled at the last chain marking. -/
theorem chain_enabled_end {tr : List UEvent} (hne : tr ≠ []) :
    enabledList (chainG tr) (chainMark tr.length tr.length) = [Trans.tsink] := by
  have hpos : 0 < tr.length := List.length_pos.2 hne
  have hm := chainMark_end tr.length hpos
  have h1 : mLeB (preT (chainG tr) Trans.tsource)
      (chainMark tr.length tr.length) = false := by
    rw [preT, hm, mLeB_single]
    simp
  have h2 : mLeB (preT (chainG tr) Trans.tsink)
      (chainMark tr.length tr.length) = true := by
    rw [chainG_preT_tsink hne, hm, mLeB_single]
    simp
  rw [enabledList, chainG_transList, List.filter_cons, List.filter_cons,
    if_neg (by rw [h1]; simp), if_pos h2,
    actList_filter_nil tr 0 (fun k hk => by
      rw [Nat.zero_add, chainG_preT_act hk, hm]
      by_cases h0 : k = 0
      · rw [if_pos h0, mLeB_single]
        simp
      · rw [if_neg h0, mLeB_single]
        simp)]

/-- Firing the source transition of the chain net. -/
theorem chain_fire_tsource {tr : List UEvent} (hne : tr ≠ []) :
    fire (chainG tr) Trans.tsource [Place.source] = chainMark tr.length 0 := by
  rw [fire, preT, chainG_postT_tsource hne, chainMark]
  simp [List.diff_cons]

/-- Firing the `k`-th node transition of the chain net. -/
theorem chain_fire_act {tr : List UEvent} {k : ℕ} (hk : k < tr.length) (l : Lbl) :
    fire (chainG tr) (Trans.act k l) (chainMark tr.length k) =
      chainMark tr.length (k + 1) := by
  rw [fire, chainG_preT_act hk, chainG_postT_act hk, chainMark_lt hk]
  by_cases h1 : k + 1 < tr.length
  · rw [chainMark_lt h1, if_neg (show ¬(k + 1 = 0) by omega),
      show k + 1 - 1 = k from by omega, if_pos h1]
    by_cases h0 : k = 0
    · rw [if_pos h0]
      simp [List.diff_cons]
    · rw [if_neg h0]
      simp [List.diff_cons]
  · rw [show k + 1 = tr.length from by omega,
      chainMark_end tr.length (by omega), show tr.length - 1 = k from by omega,
      if_neg (lt_irrefl tr.length)]
    by_cases h0 : k = 0
    · rw [if_pos h0]
      simp [List.diff_cons]
    · rw [if_neg h0]
      simp [List.diff_cons]

/-- Firing the sink transition of the chain net. -/
theorem chain_fire_tsink {tr : List UEvent} (hne : tr ≠ []) :
    fire (chainG tr) Trans.tsink (chainMark tr.length tr.length) = [Place.sink] := by
  have hpos : 0 < tr.length := List.length_pos.2 hne
  rw [fire, chainG_preT_tsink hne, postT, chainMark_end tr.length hpos]
  simp [List.diff_cons]

/-- The event a transition appends to the partial trace during exploration
(nothing for the boundary transitions, utils.py lines 54-60). -/
def evOf (g : BGraph) (t : Trans) : List VEvent :=
  if t == Trans.tsource || t == Trans.tsink then [] else [(t.label, uDict g t)]

/-- The realization trace of a transition sequence. -/
def runTrace (g : BGraph) : List Trans → List VEvent
  | [] => []
  | t :: ts => evOf g t ++ runTrace g ts

/-- The markings visited along a transition sequence. -/
def runStates (g : BGraph) : Marking → List Trans → List Marking
  | m, [] => [m]
  | m, t :: ts => m :: runStates g (fire g t m) ts

/-- The visited-set entries the exploration adds along a transition
sequence. -/
def runVis (g : BGraph) : Marking → List VEvent → List Trans → List EState
  | _, _, [] => []
  | m, w, t :: ts => (m, w) :: runVis g (fire g t m) (w ++ evOf g t) ts

/-- A deterministic run: each marking on the way enables exactly one
transition, and the run ends at the final marking. -/
def DetTail (g : BGraph) : Marking → List Trans → Prop
  | m, [] => mEqB m finalMarking = true
  | m, t :: ts => mEqB m finalMarking = false ∧ enabledList g m = [t] ∧
      DetTail g (fire g t m) ts

/-- `explore` on a deterministic run: with enough fuel and no stale
visited entries it records exactly the run's realization. -/
theorem explore_det (g : BGraph) :
    ∀ (ts : List Trans) (m : Marking) (w : List VEvent) (st : ERes) (fuel : ℕ),
      DetTail g m ts →
      (∀ s ∈ st.vis, ∀ m2 ∈ runStates g m ts, mEqB s.1 m2 = false) →
      (runStates g m ts).Pairwise (fun a b => mEqB a b = false) →
      ts.length + 1 ≤ fuel →
      explore g fuel m w st =
        some ⟨st.recs ++ [w ++ runTrace g ts], st.vis ++ runVis g m w ts⟩ := by
  intro ts
  induction ts with
  | nil =>
      intro m w st fuel hdet hvis hpw hfuel
      obtain ⟨f2, rfl⟩ : ∃ f2, fuel = f2 + 1 := ⟨fuel - 1, by omega⟩
      have hfin : mEqB m finalMarking = true := hdet
      rw [explore, if_pos hfin]
      simp [runTrace, runVis]
  | cons t ts ih =>
      intro m w st fuel hdet hvis hpw hfuel
      obtain ⟨hnf, hen, hdet2⟩ := hdet
      obtain ⟨f2, rfl⟩ : ∃ f2, fuel = f2 + 1 := ⟨fuel - 1, by omega⟩
      rw [explore, if_neg (by rw [hnf]; simp)]
      rw [if_neg (show ¬(stateMem m w st.vis = true) from ?_)]
      · rw [hen]
        simp only [explore_fold]
        have hih := ih (fire g t m) (w ++ evOf g t)
          ⟨st.recs, st.vis ++ [(m, w)]⟩ f2 hdet2 ?_ ?_ (by simpa using hfuel)
        · by_cases hb : (t == Trans.tsource || t == Trans.tsink) = true
          · rw [if_pos hb]
            have hev : evOf g t = [] := by rw [evOf, if_pos hb]
            rw [hev, List.append_nil] at hih
            rw [hih]
            simp only [Option.bind_some, explore_fold]
            rw [runTrace, runVis, hev]
            simp
          · rw [if_neg hb]
            have hev : evOf g t = [(t.label, uDict g t)] := by rw [evOf, if_neg hb]
            rw [← hev, hih]
            simp only [Option.bind_some, explore_fold]
            rw [runTrace, runVis]
            simp
        · intro s hs m2 hm2
          rcases List.mem_append.1 hs with h | h
          · exact hvis s h m2 (by rw [runStates]; exact List.mem_cons_of_mem _ hm2)
          · rw [List.mem_singleton.1 h]
            rw [runStates, List.pairwise_cons] at hpw
            exact hpw.1 m2 hm2
        · rw [runStates, List.pairwise_cons] at hpw
          exact hpw.2
      · intro hmem
        rw [stateMem, List.any_eq_true] at hmem
        obtain ⟨s, hs, hcond⟩ := hmem
        rw [Bool.and_eq_true] at hcond
        have := hvis s hs m (by rw [runStates]; exact List.mem_cons_self _ _)
        rw [this] at hcond
        exact Bool.false_ne_true hcond.1

/-- The deterministic transition schedule of the chain net, after the
source transition: one node transition per event, then the sink. -/
def actsRun : List UEvent → ℕ → List Trans
  | [], _ => [Trans.tsink]
  | e :: rest, k => Trans.act k e.label :: actsRun rest (k + 1)

theorem actsRun_length : ∀ (s : List UEvent) (k : ℕ),
    (actsRun s k).length = s.length + 1 := by
  intro s
  induction s with
  | nil => intro k; rfl
  | cons e rest ih => intro k; rw [actsRun, List.length_cons, ih (k + 1)]; rfl

/-- The chain markings differ pairwise. -/
theorem chainMark_ne_mark {n k k2 : ℕ} (h1 : k < k2) (h2 : k2 ≤ n) :
    mEqB (chainMark n k) (chainMark n k2) = false := by
  have hk : k < n := by omega
  rw [chainMark_lt hk]
  by_cases hk2 : k2 < n
  · rw [chainMark_lt hk2, if_neg (show ¬(k2 = 0) by omega)]
    by_cases h0 : k = 0
    · rw [if_pos h0, mEqB_single]
      exact decide_eq_false (by simp)
    · rw [if_neg h0, mEqB_single]
      refine decide_eq_false ?_
      simp only [Place.between.injEq, not_and]
      intro
      omega
  · rw [show k2 = n by omega, chainMark_end n (by omega)]
    by_cases h0 : k = 0
    · rw [if_pos h0, mEqB_single]
      exact decide_eq_false (by simp)
    · rw [if_neg h0, mEqB_single]
      exact decide_eq_false (by simp)

/-- No chain marking is the final marking. -/
theorem chainMark_ne_sink {n k : ℕ} (hk : k ≤ n) (hn : 0 < n) :
    mEqB (chainMark n k) [Place.sink] = false := by
  by_cases h : k < n
  · rw [chainMark_lt h]
    by_cases h0 : k = 0
    · rw [if_pos h0, mEqB_single]
      exact decide_eq_false (by simp)
    · rw [if_neg h0, mEqB_single]
      exact decide_eq_false (by simp)
  · rw [show k = n by omega, chainMark_end n hn, mEqB_single]
    exact decide_eq_false (by simp)

/-- Deterministic-run property of the chain schedule (act phase on). -/
theorem detTail_chain_acts {tr : List UEvent} (hne : tr ≠ []) :
    ∀ (s : List UEvent) (k : ℕ), tr.drop k = s → k + s.length = tr.length →
      DetTail (chainG tr) (chainMark tr.length k) (actsRun s k) := by
  intro s
  induction s with
  | nil =>
      intro k hdrop hlen
      have hk : k = tr.length := by simpa using hlen
      subst hk
      have hpos : 0 < tr.length := List.length_pos.2 hne
      rw [actsRun]
      refine ⟨?_, chain_enabled_end hne, ?_⟩
      · rw [finalMarking]
        exact chainMark_ne_sink (le_refl _) hpos
      · show mEqB (fire (chainG tr) Trans.tsink (chainMark tr.length tr.length))
          finalMarking = true
        rw [chain_fire_tsink hne, finalMarking, mEqB_single]
        simp
  | cons e rest ih =>
      intro k hdrop hlen
      have hk : k < tr.length := by simp only [List.length_cons] at hlen; omega
      have hsplit := hdrop
      rw [List.drop_eq_getElem_cons hk] at hsplit
      injection hsplit with hgets hrest
      rw [actsRun]
      refine ⟨?_, ?_, ?_⟩
      · rw [finalMarking]
        exact chainMark_ne_sink (by omega) (by omega)
      · rw [chain_enabled_mid hk, hgets]
      · rw [chain_fire_act hk]
        exact ih (k + 1) hrest (by simp only [List.length_cons] at hlen; omega)

/-- Deterministic-run property of the full chain schedule. -/
theorem detTail_chain {tr : List UEvent} (hne : tr ≠ []) :
    DetTail (chainG tr) [Place.source] (Trans.tsource :: actsRun tr 0) := by
  refine ⟨?_, chain_enabled_start hne, ?_⟩
  · rw [finalMarking, mEqB_single]
    exact decide_eq_false (by simp)
  · rw [chain_fire_tsource hne]
    exact detTail_chain_acts hne tr 0 (by simp) (by simp)

/-- The markings visited along the chain schedule. -/
theorem runStates_chain_mem {tr : List UEvent} (hne : tr ≠ []) :
    ∀ (s : List UEvent) (k : ℕ), tr.drop k = s → k + s.length = tr.length →
      ∀ m ∈ runStates (chainG tr) (chainMark tr.length k) (actsRun s k),
        m = [Place.sink] ∨
          ∃ k2, k ≤ k2 ∧ k2 ≤ tr.length ∧ m = chainMark tr.length k2 := by
  intro s
  induction s with
  | nil =>
      intro k hdrop hlen m hm
      have hk : k = tr.length := by simpa using hlen
      subst hk
      rw [actsRun, runStates, runStates] at hm
      rcases List.mem_cons.1 hm with rfl | hm2
      · exact .inr ⟨tr.length, le_refl _, le_refl _, rfl⟩
      rcases List.mem_cons.1 hm2 with rfl | hm3
      · exact .inl (chain_fire_tsink hne)
      · cases hm3
  | cons e rest ih =>
      intro k hdrop hlen m hm
      have hk : k < tr.length := by simp only [List.length_cons] at hlen; omega
      have hsplit := hdrop
      rw [List.drop_eq_getElem_cons hk] at hsplit
      injection hsplit with hgets hrest
      rw [actsRun, runStates] at hm
      rcases List.mem_cons.1 hm with rfl | hm2
      · exact .inr ⟨k, le_refl _, by omega, rfl⟩
      · rw [chain_fire_act hk] at hm2
        rcases ih (k + 1) hrest (by simp only [List.length_cons] at hlen; omega) m hm2
          with h | ⟨k2, hk1, hk2, h3⟩
        · exact .inl h
        · exact .inr ⟨k2, by omega, hk2, h3⟩

/-- The markings visited along the chain schedule are pairwise distinct. -/
theorem runStates_chain_pairwise {tr : List UEvent} (hne : tr ≠ []) :
    ∀ (s : List UEvent) (k : ℕ), tr.drop k = s → k + s.length = tr.length →
      (runStates (chainG tr) (chainMark tr.length k) (actsRun s k)).Pairwise
        (fun a b => mEqB a b = false) := by
  intro s
  induction s with
  | nil =>
      intro k hdrop hlen
      have hk : k = tr.length := by simpa using hlen
      subst hk
      have hpos : 0 < tr.length := List.length_pos.2 hne
      rw [actsRun, runStates, runStates]
      refine List.Pairwise.cons ?_ (List.Pairwise.cons
        (fun b hb => absurd hb (List.not_mem_nil b)) List.Pairwise.nil)
      intro b hb
      rcases List.mem_cons.1 hb with rfl | h
      · rw [chain_fire_tsink hne]
        exact chainMark_ne_sink (le_refl _) hpos
      · cases h
  | cons e rest ih =>
      intro k hdrop hlen
      have hk : k < tr.length := by simp only [List.length_cons] at hlen; omega
      have hsplit := hdrop
      rw [List.drop_eq_getElem_cons hk] at hsplit
      injection hsplit with hgets hrest
      have hlen2 : k + 1 + rest.length = tr.length := by
        simp only [List.length_cons] at hlen
        omega
      rw [actsRun, runStates, chain_fire_act hk]
      refine List.Pairwise.cons ?_ (ih (k + 1) hrest hlen2)
      intro b hb
      rcases runStates_chain_mem hne rest (k + 1) hrest hlen2 b hb
        with rfl | ⟨k2, hk1, hk2, rfl⟩
      · exact chainMark_ne_sink (by omega) (by omega)
      · exact chainMark_ne_mark (by omega) hk2

/-- The full chain schedule visits pairwise distinct markings. -/
theorem runStates_chain_full {tr : List UEvent} (hne : tr ≠ []) :
    (runStates (chainG tr) [Place.source] (Trans.tsource :: actsRun tr 0)).Pairwise
      (fun a b => mEqB a b = false) := by
  rw [runStates, chain_fire_tsource hne]
  refine List.Pairwise.cons ?_ (runStates_chain_pairwise hne tr 0 (by simp) (by simp))
  intro b hb
  rcases runStates_chain_mem hne tr 0 (by simp) (by simp) b hb
    with rfl | ⟨k2, -, hk2, rfl⟩
  · rw [mEqB_single]
    exact decide_eq_false (by simp)
  · by_cases h : k2 < tr.length
    · rw [chainMark_lt h]
      by_cases h0 : k2 = 0
      · rw [if_pos h0, mEqB_single]
        exact decide_eq_false (by simp)
      · rw [if_neg h0, mEqB_single]
        exact decide_eq_false (by simp)
    · rw [show k2 = tr.length by omega,
        chainMark_end tr.length (List.length_pos.2 hne), mEqB_single]
      exact decide_eq_false (by simp)

/-- The realization of a certain trace: its labels with their uncertainty
dictionaries. -/
def certTrace (tr : List UEvent) : List VEvent :=
  tr.map (fun e => (e.label, certInfo e))

/-- The trace recorded along the chain schedule. -/
theorem runTrace_chain {tr : List UEvent} :
    ∀ (s : List UEvent) (k : ℕ), tr.drop k = s → k + s.length = tr.length →
      runTrace (chainG tr) (actsRun s k) = certTrace s := by
  intro s
  induction s with
  | nil =>
      intro k hdrop hlen
      rw [actsRun, runTrace, runTrace, evOf, if_pos (by simp)]
      rfl
  | cons e rest ih =>
      intro k hdrop hlen
      have hk : k < tr.length := by simp only [List.length_cons] at hlen; omega
      have hsplit := hdrop
      rw [List.drop_eq_getElem_cons hk] at hsplit
      injection hsplit with hgets hrest
      rw [actsRun, runTrace, evOf, if_neg (by simp)]
      rw [ih (k + 1) hrest (by simp only [List.length_cons] at hlen; omega)]
      rw [show Trans.act k e.label = Trans.act k (tr[k].label) by rw [hgets]]
      rw [show (Trans.act k (tr[k].label)).label = tr[k].label from rfl]
      rw [chainG_uDict hk, hgets]
      rfl

/-- The variant enumeration of the chain net records exactly the certain
trace's realization. -/
theorem acyclic_net_variants_chain {tr : List UEvent} (hne : tr ≠ [])
    {fuel : ℕ} (hfuel : tr.length + 3 ≤ fuel) :
    acyclic_net_variants (chainG tr) fuel = some [certTrace tr] := by
  rw [acyclic_net_variants, initialMarking]
  rw [explore_det (chainG tr) (Trans.tsource :: actsRun tr 0) [Place.source] [] ⟨[], []⟩ fuel
    (detTail_chain hne) (fun s hs => absurd hs (List.not_mem_nil s))
    (runStates_chain_full hne)
    (by rw [List.length_cons, actsRun_length tr 0]; omega)]
  rw [runTrace, evOf, if_pos (by simp), runTrace_chain tr 0 (by simp) (by simp)]
  simp

/-- No event of a certain realization carries an interval. -/
theorem certTrace_no_interval (tr : List UEvent) :
    (certTrace tr).any (fun ev => ev.2.uTimestampMin.isSome) = false := by
  rw [List.any_eq_false]
  intro ev hev
  rw [certTrace] at hev
  obtain ⟨e, he, rfl⟩ := List.mem_map.1 hev
  simp [certInfo]

/-- Folding over a certain realization with a step that ignores its
events. -/
theorem foldl_certTrace_id {f : ℚ → VEvent → ℚ}
    (hf : ∀ (a : ℚ) (e : UEvent), f a (e.label, certInfo e) = a) :
    ∀ (s : List UEvent) (a : ℚ), (certTrace s).foldl f a = a := by
  intro s
  induction s with
  | nil => intro a; rfl
  | cons e rest ih =>
      intro a
      rw [certTrace, List.map_cons, List.foldl_cons, hf a e]
      exact ih a

/-- The missing-probability factor of a certain realization. -/
theorem P_missing_certTrace (tr : List UEvent) :
    calculate_P_missing (certTrace tr) = 1 := by
  rw [calculate_P_missing]
  exact foldl_certTrace_id (fun a e => rfl) tr 1

/-- The activity-probability factor of a certain realization. -/
theorem PA_certTrace (tr : List UEvent) : calculate_PA (certTrace tr) = 1 := by
  rw [calculate_PA]
  exact foldl_certTrace_id (fun a e => rfl) tr 1

/-- The observation probability of a certain realization: no integration
happens and the probability is exactly one. -/
theorem PO_certTrace (nq : Integrator) (tr : List UEvent) :
    calculate_PO nq (certTrace tr) = 1 := by
  simp only [calculate_PO]
  rw [if_neg (by rw [certTrace_no_interval]; simp)]
  exact P_missing_certTrace tr

/-- The grouping key of a certain realization is the trace's label
sequence. -/
theorem certTrace_key {tr : List UEvent} (hcert : ∀ e ∈ tr, CertEvent e) :
    ((certTrace tr).map Prod.fst).filter (fun l => l ≠ none) =
      tr.map (fun e => e.label) := by
  rw [certTrace, List.map_map]
  have hmap : List.map (Prod.fst ∘ fun e : UEvent => (e.label, certInfo e)) tr
      = List.map (fun e : UEvent => e.label) tr := rfl
  rw [hmap, List.filter_eq_self.2 ?_]
  intro a ha
  obtain ⟨e, he, rfl⟩ := List.mem_map.1 ha
  obtain ⟨⟨l, hl⟩, -⟩ := hcert e he
  simp [hl]

/-- C7, amended.  For every nonempty trace whose events are fully certain
(label and timestamp present, no uncertainty fields) and whose timestamps
strictly increase, `realization_set` with probability tracking returns
exactly one realization, whose label sequence is the input trace's label
sequence and whose probability is exactly 1 (no integration runs), for any
exploration depth of at least `length + 3`. -/
theorem c7_amended {tr : List UEvent} (hne : tr ≠ [])
    (hcert : ∀ e ∈ tr, CertEvent e)
    (hmono : (tr.map tstamp).Pairwise (· < ·))
    (nq : Integrator) {fuel : ℕ} (hfuel : tr.length + 3 ≤ fuel) :
    realization_set nq fuel tr true =
      Except.ok (some [⟨tr.map (fun e => e.label), some 1⟩]) := by
  rw [realization_set, behavior_graph_cert hcert hmono]
  simp only [except_bind_ok]
  rw [show (⟨chainNodes tr 0, chainEdges (chainNodes tr 0)⟩ : BGraph) = chainG tr from rfl]
  rw [acyclic_net_variants_chain hne hfuel]
  simp only [calculate_realizations_probabilities, List.map_cons, List.map_nil,
    if_pos, PO_certTrace, PA_certTrace, mul_one]
  rw [get_unique_realizations]
  simp only [List.foldl_cons, List.foldl_nil]
  rw [certTrace_key hcert]
  rw [upsert]
  simp

/-- Two fully certain events with the same timestamp. -/
def c7ties : List UEvent :=
  [{ timestamp := some 0, label := some "A" },
   { timestamp := some 0, label := some "B" }]

/-- C7, counterexample.  The trace of two fully certain events "A" and "B"
with the identical timestamp 0 has no label, timestamp or missing
uncertainty, yet `realization_set` returns two realizations (both orders,
each with probability 1), not exactly one: with equal timestamps the sweep
sorts both open markers before both close markers, so no precedence edge is
created and both interleavings are replayable on the net. -/
theorem c7_counterexample :
    (∀ e ∈ c7ties, CertEvent e) ∧
    realization_set nqZero 10 c7ties true =
      Except.ok (some [⟨[some "A", some "B"], some 1⟩,
        ⟨[some "B", some "A"], some 1⟩]) ∧
    ¬ ∃ out : OutTrace,
      realization_set nqZero 10 c7ties true = Except.ok (some [out]) := by
  have h2 : realization_set nqZero 10 c7ties true =
      Except.ok (some [⟨[some "A", some "B"], some 1⟩,
        ⟨[some "B", some "A"], some 1⟩]) := by
    with_unfolding_all decide
  refine ⟨?_, h2, ?_⟩
  · intro e he
    rw [c7ties] at he
    rcases List.mem_cons.1 he with rfl | he2
    · exact ⟨⟨"A", rfl⟩, ⟨0, rfl⟩, rfl, rfl, rfl, rfl⟩
    rcases List.mem_cons.1 he2 with rfl | he3
    · exact ⟨⟨"B", rfl⟩, ⟨0, rfl⟩, rfl, rfl, rfl, rfl⟩
    · cases he3
  · rintro ⟨out, hout⟩
    rw [h2] at hout
    simp at hout

/-- Three fully certain events with strictly increasing timestamps. -/
def c7chain : List UEvent :=
  [{ timestamp := some 0, label := some "A" },
   { timestamp := some 1, label := some "B" },
   { timestamp := some 2, label := some "C" }]

theorem c7_witness :
    realization_set nqZero 6 c7chain true =
      Except.ok (some [⟨c7chain.map (fun e => e.label), some 1⟩]) := by
  refine @c7_amended c7chain (by rw [c7chain]; simp) ?_ ?_ nqZero 6 (by rw [c7chain]; simp)
  · intro e he
    rw [c7chain] at he
    rcases List.mem_cons.1 he with rfl | he2
    · exact ⟨⟨"A", rfl⟩, ⟨0, rfl⟩, rfl, rfl, rfl, rfl⟩
    rcases List.mem_cons.1 he2 with rfl | he3
    · exact ⟨⟨"B", rfl⟩, ⟨1, rfl⟩, rfl, rfl, rfl, rfl⟩
    rcases List.mem_cons.1 he3 with rfl | he4
    · exact ⟨⟨"C", rfl⟩, ⟨2, rfl⟩, rfl, rfl, rfl, rfl⟩
    · cases he4
  · with_unfolding_all decide

/-- The node indices of a built graph are exactly the trace positions. -/
theorem nodes_fst_perm_range {tr : List UEvent} {g : BGraph}
    (hg : behavior_graph tr = Except.ok g) :
    (g.nodes.map Prod.fst).Perm (List.range tr.length) := by
  refine (List.perm_ext_iff_of_nodup (nodes_fst_nodup hg) (List.nodup_range _)).mpr ?_
  intro j
  rw [List.mem_range]
  constructor
  · intro hj
    obtain ⟨nd, hnd, heq⟩ := List.mem_map.1 hj
    obtain ⟨j2, hj2, he, -⟩ := nodes_mem_origin hg nd hnd
    omega
  · intro hj
    obtain ⟨nd, hnd, heq⟩ := nodes_complete hg j hj
    exact List.mem_map.2 ⟨nd, hnd, heq⟩

/-- A built graph has as many nodes as its trace has events. -/
theorem nodes_length_eq {tr : List UEvent} {g : BGraph}
    (hg : behavior_graph tr = Except.ok g) :
    (g.nodes.map Prod.fst).length = tr.length := by
  have := (nodes_fst_perm_range hg).length_eq
  simpa using this

/-! ## Claim C4: no sentinel boundary nodes -/

/-- A single certain event, for the boundary-node check. -/
def c4trace : List UEvent := [{ timestamp := some 0, label := some "A" }]

/-- C4, counterexample.  The behavior graph of a one-event trace has
exactly one node, the event's index 0: there is no start node at time −∞
and no end node at time +∞ -- the constructor adds one node per event and
nothing else. -/
theorem c4_counterexample :
    (behavior_graph c4trace).map (fun g => g.nodes.map Prod.fst) = Except.ok [0] ∧
    ∀ g : BGraph, behavior_graph c4trace = Except.ok g → g.nodes.length = 1 := by
  have h1 : (behavior_graph c4trace).map (fun g => g.nodes.map Prod.fst) =
      Except.ok [0] := by
    with_unfolding_all decide
  refine ⟨h1, ?_⟩
  intro g hg
  rw [hg] at h1
  rw [show (Except.ok g).map (fun g : BGraph => g.nodes.map Prod.fst) =
      Except.ok (g.nodes.map Prod.fst) from rfl] at h1
  have h2 := congrArg List.length (Except.ok.inj h1)
  rw [List.length_map] at h2
  exact h2

/-- C4, amended.  The built behavior graph has no sentinel nodes: its node
indices are exactly the trace positions `0, …, n−1` (as a permutation of
`range n`).  The boundary role falls to the synthesized net's invisible
transitions: the source transition feeds every predecessor-less node's
input place (which that node's transitions consume), and every
successor-less node's output place feeds the sink transition (and is fed
by that node's transitions). -/
theorem c4_amended {tr : List UEvent} {g : BGraph}
    (hg : behavior_graph tr = Except.ok g) :
    (g.nodes.map Prod.fst).Perm (List.range tr.length) ∧
    (∀ v ∈ g.predless, Place.fromSource v ∈ postT g Trans.tsource ∧
      ∀ l, Place.fromSource v ∈ preT g (Trans.act v l)) ∧
    (∀ v ∈ g.succless, Place.toSink v ∈ preT g Trans.tsink ∧
      ∀ l, Place.toSink v ∈ postT g (Trans.act v l)) := by
  refine ⟨nodes_fst_perm_range hg, ?_, ?_⟩
  · intro v hv
    refine ⟨List.mem_map_of_mem _ hv, ?_⟩
    intro l
    rw [preT, if_pos (mem_predless.1 hv).2]
    exact List.mem_append_left _ (List.mem_singleton_self _)
  · intro v hv
    refine ⟨List.mem_map_of_mem _ hv, ?_⟩
    intro l
    rw [postT, if_pos (mem_succless.1 hv).2]
    exact List.mem_append_right _ (List.mem_singleton_self _)

/-- The behavior graph of `c4trace`. -/
def c4g : BGraph := ⟨[(0, [(some "A", { timestamp := 0 })])], []⟩

theorem c4_witness :
    (c4g.nodes.map Prod.fst).Perm (List.range c4trace.length) ∧
    (∀ v ∈ c4g.predless, Place.fromSource v ∈ postT c4g Trans.tsource ∧
      ∀ l, Place.fromSource v ∈ preT c4g (Trans.act v l)) ∧
    (∀ v ∈ c4g.succless, Place.toSink v ∈ preT c4g Trans.tsink ∧
      ∀ l, Place.toSink v ∈ postT c4g (Trans.act v l)) :=
  @c4_amended c4trace c4g (by with_unfolding_all decide)

/-! ## Claim C9: touching intervals and the exploration's completeness -/

/-- A complete replay of the net from marking `m` with partial trace `w`
producing the full trace `u`: the recursion structure of `explore_marking`
without the visited-set pruning. -/
inductive RealizesFrom (g : BGraph) : Marking → List VEvent → List VEvent → Prop
  | final {m : Marking} {w : List VEvent} :
      mEqB m finalMarking = true → RealizesFrom g m w w
  | step {m : Marking} (t : Trans) {w u : List VEvent} :
      t ∈ transList g → mLeB (preT g t) m = true →
      RealizesFrom g (fire g t m) (w ++ evOf g t) u →
      RealizesFrom g m w u

/-- Replays transport along count-equal markings. -/
theorem realizesFrom_mequiv {g : BGraph} :
    ∀ {m : Marking} {w u : List VEvent}, RealizesFrom g m w u →
      ∀ {m2 : Marking}, MEquiv m2 m → RealizesFrom g m2 w u := by
  intro m w u h
  induction h with
  | final hfin =>
      intro m2 he
      refine RealizesFrom.final ?_
      rw [mEqB_iff] at hfin ⊢
      exact fun p => (he p).trans (hfin p)
  | step t hmem hen htail ih =>
      intro m2 he
      refine RealizesFrom.step t hmem ?_ ?_
      · rw [mLeB_iff] at hen ⊢
        intro p
        rw [he p]
        exact hen p
      · exact ih (fun p => by rw [count_fire, count_fire, he p])

/-- Ranks are bounded by the trace length. -/
theorem rankOf_le (tr : List UEvent) (v : ℕ) : rankOf tr v ≤ tr.length := by
  rw [rankOf]
  calc ((Finset.range tr.length).filter _).card
      ≤ (Finset.range tr.length).card := Finset.card_filter_le _ _
    _ = tr.length := Finset.card_range _

/-- Token weights: a token's weight drops steeply as its node's rank
drops, so every firing loses weight. -/
def rankW (tr : List UEvent) : Place → ℕ
  | .source => (2 * (tr.length + 1)) ^ (tr.length + 2)
  | .sink => 0
  | .fromSource v => (2 * (tr.length + 1)) ^ (rankOf tr v + 1)
  | .between _ v => (2 * (tr.length + 1)) ^ (rankOf tr v + 1)
  | .toSink _ => 1

/-- The weight of a marking. -/
def phiM (tr : List UEvent) (m : Marking) : ℕ := (m.map (rankW tr)).sum

/-- Weights are count-based: count-equal markings weigh the same. -/
theorem phiM_of_mEqB {tr : List UEvent} {a b : Marking} (h : mEqB a b = true) :
    phiM tr a = phiM tr b := by
  have hperm : a.Perm b := List.perm_iff_count.mpr ((mEqB_iff a b).1 h)
  exact (hperm.map (rankW tr)).sum_eq

/-- Removing a contained submarking splits the weight. -/
theorem phiM_diff_add {tr : List UEvent} {pre m : Marking} (h : mLeB pre m = true) :
    phiM tr (m.diff pre) + phiM tr pre = phiM tr m := by
  have hperm : (pre ++ m.diff pre).Perm m :=
    List.subperm_append_diff_self_of_count_le (fun x _ => (mLeB_iff pre m).1 h x)
  have hsum := (hperm.map (rankW tr)).sum_eq
  rw [List.map_append, List.sum_append] at hsum
  rw [phiM, phiM, phiM]
  omega

/-- Weight bookkeeping of one firing. -/
theorem phiM_fire_eq {tr : List UEvent} {g : BGraph} {t : Trans} {m : Marking}
    (hen : mLeB (preT g t) m = true) :
    phiM tr (fire g t m) + phiM tr (preT g t) = phiM tr m + phiM tr (postT g t) := by
  have h1 : phiM tr (fire g t m) =
      phiM tr (m.diff (preT g t)) + phiM tr (postT g t) := by
    rw [fire, phiM, List.map_append, List.sum_append]
    rfl
  have h2 := @phiM_diff_add tr (preT g t) m hen
  omega

/-- Every transition's outputs weigh strictly less than its inputs. -/
theorem phiM_post_lt_pre {tr : List UEvent} {g : BGraph}
    (hg : behavior_graph tr = Except.ok g) (hwf : ∀ e ∈ tr, WFEvent e)
    (hne : g.nodes ≠ []) {t : Trans} (ht : t ∈ transList g) :
    phiM tr (postT g t) < phiM tr (preT g t) := by
  have hE := edges_nodup hg
  have hlen := nodes_length_eq hg
  rcases transList_cases ht with rfl | rfl | ⟨v, l, rfl, hv⟩
  · rw [preT, postT]
    have hpre : phiM tr [Place.source] =
        (2 * (tr.length + 1)) ^ (tr.length + 2) := by
      simp [phiM, rankW]
    rw [hpre]
    have hbound : ∀ x ∈ (g.predless.map Place.fromSource).map (rankW tr),
        x ≤ (2 * (tr.length + 1)) ^ (tr.length + 1) := by
      intro x hx
      rw [List.map_map] at hx
      obtain ⟨u, hu, rfl⟩ := List.mem_map.1 hx
      show rankW tr (Place.fromSource u) ≤ _
      rw [rankW]
      exact Nat.pow_le_pow_right (by omega) (by have := rankOf_le tr u; omega)
    have hXpos : 0 < (2 * (tr.length + 1)) ^ (tr.length + 1) :=
      pow_pos (by omega) _
    calc phiM tr (g.predless.map Place.fromSource)
        ≤ ((g.predless.map Place.fromSource).map (rankW tr)).length •
            (2 * (tr.length + 1)) ^ (tr.length + 1) :=
          List.sum_le_card_nsmul _ _ hbound
      _ = g.predless.length * (2 * (tr.length + 1)) ^ (tr.length + 1) := by
          rw [List.length_map, List.length_map, smul_eq_mul]
      _ ≤ tr.length * (2 * (tr.length + 1)) ^ (tr.length + 1) := by
          refine Nat.mul_le_mul_right _ ?_
          calc g.predless.length ≤ (g.nodes.map Prod.fst).length :=
                List.length_filter_le _ _
            _ = tr.length := hlen
      _ < (2 * (tr.length + 1)) * (2 * (tr.length + 1)) ^ (tr.length + 1) :=
          (Nat.mul_lt_mul_right hXpos).mpr (by omega)
      _ = (2 * (tr.length + 1)) ^ (tr.length + 2) := by ring
  · rw [preT, postT]
    have hpost : phiM tr [Place.sink] = 0 := by simp [phiM, rankW]
    rw [hpost]
    have hval : phiM tr (g.succless.map Place.toSink) = g.succless.length := by
      rw [phiM, List.map_map]
      have hconst : (rankW tr ∘ Place.toSink) = fun _ => 1 := by
        funext u
        rfl
      rw [hconst]
      simp
    rw [hval]
    exact List.length_pos.2 (succless_ne_nil hg hwf hne)
  · rw [preT, postT]
    have hRpos : 0 < (2 * (tr.length + 1)) ^ (rankOf tr v + 1) := pow_pos (by omega) _
    have hrpos : 0 < (2 * (tr.length + 1)) ^ (rankOf tr v) := pow_pos (by omega) _
    have hpre : (2 * (tr.length + 1)) ^ (rankOf tr v + 1) ≤
        phiM tr ((if g.preds v = [] then [Place.fromSource v] else []) ++
          (g.preds v).map (fun u => Place.between u v)) := by
      rw [phiM, List.map_append, List.sum_append]
      by_cases hp : g.preds v = []
      · rw [if_pos hp]
        have h1 : ([Place.fromSource v].map (rankW tr)).sum =
            (2 * (tr.length + 1)) ^ (rankOf tr v + 1) := by
          simp [rankW]
        omega
      · obtain ⟨u, us, hus⟩ := List.exists_cons_of_ne_nil hp
        rw [hus, List.map_cons, List.map_cons, List.sum_cons]
        have h1 : rankW tr (Place.between u v) =
            (2 * (tr.length + 1)) ^ (rankOf tr v + 1) := rfl
        omega
    have hsucc_sub : g.succs v ⊆ g.nodes.map Prod.fst := by
      intro w hw
      exact (edge_ends_nodes hg (mem_succs.1 hw)).2
    have hslen : (g.succs v).length ≤ tr.length := by
      calc (g.succs v).length ≤ (g.nodes.map Prod.fst).length :=
            ((succs_nodup hE v).subperm hsucc_sub).length_le
        _ = tr.length := hlen
    have hsbound : (((g.succs v).map (fun w => Place.between v w)).map (rankW tr)).sum
        ≤ tr.length * (2 * (tr.length + 1)) ^ (rankOf tr v) := by
      have hb : ∀ x ∈ ((g.succs v).map (fun w => Place.between v w)).map (rankW tr),
          x ≤ (2 * (tr.length + 1)) ^ (rankOf tr v) := by
        intro x hx
        rw [List.map_map] at hx
        obtain ⟨w, hw, rfl⟩ := List.mem_map.1 hx
        show rankW tr (Place.between v w) ≤ _
        rw [rankW]
        have hlt := rank_lt_of_edge hg hwf (mem_succs.1 hw)
        exact Nat.pow_le_pow_right (by omega) (by omega)
      calc (((g.succs v).map (fun w => Place.between v w)).map (rankW tr)).sum
          ≤ (((g.succs v).map (fun w => Place.between v w)).map (rankW tr)).length •
              (2 * (tr.length + 1)) ^ (rankOf tr v) :=
            List.sum_le_card_nsmul _ _ hb
        _ = (g.succs v).length * (2 * (tr.length + 1)) ^ (rankOf tr v) := by
            rw [List.length_map, List.length_map, smul_eq_mul]
        _ ≤ tr.length * (2 * (tr.length + 1)) ^ (rankOf tr v) :=
            Nat.mul_le_mul_right _ hslen
    have hibound : ((if g.succs v = [] then [Place.toSink v] else []).map (rankW tr)).sum
        ≤ 1 := by
      by_cases h : g.succs v = []
      · rw [if_pos h]
        simp [rankW]
      · rw [if_neg h]
        simp
    have hone : 1 ≤ (2 * (tr.length + 1)) ^ (rankOf tr v) := hrpos
    have hmul : (tr.length + 1) * (2 * (tr.length + 1)) ^ (rankOf tr v) <
        (2 * (tr.length + 1)) * (2 * (tr.length + 1)) ^ (rankOf tr v) :=
      (Nat.mul_lt_mul_right hrpos).mpr (by omega)
    have hsum : tr.length * (2 * (tr.length + 1)) ^ (rankOf tr v) +
        (2 * (tr.length + 1)) ^ (rankOf tr v) =
        (tr.length + 1) * (2 * (tr.length + 1)) ^ (rankOf tr v) := by ring
    have hpowsucc : (2 * (tr.length + 1)) * (2 * (tr.length + 1)) ^ (rankOf tr v) =
        (2 * (tr.length + 1)) ^ (rankOf tr v + 1) := by ring
    have hpost : phiM tr ((g.succs v).map (fun w => Place.between v w) ++
        (if g.succs v = [] then [Place.toSink v] else [])) <
        (2 * (tr.length + 1)) ^ (rankOf tr v + 1) := by
      rw [phiM, List.map_append, List.sum_append]
      omega
    omega

/-- Firing an enabled transition strictly decreases the marking weight. -/
theorem phiM_fire_lt {tr : List UEvent} {g : BGraph}
    (hg : behavior_graph tr = Except.ok g) (hwf : ∀ e ∈ tr, WFEvent e)
    (hne : g.nodes ≠ []) {t : Trans} (ht : t ∈ transList g) {m : Marking}
    (hen : mLeB (preT g t) m = true) :
    phiM tr (fire g t m) < phiM tr m := by
  have h1 := @phiM_fire_eq tr g t m hen
  have h2 := phiM_post_lt_pre hg hwf hne ht
  omega

/-- A state is fully recorded: every complete replay from it has been
appended to the realization list. -/
def RecIn (g : BGraph) (s : EState) (recs : List (List VEvent)) : Prop :=
  ∀ u, RealizesFrom g s.1 s.2 u → u ∈ recs

/-- Completeness of the exploration loop body: every child reached by an
enabled transition is fully recorded when the fold returns. -/
theorem explore_fold_complete {tr : List UEvent} {g : BGraph}
    (hg : behavior_graph tr = Except.ok g) (hwf : ∀ e ∈ tr, WFEvent e)
    (hne : g.nodes ≠ []) (fuel : ℕ)
    (hexp : ∀ (m2 : Marking) (w2 : List VEvent) (st2 st2' : ERes),
      explore g fuel m2 w2 st2 = some st2' →
      (∀ s ∈ st2.vis, phiM tr s.1 ≤ phiM tr m2 → RecIn g s st2.recs) →
      RecIn g (m2, w2) st2'.recs ∧
      (∀ r ∈ st2.recs, r ∈ st2'.recs) ∧
      (∀ s ∈ st2'.vis, phiM tr s.1 ≤ phiM tr m2 → RecIn g s st2'.recs) ∧
      (∀ s ∈ st2'.vis, s ∈ st2.vis ∨ phiM tr s.1 ≤ phiM tr m2)) :
    ∀ (ts : List Trans) (m : Marking) (w : List VEvent) (st st' : ERes),
      (∀ t ∈ ts, t ∈ transList g ∧ mLeB (preT g t) m = true) →
      explore_fold g (fun m2 w2 st2 => explore g fuel m2 w2 st2) m w ts st = some st' →
      (∀ s ∈ st.vis, phiM tr s.1 < phiM tr m → RecIn g s st.recs) →
      (∀ t ∈ ts, RecIn g (fire g t m, w ++ evOf g t) st'.recs) ∧
      (∀ r ∈ st.recs, r ∈ st'.recs) ∧
      (∀ s ∈ st'.vis, phiM tr s.1 < phiM tr m → RecIn g s st'.recs) ∧
      (∀ s ∈ st'.vis, s ∈ st.vis ∨ phiM tr s.1 < phiM tr m) := by
  intro ts
  induction ts with
  | nil =>
      intro m w st st' hts hfold hpre
      rw [explore_fold] at hfold
      injection hfold with hfold2
      subst hfold2
      exact ⟨fun t ht => absurd ht (List.not_mem_nil t), fun r hr => hr, hpre,
        fun s hs => .inl hs⟩
  | cons t ts ih =>
      intro m w st st' hts hfold hpre
      have htt := hts t (List.mem_cons_self t ts)
      simp only [explore_fold] at hfold
      have hfold2 : (explore g fuel (fire g t m) (w ++ evOf g t) st).bind
          (explore_fold g (fun m2 w2 st2 => explore g fuel m2 w2 st2) m w ts) =
          some st' := by
        rw [evOf]
        by_cases hb : (t == Trans.tsource || t == Trans.tsink) = true
        · rw [if_pos hb, List.append_nil]
          rw [if_pos hb] at hfold
          exact hfold
        · rw [if_neg hb]
          rw [if_neg hb] at hfold
          exact hfold
      obtain ⟨st2, hchild, hrest⟩ : ∃ st2,
          explore g fuel (fire g t m) (w ++ evOf g t) st = some st2 ∧
          explore_fold g (fun m2 w2 st2 => explore g fuel m2 w2 st2) m w ts st2 =
            some st' := by
        cases hcc : explore g fuel (fire g t m) (w ++ evOf g t) st with
        | none =>
            rw [hcc] at hfold2
            simp at hfold2
        | some st2 =>
            rw [hcc] at hfold2
            exact ⟨st2, rfl, by simpa using hfold2⟩
      have hphi : phiM tr (fire g t m) < phiM tr m := phiM_fire_lt hg hwf hne htt.1 htt.2
      have hchildpre : ∀ s ∈ st.vis, phiM tr s.1 ≤ phiM tr (fire g t m) →
          RecIn g s st.recs := by
        intro s hs hle
        exact hpre s hs (by omega)
      obtain ⟨hc1, hc2, hc3, hc4⟩ := hexp _ _ _ _ hchild hchildpre
      have hrestpre : ∀ s ∈ st2.vis, phiM tr s.1 < phiM tr m → RecIn g s st2.recs := by
        intro s hs hlt
        rcases hc4 s hs with hold | hle
        · intro u hu
          exact hc2 u (hpre s hold hlt u hu)
        · exact hc3 s hs hle
      obtain ⟨hr1, hr2, hr3, hr4⟩ := ih m w st2 st'
        (fun t2 ht2 => hts t2 (List.mem_cons_of_mem _ ht2)) hrest hrestpre
      refine ⟨?_, ?_, hr3, ?_⟩
      · intro t2 ht2
        rcases List.mem_cons.1 ht2 with rfl | h2
        · intro u hu
          exact hr2 _ (hc1 u hu)
        · exact hr1 t2 h2
      · intro r hr
        exact hr2 r (hc2 r hr)
      · intro s hs
        rcases hr4 s hs with h | h
        · rcases hc4 s h with h2 | h2
          · exact .inl h2
          · exact .inr (by omega)
        · exact .inr h

/-- Completeness of the exploration: when `explore` returns, every complete
replay of the net from the entry state is among the recorded
realizations. -/
theorem explore_complete {tr : List UEvent} {g : BGraph}
    (hg : behavior_graph tr = Except.ok g) (hwf : ∀ e ∈ tr, WFEvent e)
    (hne : g.nodes ≠ []) :
    ∀ (fuel : ℕ) (m : Marking) (w : List VEvent) (st st' : ERes),
      explore g fuel m w st = some st' →
      (∀ s ∈ st.vis, phiM tr s.1 ≤ phiM tr m → RecIn g s st.recs) →
      RecIn g (m, w) st'.recs ∧
      (∀ r ∈ st.recs, r ∈ st'.recs) ∧
      (∀ s ∈ st'.vis, phiM tr s.1 ≤ phiM tr m → RecIn g s st'.recs) ∧
      (∀ s ∈ st'.vis, s ∈ st.vis ∨ phiM tr s.1 ≤ phiM tr m) := by
  intro fuel
  induction fuel with
  | zero =>
      intro m w st st' hex
      rw [explore] at hex
      cases hex
  | succ fuel ih =>
      intro m w st st' hex hpre
      rw [explore] at hex
      by_cases hfin : mEqB m finalMarking = true
      · rw [if_pos hfin] at hex
        injection hex with hex2
        subst hex2
        refine ⟨?_, fun r hr => List.mem_append_left _ hr, ?_, fun s hs => .inl hs⟩
        · intro u hu
          cases hu with
          | final h => exact List.mem_append_right _ (List.mem_singleton_self _)
          | step t hmem hen htail =>
              exfalso
              have hMfin : MEquiv m finalMarking := (mEqB_iff _ _).1 hfin
              rcases transList_cases hmem with rfl | rfl | ⟨v, l, rfl, hv⟩
              · exact tsource_not_enabled_final hMfin hen
              · exact tsink_not_enabled_final (nodes_fst_nodup hg)
                  (succless_ne_nil hg hwf hne) hMfin hen
              · exact act_not_enabled_final (edges_nodup hg) hMfin v l hen
        · intro s hs hle u hu
          exact List.mem_append_left _ (hpre s hs hle u hu)
      · rw [if_neg hfin] at hex
        by_cases hvis : stateMem m w st.vis = true
        · rw [if_pos hvis] at hex
          injection hex with hex2
          subst hex2
          rw [stateMem, List.any_eq_true] at hvis
          obtain ⟨s, hs, hcond⟩ := hvis
          rw [Bool.and_eq_true] at hcond
          have hseq : s.2 = w := eq_of_beq hcond.2
          have hphi_eq : phiM tr s.1 = phiM tr m := phiM_of_mEqB hcond.1
          have hM : MEquiv s.1 m := (mEqB_iff _ _).1 hcond.1
          refine ⟨?_, fun r hr => hr, hpre, fun s2 hs2 => .inl hs2⟩
          intro u hu
          exact hpre s hs (le_of_eq hphi_eq) u
            (by rw [hseq]; exact realizesFrom_mequiv hu hM)
        · rw [if_neg hvis] at hex
          have hts : ∀ t ∈ enabledList g m,
              t ∈ transList g ∧ mLeB (preT g t) m = true := by
            intro t ht
            obtain ⟨h1, h2⟩ := List.mem_filter.1 ht
            exact ⟨h1, by simpa using h2⟩
          have hfoldpre : ∀ s ∈ st.vis ++ [(m, w)],
              phiM tr s.1 < phiM tr m → RecIn g s st.recs := by
            intro s hs hlt
            rcases List.mem_append.1 hs with h | h
            · exact hpre s h (by omega)
            · rw [List.mem_singleton.1 h] at hlt
              exact absurd hlt (lt_irrefl _)
          obtain ⟨hf1, hf2, hf3, hf4⟩ := explore_fold_complete hg hwf hne fuel ih
            (enabledList g m) m w ⟨st.recs, st.vis ++ [(m, w)]⟩ st' hts hex hfoldpre
          have hmain : RecIn g (m, w) st'.recs := by
            intro u hu
            cases hu with
            | final h => exact absurd h hfin
            | step t hmem hen htail =>
                have htE : t ∈ enabledList g m :=
                  List.mem_filter.2 ⟨hmem, by simpa using hen⟩
                exact hf1 t htE u htail
          refine ⟨hmain, hf2, ?_, ?_⟩
          · intro s hs hle
            by_cases hlt : phiM tr s.1 < phiM tr m
            · exact hf3 s hs hlt
            · rcases hf4 s hs with hold | hlt2
              · rcases List.mem_append.1 hold with h | h
                · intro u hu
                  exact hf2 u (hpre s h hle u hu)
                · rw [List.mem_singleton.1 h]
                  exact hmain
              · exact absurd hlt2 hlt
          · intro s hs
            rcases hf4 s hs with hold | hlt
            · rcases List.mem_append.1 hold with h | h
              · exact .inl h
              · exact .inr (le_of_eq (by rw [List.mem_singleton.1 h]))
            · exact .inr (le_of_lt hlt)

/-- The label alternative the exploration uses for node `v`: the first
entry of the node's option dictionary. -/
def actLbl (g : BGraph) (v : ℕ) : Lbl :=
  match g.nodes.find? (fun nd => nd.1 = v) with
  | some nd => ((nd.2.head?).getD ((none : Lbl), emptyUInfo)).1
  | none => none

/-- The realization produced by firing the nodes in the order of `L`. -/
def linTrace (g : BGraph) (L : List ℕ) : List VEvent :=
  L.map (fun v => (actLbl g v, uDict g (Trans.act v (actLbl g v))))

/-- The chosen transition of every node is in the net's transition list. -/
theorem actLbl_mem_transList {tr : List UEvent} {g : BGraph}
    (hg : behavior_graph tr = Except.ok g) (hwf : ∀ e ∈ tr, WFEvent e)
    {v : ℕ} (hv : v ∈ g.nodes.map Prod.fst) :
    Trans.act v (actLbl g v) ∈ transList g := by
  obtain ⟨nd, hnd, hfst⟩ := List.mem_map.1 hv
  obtain ⟨nd2, hfind⟩ : ∃ nd2, g.nodes.find? (fun nd => nd.1 = v) = some nd2 := by
    cases hfind : g.nodes.find? (fun nd => nd.1 = v) with
    | some nd2 => exact ⟨nd2, rfl⟩
    | none =>
        exfalso
        have := List.find?_eq_none.1 hfind nd hnd
        simp [hfst] at this
  have hnd2mem := List.mem_of_find?_eq_some hfind
  have hnd2v : nd2.1 = v := by
    have := List.find?_some hfind
    simpa using this
  obtain ⟨lp, rest, hlp⟩ :=
    List.exists_cons_of_ne_nil (node_options_ne_nil hg hwf nd2 hnd2mem)
  have hlbl : actLbl g v = lp.1 := by
    rw [actLbl, hfind]
    show (nd2.2.head?.getD ((none : Lbl), emptyUInfo)).1 = lp.1
    simp [hlp]
  rw [transList]
  refine List.mem_cons_of_mem _ (List.mem_cons_of_mem _ ?_)
  rw [List.mem_flatMap]
  refine ⟨nd2, hnd2mem, ?_⟩
  rw [hlbl, ← hnd2v, hlp]
  exact List.mem_map.2 ⟨lp, List.mem_cons_self _ _, rfl⟩

/-- Firing the nodes along a linear extension, from a fired-set marking. -/
theorem realizes_of_lin_suffix {tr : List UEvent} {g : BGraph}
    (hg : behavior_graph tr = Except.ok g) (hwf : ∀ e ∈ tr, WFEvent e)
    {L : List ℕ} (hmemL : ∀ v, v ∈ L ↔ v ∈ g.nodes.map Prod.fst) (hnd : L.Nodup)
    (horder : ∀ (S1 S2 : List ℕ) (v : ℕ), L = S1 ++ v :: S2 →
      ∀ u, (u, v) ∈ g.edges → u ∈ S1) :
    ∀ (S2 S1 : List ℕ), L = S1 ++ S2 → HistClosed g S1 →
      ∀ (m : Marking) (w : List VEvent), MEquiv m (mkM g S1) →
      RealizesFrom g m w (w ++ linTrace g S2) := by
  have hE := edges_nodup hg
  have hN := nodes_fst_nodup hg
  intro S2
  induction S2 with
  | nil =>
      intro S1 hsplit hHC m w hm
      rw [List.append_nil] at hsplit
      subst hsplit
      refine RealizesFrom.step Trans.tsink (tsink_mem_transList g) ?_ ?_
      · refine (tsink_enabled_iff hN hm).2 ?_
        intro x hx
        exact (hmemL x).2 (mem_succless.1 hx).1
      · rw [show evOf g Trans.tsink = [] from rfl, List.append_nil,
          show linTrace g [] = [] from rfl, List.append_nil]
        refine RealizesFrom.final ((mEqB_iff _ _).2 ?_)
        exact fire_tsink_full hE hN (fun e he => (edge_ends_nodes hg he).2) hm
          (fun x hx => (hmemL x).2 hx)
  | cons v S2 ih =>
      intro S1 hsplit hHC m w hm
      have hvL : v ∈ L := by
        rw [hsplit]
        exact List.mem_append_right _ (List.mem_cons_self _ _)
      have hv : v ∈ g.nodes.map Prod.fst := (hmemL v).1 hvL
      have hvS1 : v ∉ S1 := by
        intro hvS
        have hnd2 := hnd
        rw [hsplit] at hnd2
        exact (List.disjoint_of_nodup_append hnd2) hvS (List.mem_cons_self _ _)
      have hpreds := horder S1 S2 v hsplit
      refine RealizesFrom.step (Trans.act v (actLbl g v))
        (actLbl_mem_transList hg hwf hv) ?_ ?_
      · exact (act_enabled_iff hE hN hm hv _).2 ⟨hvS1, fun u hu => hpreds u hu⟩
      · have hm2 := fire_act_mkM hE hN hm hv (edge_no_self hg hwf v) hHC hvS1
          (fun u hu => hpreds u hu) (actLbl g v)
        have hHC2 : HistClosed g (S1 ++ [v]) := by
          intro x hx u hu
          rcases List.mem_append.1 hx with h | h
          · exact List.mem_append_left _ (hHC x h u hu)
          · rw [List.mem_singleton.1 h] at hu
            exact List.mem_append_left _ (hpreds u hu)
        have hsplit2 : L = (S1 ++ [v]) ++ S2 := by
          rw [hsplit]
          simp
        have htail := ih (S1 ++ [v]) hsplit2 hHC2
          (fire g (Trans.act v (actLbl g v)) m)
          (w ++ evOf g (Trans.act v (actLbl g v))) hm2
        have hev : evOf g (Trans.act v (actLbl g v)) =
            [(actLbl g v, uDict g (Trans.act v (actLbl g v)))] := rfl
        have hlin : linTrace g (v :: S2) =
            (actLbl g v, uDict g (Trans.act v (actLbl g v))) :: linTrace g S2 := rfl
        rw [hlin]
        rw [hev, List.append_assoc, List.singleton_append] at htail
        exact htail

/-- Firing the nodes along a linear extension of a built graph replays the
net from the initial marking to the final marking. -/
theorem realizes_of_lin {tr : List UEvent} {g : BGraph}
    (hg : behavior_graph tr = Except.ok g) (hwf : ∀ e ∈ tr, WFEvent e)
    {L : List ℕ} (hmemL : ∀ v, v ∈ L ↔ v ∈ g.nodes.map Prod.fst) (hnd : L.Nodup)
    (horder : ∀ (S1 S2 : List ℕ) (v : ℕ), L = S1 ++ v :: S2 →
      ∀ u, (u, v) ∈ g.edges → u ∈ S1) :
    RealizesFrom g initialMarking [] (linTrace g L) := by
  have hE := edges_nodup hg
  have hN := nodes_fst_nodup hg
  refine RealizesFrom.step Trans.tsource (tsource_mem_transList g) ?_ ?_
  · exact (fire_tsource_init hN hE (fun p => rfl)).1
  · exact realizes_of_lin_suffix hg hwf hmemL hnd horder L [] rfl
      (fun x hx => absurd hx (List.not_mem_nil x)) _ ([] ++ evOf g Trans.tsource)
      (fire_tsource_init hN hE (fun p => rfl)).2

/-- A lexicographic key order: primary rational key, secondary tiebreak. -/
def pairKeyLe (b : ℕ → ℚ) (t : ℕ → ℕ) (u v : ℕ) : Bool :=
  if b u = b v then t u ≤ t v else b u < b v

theorem pairKeyLe_total (b : ℕ → ℚ) (t : ℕ → ℕ) (u v : ℕ) :
    pairKeyLe b t u v || pairKeyLe b t v u := by
  rw [pairKeyLe, pairKeyLe]
  by_cases h : b u = b v
  · rw [if_pos h, if_pos h.symm]
    by_cases h2 : t u ≤ t v
    · simp [h2]
    · simp [show t v ≤ t u by omega]
  · rw [if_neg h, if_neg (Ne.symm h)]
    rcases lt_or_gt_of_ne h with h2 | h2
    · simp [h2]
    · simp [h2]

theorem pairKeyLe_trans (b : ℕ → ℚ) (t : ℕ → ℕ) (u v w : ℕ)
    (h1 : pairKeyLe b t u v = true) (h2 : pairKeyLe b t v w = true) :
    pairKeyLe b t u w = true := by
  rw [pairKeyLe] at h1 h2 ⊢
  by_cases huv : b u = b v <;> by_cases hvw : b v = b w
  · rw [if_pos huv] at h1
    rw [if_pos hvw] at h2
    rw [if_pos (huv.trans hvw)]
    simp only [decide_eq_true_eq] at h1 h2 ⊢
    omega
  · rw [if_pos huv] at h1
    rw [if_neg hvw] at h2
    rw [if_neg (by rw [huv]; exact hvw), huv]
    exact h2
  · rw [if_neg huv] at h1
    rw [if_pos hvw] at h2
    rw [if_neg (by rw [← hvw]; exact huv), ← hvw]
    exact h1
  · rw [if_neg huv] at h1
    rw [if_neg hvw] at h2
    simp only [decide_eq_true_eq] at h1 h2
    rw [if_neg (ne_of_lt (h1.trans h2))]
    simp [h1.trans h2]

/-- In a `le`-sorted list, everything strictly below `v` stands before
`v`. -/
theorem before_of_pairwise {L : List ℕ} {le : ℕ → ℕ → Bool}
    (hpw : L.Pairwise (fun a b => le a b = true)) :
    ∀ (S1 S2 : List ℕ) (v : ℕ), L = S1 ++ v :: S2 →
      ∀ u, u ∈ L → u ≠ v → le v u ≠ true → u ∈ S1 := by
  intro S1 S2 v hsplit u huL hne2 hnle
  subst hsplit
  rcases List.mem_append.1 huL with h | h
  · exact h
  rcases List.mem_cons.1 h with h2 | h2
  · exact absurd h2 hne2
  · exfalso
    have hp2 := (List.pairwise_append.1 hpw).2.1
    rw [List.pairwise_cons] at hp2
    exact hnle (hp2.1 u h2)

/-- Sorting the node indices by a key that strictly increases along edges
yields a linear extension of the graph. -/
theorem lin_exists {tr : List UEvent} {g : BGraph}
    (hg : behavior_graph tr = Except.ok g) (hwf : ∀ e ∈ tr, WFEvent e)
    (b : ℕ → ℚ) (t : ℕ → ℕ)
    (hstrict : ∀ u v, (u, v) ∈ g.edges → b u < b v) :
    ∃ L : List ℕ, L.Perm (g.nodes.map Prod.fst) ∧
      L.Pairwise (fun x y => pairKeyLe b t x y = true) ∧
      (∀ v, v ∈ L ↔ v ∈ g.nodes.map Prod.fst) ∧ L.Nodup ∧
      (∀ (S1 S2 : List ℕ) (v : ℕ), L = S1 ++ v :: S2 →
        ∀ u, (u, v) ∈ g.edges → u ∈ S1) := by
  have hpw := ssort_pairwise (pairKeyLe b t) (pairKeyLe_total b t)
    (fun x y z => pairKeyLe_trans b t x y z) (g.nodes.map Prod.fst)
  have hperm := ssort_perm (pairKeyLe b t) (g.nodes.map Prod.fst)
  refine ⟨ssort (pairKeyLe b t) (g.nodes.map Prod.fst), hperm, hpw,
    fun v => hperm.mem_iff, hperm.nodup_iff.2 (nodes_fst_nodup hg), ?_⟩
  intro S1 S2 v hsplit u huv
  refine before_of_pairwise hpw S1 S2 v hsplit u ?_ ?_ ?_
  · exact hperm.mem_iff.2 (edge_ends_nodes hg huv).1
  · intro h
    subst h
    exact edge_no_self hg hwf u huv
  · intro hle
    rw [pairKeyLe] at hle
    have hb := hstrict u v huv
    by_cases heq : b v = b u
    · rw [heq] at hb
      exact absurd hb (lt_irrefl _)
    · rw [if_neg heq] at hle
      simp only [decide_eq_true_eq] at hle
      exact absurd (lt_trans hb hle) (lt_irrefl _)

/-- Events an interval's upper end touching the next interval's lower end
are ordered by no edge; an event's open/close times. -/
theorem openT_le_closeT {tr : List UEvent} (hwf : ∀ e ∈ tr, WFEvent e)
    {v : ℕ} (hv : v < tr.length) : openT tr v ≤ closeT tr v := by
  have hm : tr.getD v {} ∈ tr := by
    rw [List.getD_eq_getElem?_getD, List.getElem?_eq_getElem hv]
    exact List.getElem_mem hv
  exact (hwf _ hm).1

/-- The primary sort key for a touching pair `i`, `j`: `j` is pulled down
onto `i`'s close time, where both are unconstrained. -/
def touchBase (tr : List UEvent) (i j v : ℕ) : ℚ :=
  if v = j then closeT tr i else closeT tr v

/-- The tiebreak that puts `x` first among equal keys. -/
def touchTb (x v : ℕ) : ℕ :=
  if v = x then 0 else 1

/-- The touch key strictly increases along edges. -/
theorem touchBase_strict {tr : List UEvent} {g : BGraph}
    (hg : behavior_graph tr = Except.ok g) (hwf : ∀ e ∈ tr, WFEvent e)
    {i j : ℕ} (hi : i < tr.length) (hj : j < tr.length)
    (htouch : closeT tr i = openT tr j) :
    ∀ u v, (u, v) ∈ g.edges → touchBase tr i j u < touchBase tr i j v := by
  intro u v huv
  obtain ⟨hu, hv, hlt⟩ := edge_strictT hg huv
  rw [touchBase, touchBase]
  by_cases hvj : v = j
  · subst hvj
    rw [if_pos rfl]
    have huj : u ≠ v := by
      intro h
      subst h
      exact edge_no_self hg hwf u huv
    rw [if_neg huj, htouch]
    exact hlt
  · rw [if_neg hvj]
    by_cases huj : u = j
    · subst huj
      rw [if_pos rfl]
      calc closeT tr i = openT tr u := htouch
        _ ≤ closeT tr u := openT_le_closeT hwf hu
        _ < openT tr v := hlt
        _ ≤ closeT tr v := openT_le_closeT hwf hv
    · rw [if_neg huj]
      exact lt_of_lt_of_le hlt (openT_le_closeT hwf hv)

/-- C9: for every two events whose occurrence intervals merely touch (the
first event's maximum timestamp equals the second event's minimum timestamp,
which includes two certain events with identical timestamps), the builder
emits no precedence edge between them in either direction — at equal time
values the marker sort key places every open marker before every close
marker — and consequently whenever the exploration of the synthesized net
returns a realization list, that list contains a realization with the first
event before the second and one with the second before the first. -/
theorem c9_touching {tr : List UEvent} {g : BGraph}
    (hg : behavior_graph tr = Except.ok g) (hwf : ∀ e ∈ tr, WFEvent e)
    {i j : ℕ} (hi : i < tr.length) (hj : j < tr.length) (hij : i ≠ j)
    (htouch : closeT tr i = openT tr j) :
    (∀ (t : ℚ) (nd nd2 : GNode),
      keyLe (t, nd, false) (t, nd2, true) = true ∧
      keyLe (t, nd, true) (t, nd2, false) = false) ∧
    ((i, j) ∉ g.edges ∧ (j, i) ∉ g.edges) ∧
    ∀ (fuel : ℕ) (rs : List (List VEvent)),
      acyclic_net_variants g fuel = some rs →
      ∃ L1 L2 : List ℕ,
        L1.Perm (g.nodes.map Prod.fst) ∧ L2.Perm (g.nodes.map Prod.fst) ∧
        (∃ A B C, L1 = A ++ i :: (B ++ j :: C)) ∧
        (∃ A B C, L2 = A ++ j :: (B ++ i :: C)) ∧
        linTrace g L1 ∈ rs ∧ linTrace g L2 ∈ rs := by
  have hnoedge1 : (i, j) ∉ g.edges := by
    intro h
    obtain ⟨-, -, hlt⟩ := edge_strictT hg h
    rw [htouch] at hlt
    exact absurd hlt (lt_irrefl _)
  have hnoedge2 : (j, i) ∉ g.edges := by
    intro h
    obtain ⟨-, -, hlt⟩ := edge_strictT hg h
    have hchain : closeT tr i < closeT tr i :=
      calc closeT tr i = openT tr j := htouch
        _ ≤ closeT tr j := openT_le_closeT hwf hj
        _ < openT tr i := hlt
        _ ≤ closeT tr i := openT_le_closeT hwf hi
    exact absurd hchain (lt_irrefl _)
  refine ⟨?_, ⟨hnoedge1, hnoedge2⟩, ?_⟩
  · intro t nd nd2
    constructor
    · rw [keyLe, if_pos rfl]
      rfl
    · rw [keyLe, if_pos rfl]
      rfl
  intro fuel rs hrs
  have hne : g.nodes ≠ [] := by
    obtain ⟨nd, hnd, -⟩ := nodes_complete hg i hi
    exact List.ne_nil_of_mem hnd
  have hiN : i ∈ g.nodes.map Prod.fst := by
    obtain ⟨nd, hnd, hfst⟩ := nodes_complete hg i hi
    exact List.mem_map.2 ⟨nd, hnd, hfst⟩
  have hjN : j ∈ g.nodes.map Prod.fst := by
    obtain ⟨nd, hnd, hfst⟩ := nodes_complete hg j hj
    exact List.mem_map.2 ⟨nd, hnd, hfst⟩
  rw [acyclic_net_variants] at hrs
  obtain ⟨st2, hex, hrecs⟩ : ∃ st2, explore g fuel initialMarking [] ⟨[], []⟩ = some st2 ∧
      st2.recs = rs := by
    cases hcc : explore g fuel initialMarking [] ⟨[], []⟩ with
    | none => rw [hcc] at hrs; cases hrs
    | some st3 =>
        rw [hcc] at hrs
        exact ⟨st3, rfl, Option.some.inj hrs⟩
  have hcomp := (explore_complete hg hwf hne fuel initialMarking [] ⟨[], []⟩ st2 hex
    (fun s hs => absurd hs (List.not_mem_nil s))).1
  obtain ⟨L1, hP1, hpw1, hmem1, hnd1, hord1⟩ :=
    lin_exists hg hwf (touchBase tr i j) (touchTb i) (touchBase_strict hg hwf hi hj htouch)
  obtain ⟨L2, hP2, hpw2, hmem2, hnd2, hord2⟩ :=
    lin_exists hg hwf (touchBase tr i j) (touchTb j) (touchBase_strict hg hwf hi hj htouch)
  have hbase : touchBase tr i j j = touchBase tr i j i := by
    rw [touchBase, touchBase, if_pos rfl, if_neg hij]
  have hkey1 : pairKeyLe (touchBase tr i j) (touchTb i) j i ≠ true := by
    rw [pairKeyLe, if_pos hbase, touchTb, touchTb, if_neg (Ne.symm hij), if_pos rfl]
    simp
  have hkey2 : pairKeyLe (touchBase tr i j) (touchTb j) i j ≠ true := by
    rw [pairKeyLe, if_pos hbase.symm, touchTb, touchTb, if_neg hij, if_pos rfl]
    simp
  obtain ⟨S1, S2, hsplit1⟩ := List.mem_iff_append.mp ((hmem1 j).2 hjN)
  have hiS1 : i ∈ S1 :=
    before_of_pairwise hpw1 S1 S2 j hsplit1 i ((hmem1 i).2 hiN) hij hkey1
  obtain ⟨A, B, hsplitA⟩ := List.mem_iff_append.mp hiS1
  obtain ⟨T1, T2, hsplit2⟩ := List.mem_iff_append.mp ((hmem2 i).2 hiN)
  have hjT1 : j ∈ T1 :=
    before_of_pairwise hpw2 T1 T2 i hsplit2 j ((hmem2 j).2 hjN) (Ne.symm hij) hkey2
  obtain ⟨D, E, hsplitD⟩ := List.mem_iff_append.mp hjT1
  refine ⟨L1, L2, hP1, hP2, ⟨A, B, S2, by rw [hsplit1, hsplitA]; simp⟩,
    ⟨D, E, T2, by rw [hsplit2, hsplitD]; simp⟩, ?_, ?_⟩
  · have hin := hcomp (linTrace g L1) (realizes_of_lin hg hwf hmem1 hnd1 hord1)
    rwa [hrecs] at hin
  · have hin := hcomp (linTrace g L2) (realizes_of_lin hg hwf hmem2 hnd2 hord2)
    rwa [hrecs] at hin

/-- Two certain events with identical timestamps: their intervals touch. -/
def c9pair : List UEvent :=
  [{ timestamp := some 0, label := some "A" }, { timestamp := some 0, label := some "B" }]

/-- The behavior graph of `c9pair`: two nodes, no edges — the tied pair is
left unordered. -/
def c9g : BGraph :=
  ⟨[(0, [(some "A", { timestamp := 0 })]), (1, [(some "B", { timestamp := 0 })])], []⟩

/-- The realization list the exploration returns on `c9pair`'s net. -/
def c9rs : List (List VEvent) :=
  (acyclic_net_variants c9g 8).getD []

theorem c9_witness :
    ((0, 1) ∉ c9g.edges ∧ (1, 0) ∉ c9g.edges) ∧
    ∃ L1 L2 : List ℕ,
      L1.Perm (c9g.nodes.map Prod.fst) ∧ L2.Perm (c9g.nodes.map Prod.fst) ∧
      (∃ A B C, L1 = A ++ 0 :: (B ++ 1 :: C)) ∧
      (∃ A B C, L2 = A ++ 1 :: (B ++ 0 :: C)) ∧
      linTrace c9g L1 ∈ c9rs ∧ linTrace c9g L2 ∈ c9rs := by
  have hwf : ∀ e ∈ c9pair, WFEvent e := by
    intro e he
    rw [c9pair] at he
    rcases List.mem_cons.1 he with h | h
    · subst h
      exact ⟨by with_unfolding_all decide, fun ch hch => Option.noConfusion hch⟩
    · rw [List.mem_singleton] at h
      subst h
      exact ⟨by with_unfolding_all decide, fun ch hch => Option.noConfusion hch⟩
  have hmain := @c9_touching c9pair c9g (by with_unfolding_all decide) hwf 0 1
    (by rw [c9pair]; decide) (by rw [c9pair]; decide) (by decide)
    (by with_unfolding_all decide)
  exact ⟨hmain.2.1, hmain.2.2 8 c9rs (by with_unfolding_all decide)⟩

end Proved
